import Mathlib

/-!
Verification development for the wordle repository (src/src/wordle/game.py and
src/src/wordle/nerdle_equations.py), shallowly embedded in Lean 4.

Modelling conventions:
* Python strings are `List Char`; Python ints are `Nat`/`Int`; the float
  arithmetic in `guess_reduction` and in the equation generator's `eval`
  is modelled with exact rationals `ℚ`.
* Python dicts are association lists (`List (Char × Nat)`) with in-place
  update (`setKey`), Python sets of characters are duplicate-free
  `List Char` grown by `insertChar`.
* Python exceptions (`assert` failures, division by zero, list index
  errors) are modelled with `Except Err`; Python mutates objects in place,
  here state is passed explicitly and an error discards the state.
-/

namespace Wordle

/-- `TileFeedback` from game.py. -/
inductive TileFeedback where
  | correct : TileFeedback
  | wrong : TileFeedback
  | wrong_place : TileFeedback
deriving DecidableEq

/-- `ResultPiece` from game.py: one character of a guess plus its feedback
(`None` while unresolved during `get`). -/
structure ResultPiece where
  character : Char
  feedback : Option TileFeedback
deriving DecidableEq

/-- The pieces of a `ResultBase` (game.py): the result of a single guess. -/
abbrev GameResult := List ResultPiece

/-- Errors raisable by the embedded code: Python `assert` failure,
`ZeroDivisionError`, and list `IndexError`. -/
inductive Err where
  | assertionError : Err
  | zeroDivisionError : Err
  | indexError : Err
deriving DecidableEq

/-- Decidable equality for `Except`, for concrete evaluations. -/
instance instDecEqExcept {ε α : Type} [DecidableEq ε] [DecidableEq α] :
    DecidableEq (Except ε α) := fun a b =>
  match a, b with
  | Except.ok x, Except.ok y =>
    if h : x = y then isTrue (by rw [h])
    else isFalse (by intro hc; injection hc with h2; exact h h2)
  | Except.error x, Except.error y =>
    if h : x = y then isTrue (by rw [h])
    else isFalse (by intro hc; injection hc with h2; exact h h2)
  | Except.ok _, Except.error _ => isFalse (by intro hc; injection hc)
  | Except.error _, Except.ok _ => isFalse (by intro hc; injection hc)

/-- First pass of `ResultBase.get`: mark the obvious correct and wrong over
`zip(answer, guess)`; leave `None` when the character occurs elsewhere. -/
def pass1 (answer guess : List Char) : GameResult :=
  (answer.zip guess).map fun ag =>
    if ag.2 = ag.1 then ⟨ag.2, some TileFeedback.correct⟩
    else if ag.2 ∈ answer then ⟨ag.2, none⟩
    else ⟨ag.2, some TileFeedback.wrong⟩

/-- Is a piece already marked correct or wrong_place (the `already_marked`
predicate inside `ResultBase.get`). -/
def isMarked (p : ResultPiece) : Bool :=
  p.feedback == some TileFeedback.correct || p.feedback == some TileFeedback.wrong_place

/-- Number of pieces with the given character already marked correct or
wrong_place (the `already_marked` sum in `ResultBase.get`). -/
def markedCount (c : Char) (ps : GameResult) : Nat :=
  ps.countP fun p => p.character == c && isMarked p

/-- Second pass of `ResultBase.get`: resolve unresolved duplicates left to
right, counting `already_marked` over the whole current list of pieces
(`done ++ todo` mirrors the in-place mutation of `pieces`). -/
def pass2 (answer : List Char) : GameResult → GameResult → GameResult
  | done, [] => done
  | done, p :: rest =>
    match p.feedback with
    | some fb => pass2 answer (done ++ [⟨p.character, some fb⟩]) rest
    | none =>
      let inAnswer := answer.count p.character
      let alreadyMarked := markedCount p.character (done ++ p :: rest)
      if alreadyMarked < inAnswer then
        pass2 answer (done ++ [⟨p.character, some TileFeedback.wrong_place⟩]) rest
      else
        pass2 answer (done ++ [⟨p.character, some TileFeedback.wrong⟩]) rest

/-- The piece pass 1 builds for one `(answer-char, guess-char)` pair. -/
def pieceFor (answer : List Char) (ag : Char × Char) : ResultPiece :=
  if ag.2 = ag.1 then ⟨ag.2, some TileFeedback.correct⟩
  else if ag.2 ∈ answer then ⟨ag.2, none⟩
  else ⟨ag.2, some TileFeedback.wrong⟩

/-- `ResultBase.get(answer=…, guess=…)` from game.py. -/
def getResult (answer guess : List Char) : GameResult :=
  pass2 answer [] (pass1 answer guess)

/-- One piece of `ResultBase.__str__`: character, plus `@` for correct and
`?` for wrong_place; `none` feedback would raise `KeyError` in Python. -/
def encodePiece (p : ResultPiece) : Option (List Char) :=
  match p.feedback with
  | some TileFeedback.correct => some [p.character, '@']
  | some TileFeedback.wrong => some [p.character]
  | some TileFeedback.wrong_place => some [p.character, '?']
  | none => none

/-- `ResultBase.__str__` from game.py, as a character list. -/
def encodeResult : GameResult → Option (List Char)
  | [] => some []
  | p :: rest => do
    let c ← encodePiece p
    let r ← encodeResult rest
    pure (c ++ r)

/-- Replace the feedback of the last piece (`pieces[-1].feedback = …` in
`ResultBase.from_str`). -/
def setLastFeedback : GameResult → TileFeedback → GameResult
  | [], _ => []
  | [p], fb => [⟨p.character, some fb⟩]
  | p :: q :: rest, fb => p :: setLastFeedback (q :: rest) fb

/-- Does the last piece currently carry `wrong` feedback
(`pieces[-1].feedback != TileFeedback.wrong` check in `from_str`). -/
def lastIsWrong (ps : GameResult) : Bool :=
  match ps.getLast? with
  | some p => p.feedback == some TileFeedback.wrong
  | none => false

/-- Loop of `ResultBase.from_str`: `allowed` is the class's
`allowed_characters`, the state is the accumulated pieces and the previous
raw character. -/
def fromStrAux (allowed : List Char) : List Char → GameResult → Option Char →
    Except String GameResult
  | [], pieces, _ => Except.ok pieces
  | c :: rest, pieces, previous =>
    if c ∈ allowed then
      fromStrAux allowed rest (pieces ++ [⟨c, some TileFeedback.wrong⟩]) (some c)
    else if c = '?' ∨ c = '@' then
      if (match previous with
          | some pc => decide (pc ∈ allowed)
          | none => false) && lastIsWrong pieces then
        if c = '?' then
          fromStrAux allowed rest (setLastFeedback pieces TileFeedback.wrong_place) (some c)
        else
          fromStrAux allowed rest (setLastFeedback pieces TileFeedback.correct) (some c)
      else
        Except.error "Unexpected marker"
    else
      Except.error "Unexpected character"

/-- `ResultBase.from_str` from game.py. -/
def fromStr (allowed : List Char) (s : List Char) : Except String GameResult :=
  fromStrAux allowed s [] none

/-- `WordleResult.allowed_characters` (`string.ascii_lowercase`). -/
def wordleAllowed : List Char :=
  ['a', 'b', 'c', 'd', 'e', 'f', 'g', 'h', 'i', 'j', 'k', 'l', 'm',
   'n', 'o', 'p', 'q', 'r', 's', 't', 'u', 'v', 'w', 'x', 'y', 'z']

/-- `NerdleResult.allowed_characters` (`string.digits + "+-*/="`). -/
def nerdleAllowed : List Char :=
  ['0', '1', '2', '3', '4', '5', '6', '7', '8', '9', '+', '-', '*', '/', '=']

/-- `ResultBase.correct_chars` helper: enumerate with an explicit start
index. -/
def correctCharsAux : Nat → GameResult → List (Nat × Char)
  | _, [] => []
  | i, p :: rest =>
    (if p.feedback = some TileFeedback.correct then [(i, p.character)] else [])
      ++ correctCharsAux (i + 1) rest

/-- `ResultBase.correct_chars` from game.py. -/
def correct_chars (r : GameResult) : List (Nat × Char) :=
  correctCharsAux 0 r

/-- The set of characters of a result, each once, in first-occurrence order
(Python iterates `set(piece.character for piece in self)`; the iteration
order of the set does not affect any downstream semantics). -/
def resultChars (r : GameResult) : List Char :=
  (r.map fun p => p.character).dedup

/-- `min_required` inside `ResultBase.char_mins`: occurrences of the
character not marked wrong. -/
def minRequired (r : GameResult) (c : Char) : Nat :=
  r.countP fun p => p.character == c && !(p.feedback == some TileFeedback.wrong)

/-- `ResultBase.char_mins` from game.py, as an association list. -/
def result_char_mins (r : GameResult) : List (Char × Nat) :=
  (resultChars r).filterMap fun c =>
    let m := minRequired r c
    if m ≠ 0 then some (c, m) else none

/-- Characters with at least one wrong-tagged occurrence, each once. -/
def wrongChars (r : GameResult) : List Char :=
  ((r.filter fun p => p.feedback == some TileFeedback.wrong).map
    fun p => p.character).dedup

/-- `ResultBase.char_maxes` from game.py: for each wrong-tagged character
the maximum equals `char_mins.get(char, 0)`. -/
def result_char_maxes (r : GameResult) : List (Char × Nat) :=
  (wrongChars r).map fun c => (c, ((result_char_mins r).lookup c).getD 0)

/-- `ResultBase.wrong_positions` helper with explicit start index. -/
def wrongPositionsAux : Nat → GameResult → List (Nat × Char)
  | _, [] => []
  | i, p :: rest =>
    (if p.feedback = some TileFeedback.wrong_place then [(i, p.character)] else [])
      ++ wrongPositionsAux (i + 1) rest

/-- `ResultBase.wrong_positions` from game.py. -/
def result_wrong_positions (r : GameResult) : List (Nat × Char) :=
  wrongPositionsAux 0 r

/-- Dict read with default (`d.get(k, default)` / `d[k]`). -/
def lookupD (m : List (Char × Nat)) (c : Char) (d : Nat) : Nat :=
  (m.lookup c).getD d

/-- Dict write `d[k] = v`: update the entry in place, else append. -/
def setKey : List (Char × Nat) → Char → Nat → List (Char × Nat)
  | [], c, v => [(c, v)]
  | e :: rest, c, v => if e.1 = c then (c, v) :: rest else e :: setKey rest c v

/-- The updated mins map after one entry of the mins merge loop. -/
def minsStep (mins : List (Char × Nat)) (l : Char) (c : Nat) : List (Char × Nat) :=
  if lookupD mins l 0 < c then setKey mins l c else mins

/-- The boolean guard of the maxes merge loop
(`assert c >= self.char_mins[l]` when the letter has a merged min). -/
def maxGuard (mins : List (Char × Nat)) (l : Char) (c : Nat) : Bool :=
  (mins.lookup l).isSome && decide (c < lookupD mins l 0)

/-- Python `set.add` on a duplicate-free list model of a set. -/
def insertChar (s : List Char) (c : Char) : List Char :=
  if c ∈ s then s else s ++ [c]

/-- `KnowledgeBase` from game.py: everything known so far within a game.
`char_mins`/`char_maxes` are dicts, `wrong_positions` is a list of
`ANSWER_LENGTH` sets, `answer` a list of `ANSWER_LENGTH` optional chars. -/
structure Knowledge where
  char_mins : List (Char × Nat)
  char_maxes : List (Char × Nat)
  wrong_positions : List (List Char)
  answer : List (Option Char)
deriving DecidableEq

/-- A fresh `KnowledgeBase()` after `__post_init__` for answer length `L`. -/
def Knowledge.init (L : Nat) : Knowledge :=
  ⟨[], [], List.replicate L [], List.replicate L none⟩

/-- First loop of `KnowledgeBase.add_result`: merge the correct letters.
`assert self.answer[i] == l` on a conflicting already-set position;
an out-of-range index is a Python `IndexError`. -/
def mergeCorrect : List (Option Char) → List (Nat × Char) →
    Except Err (List (Option Char))
  | ans, [] => Except.ok ans
  | ans, (i, l) :: rest =>
    match ans[i]? with
    | some (some l') =>
      if l' = l then mergeCorrect (ans.set i (some l)) rest
      else Except.error Err.assertionError
    | some none => mergeCorrect (ans.set i (some l)) rest
    | none => Except.error Err.indexError

/-- Second loop of `KnowledgeBase.add_result`: merge the min letter counts
against the (unchanged) established maxes. -/
def mergeMins (maxes : List (Char × Nat)) : List (Char × Nat) →
    List (Char × Nat) → Except Err (List (Char × Nat))
  | mins, [] => Except.ok mins
  | mins, (l, c) :: rest =>
    match maxes.lookup l with
    | some mx =>
      if c ≤ mx then
        mergeMins maxes (if lookupD mins l 0 < c then setKey mins l c else mins) rest
      else Except.error Err.assertionError
    | none =>
      mergeMins maxes (if lookupD mins l 0 < c then setKey mins l c else mins) rest

/-- Third loop of `KnowledgeBase.add_result`: merge the max letter counts
against the already-merged mins; an established max must never change. -/
def mergeMaxes (mins : List (Char × Nat)) : List (Char × Nat) →
    List (Char × Nat) → Except Err (List (Char × Nat))
  | maxes, [] => Except.ok maxes
  | maxes, (l, c) :: rest =>
    if (mins.lookup l).isSome && decide (c < lookupD mins l 0) then
      Except.error Err.assertionError
    else
      match maxes.lookup l with
      | some mx =>
        if c = mx then mergeMaxes mins maxes rest
        else Except.error Err.assertionError
      | none => mergeMaxes mins (setKey maxes l c) rest

/-- Fourth loop of `KnowledgeBase.add_result`: union the wrong positions. -/
def mergeWrong : List (List Char) → List (Nat × Char) →
    Except Err (List (List Char))
  | wp, [] => Except.ok wp
  | wp, (i, c) :: rest =>
    match wp[i]? with
    | some s => mergeWrong (wp.set i (insertChar s c)) rest
    | none => Except.error Err.indexError

/-- `KnowledgeBase.add_result` from game.py: the four merge loops in
source order. -/
def Knowledge.add_result (k : Knowledge) (r : GameResult) : Except Err Knowledge := do
  let ans ← mergeCorrect k.answer (correct_chars r)
  let mins ← mergeMins k.char_maxes k.char_mins (result_char_mins r)
  let maxes ← mergeMaxes mins k.char_maxes (result_char_maxes r)
  let wp ← mergeWrong k.wrong_positions (result_wrong_positions r)
  Except.ok ⟨mins, maxes, wp, ans⟩

/-- `if word.count(l) < c: return False` loop of `is_valid_solution`. -/
def checkMins : List (Char × Nat) → List Char → Bool
  | [], _ => true
  | (l, c) :: rest, word => decide (c ≤ word.count l) && checkMins rest word

/-- `if word.count(l) > c: return False` loop of `is_valid_solution`. -/
def checkMaxes : List (Char × Nat) → List Char → Bool
  | [], _ => true
  | (l, c) :: rest, word => decide (word.count l ≤ c) && checkMaxes rest word

/-- `for a, l in zip(self.answer, word)` loop of `is_valid_solution`
(`zip` truncates at the shorter list). -/
def checkPositions : List (Option Char) → List Char → Bool
  | _, [] => true
  | [], _ :: _ => true
  | o :: os, w :: ws =>
    (match o with
     | some l => l == w
     | none => true) && checkPositions os ws

/-- `for i, l in enumerate(word): if l in self.wrong_positions[i]` loop of
`is_valid_solution`.  A word longer than `ANSWER_LENGTH` would raise
`IndexError` in Python; that case is outside every claim's scope and is
modelled as passing. -/
def checkWrong : List (List Char) → List Char → Bool
  | _, [] => true
  | [], _ :: _ => true
  | s :: ss, w :: ws => !(decide (w ∈ s)) && checkWrong ss ws

/-- `KnowledgeBase.is_valid_solution` from game.py, checks in source
order. -/
def Knowledge.is_valid_solution (k : Knowledge) (word : List Char) : Bool :=
  checkMins k.char_mins word && checkMaxes k.char_maxes word &&
    checkPositions k.answer word && checkWrong k.wrong_positions word

/-- `valid_solutions` (WordleKnowledge/NerdleKnowledge): filter a solution
list with `is_valid_solution`.  The default solution list (`SECRET_WORDS`
resp. the cached equation file) lives outside src/, so the universe is an
explicit parameter. -/
def valid_solutions (k : Knowledge) (solution_list : List (List Char)) :
    List (List Char) :=
  solution_list.filter fun w => k.is_valid_solution w

/-- `KnowledgeBase.guess_reduction` from game.py with an explicit
`pretend_answers` list and an explicit candidate universe for the inner
`valid_solutions()` calls.  Python computes `total` over the loop (each
iteration merging into a deep copy), then `total / len(pretend_answers)`
(a `ZeroDivisionError` when the list is empty); floats are modelled as
exact rationals. -/
def guess_reduction (univ : List (List Char)) (k : Knowledge)
    (guess : List Char) (pretend_answers : List (List Char)) : Except Err ℚ := do
  let total ← pretend_answers.foldlM
    (fun (acc : Nat) pa => do
      let k' ← k.add_result (getResult pa guess)
      pure (acc + (valid_solutions k' univ).length))
    0
  if pretend_answers.length = 0 then
    Except.error Err.zeroDivisionError
  else
    let avg : ℚ := (total : ℚ) / (pretend_answers.length : ℚ)
    Except.ok ((pretend_answers.length : ℚ) - avg)

/-- The accumulation loop of `guess_reduction`, as a named function for
reasoning: fold the per-pretend-answer valid-solution counts. -/
def reductionFold (univ : List (List Char)) (k : Knowledge) (guess : List Char)
    (acc : Nat) (pas : List (List Char)) : Except Err Nat :=
  pas.foldlM
    (fun (acc : Nat) pa => do
      let k' ← k.add_result (getResult pa guess)
      pure (acc + (valid_solutions k' univ).length))
    acc

/-- Fold a game: add the feedback of each guess against `answer` into the
model, as the play loops in the repository do. -/
def foldResults (answer : List Char) : Knowledge → List (List Char) →
    Except Err Knowledge
  | k, [] => Except.ok k
  | k, g :: gs =>
    match k.add_result (getResult answer g) with
    | Except.ok k' => foldResults answer k' gs
    | Except.error e => Except.error e

/-- Spec-side pass 1, following the spec's words (§4.1): position-wise,
equal characters are correct, characters absent from the answer are wrong,
the rest is unresolved. -/
def specPass1 (answer guess : List Char) : GameResult :=
  (answer.zip guess).map fun ag =>
    if ag.2 = ag.1 then ⟨ag.2, some TileFeedback.correct⟩
    else if ag.2 ∈ answer then ⟨ag.2, none⟩
    else ⟨ag.2, some TileFeedback.wrong⟩

/-- Spec-side pass 2, following the spec's words (§4.1): walk left to right
over the unresolved positions carrying the effective marked count `m` per
character; tag wrong_place exactly when the answer's total occurrences
exceed `m`, incrementing `m`, otherwise tag wrong. -/
def specResolve (answer : List Char) : GameResult → (Char → Nat) → GameResult
  | [], _ => []
  | p :: rest, m =>
    match p.feedback with
    | some fb => ⟨p.character, some fb⟩ :: specResolve answer rest m
    | none =>
      if m p.character < answer.count p.character then
        ⟨p.character, some TileFeedback.wrong_place⟩ ::
          specResolve answer rest (fun c => if c = p.character then m c + 1 else m c)
      else
        ⟨p.character, some TileFeedback.wrong⟩ :: specResolve answer rest m

/-- Spec-side feedback computation: pass 1, then left-to-right duplicate
resolution starting from the count of pieces already tagged correct. -/
def specGet (answer guess : List Char) : GameResult :=
  let ps := specPass1 answer guess
  specResolve answer ps fun c => markedCount c ps

/-- A well-formed result value: every piece carries a character of the
variant's alphabet and a resolved feedback tag. -/
def wfResult (allowed : List Char) (r : GameResult) : Bool :=
  r.all fun p => decide (p.character ∈ allowed) && p.feedback.isSome

/-- A well-formed result string: a run of alphabet characters, each
optionally followed by one `?` or `@` marker. -/
def wfStr (allowed : List Char) : List Char → Bool
  | [] => true
  | [c] => decide (c ∈ allowed)
  | c :: m :: rest =>
    decide (c ∈ allowed) &&
      (if m = '?' ∨ m = '@' then wfStr allowed rest else wfStr allowed (m :: rest))

/-- An already-set position does not contradict a correct piece. -/
def ansOk (o : Option (Option Char)) (c : Char) : Bool :=
  match o with
  | some (some l') => l' == c
  | _ => true

/-- A derived minimum does not exceed an established maximum. -/
def minOk (o : Option Nat) (c : Nat) : Bool :=
  match o with
  | some mx => decide (c ≤ mx)
  | none => true

/-- A derived maximum agrees with any established maximum. -/
def maxOk (o : Option Nat) (v : Nat) : Bool :=
  match o with
  | some mx => v == mx
  | none => true

/-- Declarative (order-free) consistency of a result with a model: no
correct piece contradicts a set position, no derived min exceeds an
established max, and every derived max is at least the currently
established min and agrees with any established max. -/
def consistentB (k : Knowledge) (r : GameResult) : Bool :=
  ((correct_chars r).all fun ic => ansOk k.answer[ic.1]? ic.2) &&
  ((result_char_mins r).all fun lc => minOk (k.char_maxes.lookup lc.1) lc.2) &&
  ((result_char_maxes r).all fun lv =>
    decide (lookupD k.char_mins lv.1 0 ≤ lv.2) &&
    maxOk (k.char_maxes.lookup lv.1) lv.2)

/-- All indices a merge of this result would touch are inside the model's
arrays (outside this range Python would raise `IndexError`, not an
`assert` failure). -/
def inRangeB (k : Knowledge) (r : GameResult) : Bool :=
  ((correct_chars r).all fun ic => decide (ic.1 < k.answer.length)) &&
  ((result_wrong_positions r).all fun ic => decide (ic.1 < k.wrong_positions.length))

/-- Soundness invariant: everything the model records is true of the real
answer `a` — set positions match, minimum counts are lower bounds, maximum
counts are exact, characters excluded from a position differ from the
answer there, and the per-position arrays have the answer's length. -/
def SoundInv (a : List Char) (k : Knowledge) : Prop :=
  (∀ (i : Nat) (l : Char), k.answer[i]? = some (some l) → a[i]? = some l) ∧
  (∀ e ∈ k.char_mins, e.2 ≤ a.count e.1) ∧
  (∀ e ∈ k.char_maxes, e.2 = a.count e.1) ∧
  (∀ (i : Nat) (s : List Char) (c : Char), k.wrong_positions[i]? = some s →
    c ∈ s → ∀ x, a[i]? = some x → x ≠ c) ∧
  k.answer.length = a.length ∧ k.wrong_positions.length = a.length

end Wordle

namespace Nerdle

/-- The four operators of nerdle_equations.py, in source order `"+-*/"`. -/
def opChars : List Char := ['+', '-', '*', '/']

/-- Arithmetic operators of the equation language. -/
inductive Op where
  | add : Op
  | sub : Op
  | mul : Op
  | quot : Op
deriving DecidableEq

/-- Parse one operator character. -/
def charToOp : Char → Option Op
  | '+' => some Op.add
  | '-' => some Op.sub
  | '*' => some Op.mul
  | '/' => some Op.quot
  | _ => none

/-- Is the character a decimal digit. -/
def isDigitCh (c : Char) : Bool :=
  decide ('0' ≤ c) && decide (c ≤ '9')

/-- Value of a decimal digit character. -/
def digitVal (c : Char) : Nat := c.toNat - 48

/-- The decimal digit character for a value below ten. -/
def digitChar : Nat → Char
  | 0 => '0'
  | 1 => '1'
  | 2 => '2'
  | 3 => '3'
  | 4 => '4'
  | 5 => '5'
  | 6 => '6'
  | 7 => '7'
  | 8 => '8'
  | _ => '9'

/-- Consume a run of digit characters, accumulating the value. -/
def takeNumAux : List Char → Nat → Nat × List Char
  | [], acc => (acc, [])
  | c :: rest, acc =>
    if isDigitCh c then takeNumAux rest (acc * 10 + digitVal c) else (acc, c :: rest)

/-- Read a nonempty maximal digit run from the front of a string. -/
def takeNum : List Char → Option (Nat × List Char)
  | [] => none
  | c :: rest =>
    if isDigitCh c then some (takeNumAux rest (digitVal c)) else none

/-- Tokenize the `(operator, number)` tail of an arithmetic expression;
the fuel argument only bounds recursion and is sufficient at the string's
length since every step consumes at least two characters. -/
def tokChain : Nat → List Char → Option (List (Op × Nat))
  | _, [] => some []
  | 0, _ :: _ => none
  | fuel + 1, c :: rest => do
    let op ← charToOp c
    let (n, rest') ← takeNum rest
    let chain ← tokChain fuel rest'
    pure ((op, n) :: chain)

/-- Collapse the `*`/`/` runs of a token chain (operator precedence of the
Python expression grammar), keeping the `+`/`-` structure. -/
def groupMulDiv : ℚ → List (Op × ℚ) → ℚ × List (Op × ℚ)
  | cur, [] => (cur, [])
  | cur, (Op.mul, v) :: rest => groupMulDiv (cur * v) rest
  | cur, (Op.quot, v) :: rest => groupMulDiv (cur / v) rest
  | cur, (Op.add, v) :: rest =>
    let w := groupMulDiv v rest
    (cur, (Op.add, w.1) :: w.2)
  | cur, (Op.sub, v) :: rest =>
    let w := groupMulDiv v rest
    (cur, (Op.sub, w.1) :: w.2)

/-- Left-to-right additive evaluation of a collapsed chain. -/
def sumChain : ℚ → List (Op × ℚ) → ℚ
  | acc, [] => acc
  | acc, (Op.sub, v) :: rest => sumChain (acc - v) rest
  | acc, (_, v) :: rest => sumChain (acc + v) rest

/-- Evaluate a first value followed by a token chain with Python's
precedence (`*`, `/` before `+`, `-`, all left associative). -/
def evalChain (t : ℚ) (chain : List (Op × ℚ)) : ℚ :=
  let w := groupMulDiv t chain
  sumChain w.1 w.2

/-- Exact-arithmetic model of Python's `eval` on the generator's left-hand
sides: numbers and the four binary operators, true division taken over ℚ
(the generator's terms are never zero, so `ZeroDivisionError` cannot
occur on the strings it builds). -/
def evalLhs (s : List Char) : Option ℚ := do
  let (t, rest) ← takeNum s
  let chain ← tokChain rest.length rest
  pure (evalChain (t : ℚ) (chain.map fun p => (p.1, (p.2 : ℚ))))

/-- Little-endian decimal digits of a natural number. -/
def natToStringAux (n : Nat) : List Char :=
  if h : n < 10 then [digitChar n]
  else digitChar (n % 10) :: natToStringAux (n / 10)
decreasing_by exact Nat.div_lt_self (by omega) (by omega)

/-- Python `str` on a nonnegative int. -/
def natToString (n : Nat) : List Char :=
  (natToStringAux n).reverse

/-- Python `str` on an int (a possible minus sign counts toward the
length, exactly as in the source's length test). -/
def intToString (i : Int) : List Char :=
  if i < 0 then '-' :: natToString i.natAbs else natToString i.toNat

/-- Read a complete digit string as a natural number. -/
def parseNat (s : List Char) : Option Nat :=
  match takeNum s with
  | some (n, []) => some n
  | _ => none

/-- Read a complete optionally-signed digit string as an integer. -/
def parseInt : List Char → Option Int
  | '-' :: rest => (parseNat rest).map fun n => -(n : Int)
  | s => (parseNat s).map fun n => (n : Int)

/-- Split a string at its first `=`. -/
def splitEq : List Char → Option (List Char × List Char)
  | [] => none
  | c :: rest =>
    if c = '=' then some ([], rest)
    else (splitEq rest).map fun p => (c :: p.1, p.2)

/-- `ANSWER_SIZE` from nerdle_equations.py. -/
def ANSWER_SIZE : Nat := 8

/-- `range(10 ** (ts - 1), 10 ** ts)`: all terms of decimal length `ts`. -/
def termRange (ts : Nat) : List Nat :=
  List.range' (10 ^ (ts - 1)) (10 ^ ts - 10 ^ (ts - 1))

/-- `itertools.product` over the per-term ranges. -/
def prodTerms : List Nat → List (List Nat)
  | [] => [[]]
  | ts :: rest => (termRange ts).flatMap fun t => (prodTerms rest).map fun terms => t :: terms

/-- `itertools.product(*itertools.repeat(xs, n))`. -/
def productRep (xs : List Char) : Nat → List (List Char)
  | 0 => [[]]
  | n + 1 => xs.flatMap fun x => (productRep xs n).map fun l => x :: l

/-- Like `productRep` for the term-size tuples. -/
def productRepN (xs : List Nat) : Nat → List (List Nat)
  | 0 => [[]]
  | n + 1 => xs.flatMap fun x => (productRepN xs n).map fun l => x :: l

/-- `more_itertools.interleave_longest(map(str, terms), operators)` for one
more term than operators. -/
def interleaveTO : List (List Char) → List Char → List Char
  | [], ops => ops
  | t :: ts, [] => t ++ interleaveTO ts []
  | t :: ts, o :: os => t ++ o :: interleaveTO ts os

/-- The body of the innermost loop of `generate`: evaluate the equation,
keep it only when the result is an exact integer whose decimal length is
the right-side budget, and emit `lhs=rhs`. -/
def tryEquation (size_r : Nat) (terms : List Nat) (operators : List Char) :
    Option (List Char) :=
  let equation := interleaveTO (terms.map natToString) operators
  match evalLhs equation with
  | none => none
  | some ans =>
    if ans.den = 1 then
      if (intToString ans.num).length = size_r then
        some (equation ++ '=' :: intToString ans.num)
      else none
    else none

/-- `generate` from nerdle_equations.py: every emitted line, in emission
order. -/
def generate : List (List Char) :=
  (List.range' 1 (ANSWER_SIZE - 2)).flatMap fun size_l =>
    let size_r := ANSWER_SIZE - size_l - 1
    let max_operators := (size_l - 1) / 2
    if max_operators = 0 then []
    else
      (List.range' 1 max_operators).flatMap fun num_operators =>
        let total_term_length := size_l - num_operators
        let num_terms := num_operators + 1
        let max_term_size := total_term_length - (num_terms - 1)
        ((productRepN (List.range' 1 max_term_size) num_terms).filter
            fun term_sizes => term_sizes.sum = total_term_length).flatMap
          fun term_sizes =>
            (productRep opChars num_operators).flatMap fun operators =>
              (prodTerms term_sizes).filterMap fun terms =>
                tryEquation size_r terms operators

end Nerdle



namespace Wordle

lemma markedCount_append (c : Char) (xs ys : GameResult) :
    markedCount c (xs ++ ys) = markedCount c xs + markedCount c ys :=
  List.countP_append _ _ _

lemma markedCount_cons (c : Char) (p : ResultPiece) (ps : GameResult) :
    markedCount c (p :: ps) =
      markedCount c ps + (if p.character == c && isMarked p then 1 else 0) :=
  List.countP_cons _ _ _

lemma isMarked_none {p : ResultPiece} (h : p.feedback = none) : isMarked p = false := by
  simp [isMarked, h]

lemma markedCount_middle (c : Char) (done rest : GameResult) (q : ResultPiece) :
    markedCount c (done ++ q :: rest) =
      markedCount c (done ++ rest) + (if q.character == c && isMarked q then 1 else 0) := by
  rw [markedCount_append, markedCount_cons, markedCount_append]
  omega

lemma pass2_eq_specResolve (answer : List Char) :
    ∀ (todo done : GameResult) (m : Char → Nat),
      (∀ c, m c = markedCount c (done ++ todo)) →
      pass2 answer done todo = done ++ specResolve answer todo m := by
  intro todo
  induction todo with
  | nil =>
    intro done m _
    simp [pass2, specResolve]
  | cons p rest ih =>
    obtain ⟨ch, fb⟩ := p
    cases fb with
    | some fb =>
      intro done m hm
      have hm' : ∀ c, m c = markedCount c ((done ++ [⟨ch, some fb⟩]) ++ rest) := by
        intro c
        rw [hm c, List.append_assoc]
        rfl
      have lhs : pass2 answer done (⟨ch, some fb⟩ :: rest) =
          pass2 answer (done ++ [⟨ch, some fb⟩]) rest := by
        simp [pass2]
      have rhs : specResolve answer (⟨ch, some fb⟩ :: rest) m =
          ⟨ch, some fb⟩ :: specResolve answer rest m := by
        simp [specResolve]
      rw [lhs, rhs, ih _ m hm']
      simp
    | none =>
      intro done m hm
      have munm : (⟨ch, none⟩ : ResultPiece).feedback = none := rfl
      have hbase : ∀ c, m c = markedCount c (done ++ rest) := by
        intro c
        rw [hm c, markedCount_middle]
        simp [isMarked]
      have key : markedCount ch (done ++ ⟨ch, none⟩ :: rest) = m ch := (hm ch).symm
      have lhs : pass2 answer done (⟨ch, none⟩ :: rest) =
          if m ch < answer.count ch then
            pass2 answer (done ++ [⟨ch, some TileFeedback.wrong_place⟩]) rest
          else
            pass2 answer (done ++ [⟨ch, some TileFeedback.wrong⟩]) rest := by
        simp only [pass2, key]
      have rhs : specResolve answer (⟨ch, none⟩ :: rest) m =
          if m ch < answer.count ch then
            ⟨ch, some TileFeedback.wrong_place⟩ ::
              specResolve answer rest (fun c => if c = ch then m c + 1 else m c)
          else
            ⟨ch, some TileFeedback.wrong⟩ :: specResolve answer rest m := by
        simp only [specResolve]
      rw [lhs, rhs]
      by_cases hlt : m ch < answer.count ch
      · rw [if_pos hlt, if_pos hlt]
        have hm' : ∀ c, (if c = ch then m c + 1 else m c) =
            markedCount c ((done ++ [⟨ch, some TileFeedback.wrong_place⟩]) ++ rest) := by
          intro c
          have e : (done ++ [(⟨ch, some TileFeedback.wrong_place⟩ : ResultPiece)]) ++ rest =
              done ++ ⟨ch, some TileFeedback.wrong_place⟩ :: rest := by
            simp
          rw [e, markedCount_middle]
          have : markedCount c (done ++ rest) +
              (if (⟨ch, some TileFeedback.wrong_place⟩ : ResultPiece).character == c &&
                isMarked ⟨ch, some TileFeedback.wrong_place⟩ then 1 else 0) =
              markedCount c (done ++ rest) + (if ch == c then 1 else 0) := by
            simp [isMarked]
          rw [this, ← hbase c]
          by_cases hc : c = ch
          · subst hc
            simp
          · have : (ch == c) = false := by
              simp
              exact fun hh => hc hh.symm
            simp [hc, this]
        rw [ih _ _ hm']
        simp
      · rw [if_neg hlt, if_neg hlt]
        have hm' : ∀ c, m c =
            markedCount c ((done ++ [⟨ch, some TileFeedback.wrong⟩]) ++ rest) := by
          intro c
          have e : (done ++ [(⟨ch, some TileFeedback.wrong⟩ : ResultPiece)]) ++ rest =
              done ++ ⟨ch, some TileFeedback.wrong⟩ :: rest := by
            simp
          rw [e, markedCount_middle]
          have : (if (⟨ch, some TileFeedback.wrong⟩ : ResultPiece).character == c &&
              isMarked ⟨ch, some TileFeedback.wrong⟩ then 1 else 0) = 0 := by
            simp [isMarked]
          rw [this, ← hbase c]
          omega
        rw [ih _ _ hm']
        simp

/-- C1: `FeedbackEngine.get` computes feedback by the specified two-pass
algorithm — pass 1 tags equal positions correct and absent characters
wrong; pass 2 walks left to right over the unresolved positions, tagging a
character wrong_place exactly when its total count in the answer exceeds
the count of its occurrences already tagged correct or wrong_place, and
wrong otherwise — and `get(answer="abbey", guess="blobs")` encodes to
`b?lob?s`. -/
theorem c1_two_pass_feedback :
    (∀ answer guess : List Char, getResult answer guess = specGet answer guess) ∧
      encodeResult (getResult "abbey".toList "blobs".toList) = some "b?lob?s".toList := by
  refine ⟨fun answer guess => ?_, by decide⟩
  have h := pass2_eq_specResolve answer (pass1 answer guess) []
      (fun c => markedCount c (pass1 answer guess)) (fun c => by simp)
  simpa [getResult, specGet, show specPass1 = pass1 from rfl] using h

/-- C7 counterexample: on `answer="point"`, `guess="title"` the code does
not produce the tag list claimed in the spec (t=wrong, i=wrong_place,
t=wrong, l=wrong, e=correct): the first `t` is wrong_place and `e` is
wrong. -/
theorem c7_counterexample :
    getResult "point".toList "title".toList ≠
      [⟨'t', some TileFeedback.wrong⟩, ⟨'i', some TileFeedback.wrong_place⟩,
       ⟨'t', some TileFeedback.wrong⟩, ⟨'l', some TileFeedback.wrong⟩,
       ⟨'e', some TileFeedback.correct⟩] := by
  decide

/-- C7 amended: `get(answer="point", guess="title")` tags, in order,
t=wrong_place, i=wrong_place, t=wrong, l=wrong, e=wrong, and this Result
encodes to `t?i?tle`. -/
theorem c7_literal_point_title :
    getResult "point".toList "title".toList =
      [⟨'t', some TileFeedback.wrong_place⟩, ⟨'i', some TileFeedback.wrong_place⟩,
       ⟨'t', some TileFeedback.wrong⟩, ⟨'l', some TileFeedback.wrong⟩,
       ⟨'e', some TileFeedback.wrong⟩] ∧
      encodeResult (getResult "point".toList "title".toList) = some "t?i?tle".toList := by
  constructor
  · decide
  · decide

/-- C5: on an empty `pretend_answers` list, `guess_reduction` does not
return 0 — it always raises `ZeroDivisionError` from
`total / len(pretend_answers)` (the spec defines this case as 0; the code
divides by zero). -/
theorem c5_empty_pretend_answers_zero_division
    (univ : List (List Char)) (k : Knowledge) (guess : List Char) :
    guess_reduction univ k guess [] = Except.error Err.zeroDivisionError := rfl

lemma getLast?_snoc (xs : GameResult) (p : ResultPiece) : (xs ++ [p]).getLast? = some p := by
  induction xs with
  | nil => rfl
  | cons x xs ih =>
    rw [List.cons_append, List.getLast?_cons, ih]
    cases xs <;> simp

lemma setLastFeedback_snoc (xs : GameResult) (ch : Char) (f : Option TileFeedback)
    (fb : TileFeedback) :
    setLastFeedback (xs ++ [⟨ch, f⟩]) fb = xs ++ [⟨ch, some fb⟩] := by
  induction xs with
  | nil => rfl
  | cons x xs ih =>
    rw [List.cons_append, List.cons_append]
    have e : setLastFeedback (x :: (xs ++ [(⟨ch, f⟩ : ResultPiece)])) fb =
        x :: setLastFeedback (xs ++ [(⟨ch, f⟩ : ResultPiece)]) fb := by
      rcases h : xs ++ [(⟨ch, f⟩ : ResultPiece)] with _ | ⟨y, ys⟩
      · exact absurd h (by simp)
      · rfl
    rw [e, ih]

lemma fromStrAux_alpha_step (allowed : List Char) (ch : Char) (hch : ch ∈ allowed)
    (s' : List Char) (acc : GameResult) (prev : Option Char) :
    fromStrAux allowed (ch :: s') acc prev =
      fromStrAux allowed s' (acc ++ [⟨ch, some TileFeedback.wrong⟩]) (some ch) := by
  simp [fromStrAux, hch]

lemma fromStrAux_marker_step (allowed : List Char) (mk : Char) (hmk : mk = '?' ∨ mk = '@')
    (hnm : mk ∉ allowed) (s' : List Char) (acc : GameResult) (ch : Char) (hch : ch ∈ allowed) :
    fromStrAux allowed (mk :: s') (acc ++ [⟨ch, some TileFeedback.wrong⟩]) (some ch) =
      fromStrAux allowed s'
        (acc ++ [⟨ch, some (if mk = '?' then TileFeedback.wrong_place
                            else TileFeedback.correct)⟩])
        (some mk) := by
  have e1 : (mk ∈ allowed) = False := eq_false hnm
  have e2 : decide (ch ∈ allowed) = true := decide_eq_true hch
  have hlw : lastIsWrong (acc ++ [(⟨ch, some TileFeedback.wrong⟩ : ResultPiece)]) = true := by
    simp [lastIsWrong, getLast?_snoc]
  by_cases hmq : mk = '?'
  · subst hmq
    simp only [fromStrAux, e1, if_false, e2, hlw]
    simp [setLastFeedback_snoc]
  · have hma : mk = '@' := hmk.resolve_left hmq
    subst hma
    simp only [fromStrAux, e1, if_false, e2, hlw]
    simp [setLastFeedback_snoc]

lemma encodeResult_cons (p : ResultPiece) (rest : GameResult) :
    encodeResult (p :: rest) =
      (encodePiece p).bind fun c => (encodeResult rest).bind fun r => some (c ++ r) := rfl

lemma fromStrAux_encode (allowed : List Char) (hq : '?' ∉ allowed) (ha : '@' ∉ allowed) :
    ∀ (ps acc : GameResult) (prev : Option Char) (s : List Char),
      wfResult allowed ps = true → encodeResult ps = some s →
      fromStrAux allowed s acc prev = Except.ok (acc ++ ps) := by
  intro ps
  induction ps with
  | nil =>
    intro acc prev s _ henc
    have hs : s = [] := by
      simp [encodeResult] at henc
      exact henc
    subst hs
    simp [fromStrAux]
  | cons p rest ih =>
    intro acc prev s hwf henc
    obtain ⟨ch, fb⟩ := p
    have hch : ch ∈ allowed := by
      simp [wfResult] at hwf
      exact hwf.1.1
    have hwfrest : wfResult allowed rest = true := by
      simp [wfResult] at hwf ⊢
      exact hwf.2
    cases fb with
    | none =>
      exfalso
      simp [wfResult] at hwf
    | some f =>
      obtain ⟨e, he, s', hs', hcat⟩ :
          ∃ e, encodePiece ⟨ch, some f⟩ = some e ∧
            ∃ s', encodeResult rest = some s' ∧ s = e ++ s' := by
        cases hpe : encodePiece ⟨ch, some f⟩ with
        | none => cases f <;> simp [encodePiece] at hpe
        | some e =>
          cases hre : encodeResult rest with
          | none =>
            rw [encodeResult_cons, hpe, hre] at henc
            simp at henc
          | some s' =>
            refine ⟨e, rfl, s', rfl, ?_⟩
            rw [encodeResult_cons, hpe, hre] at henc
            simp at henc
            exact henc.symm
      subst hcat
      cases f with
      | wrong =>
        have he2 : e = [ch] := by
          simp [encodePiece] at he
          exact he.symm
        subst he2
        have step := fromStrAux_alpha_step allowed ch hch s' acc prev
        have tail := ih (acc ++ [(⟨ch, some TileFeedback.wrong⟩ : ResultPiece)]) (some ch)
          s' hwfrest hs'
        rw [List.singleton_append, step, tail]
        simp
      | correct =>
        have he2 : e = [ch, '@'] := by
          simp [encodePiece] at he
          exact he.symm
        subst he2
        have step1 := fromStrAux_alpha_step allowed ch hch ('@' :: s') acc prev
        have step2 := fromStrAux_marker_step allowed '@' (Or.inr rfl) ha s' acc ch hch
        have tail := ih (acc ++ [(⟨ch, some TileFeedback.correct⟩ : ResultPiece)]) (some '@')
          s' hwfrest hs'
        rw [show ([ch, '@'] ++ s') = ch :: '@' :: s' from rfl, step1, step2]
        rw [show (if ('@' : Char) = '?' then TileFeedback.wrong_place
            else TileFeedback.correct) = TileFeedback.correct from by simp]
        rw [tail]
        simp
      | wrong_place =>
        have he2 : e = [ch, '?'] := by
          simp [encodePiece] at he
          exact he.symm
        subst he2
        have step1 := fromStrAux_alpha_step allowed ch hch ('?' :: s') acc prev
        have step2 := fromStrAux_marker_step allowed '?' (Or.inl rfl) hq s' acc ch hch
        have tail := ih (acc ++ [(⟨ch, some TileFeedback.wrong_place⟩ : ResultPiece)]) (some '?')
          s' hwfrest hs'
        rw [show ([ch, '?'] ++ s') = ch :: '?' :: s' from rfl, step1, step2]
        rw [show (if ('?' : Char) = '?' then TileFeedback.wrong_place
            else TileFeedback.correct) = TileFeedback.wrong_place from by simp]
        rw [tail]
        simp

lemma fromStrAux_wf (allowed : List Char) (hq : '?' ∉ allowed) (ha : '@' ∉ allowed) :
    ∀ (n : Nat) (s : List Char), s.length ≤ n → ∀ (acc : GameResult) (prev : Option Char),
      wfStr allowed s = true →
      ∃ qs, fromStrAux allowed s acc prev = Except.ok (acc ++ qs) ∧
        encodeResult qs = some s ∧ wfResult allowed qs = true := by
  intro n
  induction n with
  | zero =>
    intro s hlen acc prev _
    have hs : s = [] := List.eq_nil_of_length_eq_zero (Nat.le_zero.mp hlen)
    subst hs
    exact ⟨[], by simp [fromStrAux], rfl, rfl⟩
  | succ n ih =>
    intro s hlen acc prev hwf
    match s, hlen, hwf with
    | [], _, _ => exact ⟨[], by simp [fromStrAux], rfl, rfl⟩
    | [c], _, hwf =>
      have hc : c ∈ allowed := by simpa [wfStr] using hwf
      refine ⟨[⟨c, some TileFeedback.wrong⟩], ?_, rfl, ?_⟩
      · rw [fromStrAux_alpha_step allowed c hc [] acc prev]
        simp [fromStrAux]
      · simp [wfResult, hc]
    | c :: m :: rest, hlen, hwf =>
      have hc : c ∈ allowed := by
        simp [wfStr] at hwf
        exact hwf.1
      by_cases hm : m = '?' ∨ m = '@'
      · have hwfrest : wfStr allowed rest = true := by
          simp [wfStr] at hwf
          rcases hwf with ⟨_, h2⟩
          rwa [if_pos hm] at h2
        have hnm : m ∉ allowed := by
          rcases hm with h | h
          · rw [h]; exact hq
          · rw [h]; exact ha
        have step1 := fromStrAux_alpha_step allowed c hc (m :: rest) acc prev
        have step2 := fromStrAux_marker_step allowed m hm hnm rest acc c hc
        have hlen' : rest.length ≤ n := by
          simp at hlen
          omega
        obtain ⟨qs', hok, henc', hwf'⟩ := ih rest hlen'
          (acc ++ [⟨c, some (if m = '?' then TileFeedback.wrong_place
                             else TileFeedback.correct)⟩]) (some m) hwfrest
        refine ⟨⟨c, some (if m = '?' then TileFeedback.wrong_place
                          else TileFeedback.correct)⟩ :: qs', ?_, ?_, ?_⟩
        · rw [step1, step2, hok]
          simp
        · rw [encodeResult_cons]
          by_cases hmq : m = '?'
          · subst hmq
            simp [encodePiece, henc']
          · have hma : m = '@' := hm.resolve_left hmq
            subst hma
            simp [encodePiece, henc']
        · simp [wfResult] at hwf' ⊢
          exact ⟨hc, hwf'⟩
      · have hwftail : wfStr allowed (m :: rest) = true := by
          simp [wfStr] at hwf
          rcases hwf with ⟨_, h2⟩
          rwa [if_neg hm] at h2
        have hlen' : (m :: rest).length ≤ n := by
          simp at hlen ⊢
          omega
        obtain ⟨qs', hok, henc', hwf'⟩ := ih (m :: rest) hlen'
          (acc ++ [⟨c, some TileFeedback.wrong⟩]) (some c) hwftail
        refine ⟨⟨c, some TileFeedback.wrong⟩ :: qs', ?_, ?_, ?_⟩
        · rw [fromStrAux_alpha_step allowed c hc (m :: rest) acc prev, hok]
          simp
        · rw [encodeResult_cons]
          simp [encodePiece, henc']
        · simp [wfResult] at hwf' ⊢
          exact ⟨hc, hwf'⟩

/-- C3: codec round trip for both variants: decoding the encoding of any
well-formed Result yields an equal Result, and encoding the decoding of
any well-formed result string yields the original string. -/
theorem c3_codec_roundtrip :
    (∀ r s, wfResult wordleAllowed r = true → encodeResult r = some s →
        fromStr wordleAllowed s = Except.ok r) ∧
    (∀ s, wfStr wordleAllowed s = true →
        ∃ r, fromStr wordleAllowed s = Except.ok r ∧ encodeResult r = some s) ∧
    (∀ r s, wfResult nerdleAllowed r = true → encodeResult r = some s →
        fromStr nerdleAllowed s = Except.ok r) ∧
    (∀ s, wfStr nerdleAllowed s = true →
        ∃ r, fromStr nerdleAllowed s = Except.ok r ∧ encodeResult r = some s) := by
  have hqw : '?' ∉ wordleAllowed := by decide
  have haw : '@' ∉ wordleAllowed := by decide
  have hqn : '?' ∉ nerdleAllowed := by decide
  have han : '@' ∉ nerdleAllowed := by decide
  refine ⟨?_, ?_, ?_, ?_⟩
  · intro r s hwf henc
    have h := fromStrAux_encode wordleAllowed hqw haw r [] none s hwf henc
    simpa [fromStr] using h
  · intro s hwf
    obtain ⟨qs, hok, henc, _⟩ :=
      fromStrAux_wf wordleAllowed hqw haw s.length s le_rfl [] none hwf
    exact ⟨qs, by simpa [fromStr] using hok, henc⟩
  · intro r s hwf henc
    have h := fromStrAux_encode nerdleAllowed hqn han r [] none s hwf henc
    simpa [fromStr] using h
  · intro s hwf
    obtain ⟨qs, hok, henc, _⟩ :=
      fromStrAux_wf nerdleAllowed hqn han s.length s le_rfl [] none hwf
    exact ⟨qs, by simpa [fromStr] using hok, henc⟩

/-- C3 witness: the round trip evaluated on the repository's own
`b?ob@by@` example and on a nerdle-style string. -/
theorem c3_codec_roundtrip_witness :
    fromStr wordleAllowed "b?ob@by@".toList =
      Except.ok (getResult "abbey".toList "bobby".toList) ∧
    ∃ r, fromStr nerdleAllowed "12+35=47".toList = Except.ok r ∧
      encodeResult r = some "12+35=47".toList :=
  ⟨c3_codec_roundtrip.1 (getResult "abbey".toList "bobby".toList) "b?ob@by@".toList
      (by decide) (by decide),
    c3_codec_roundtrip.2.2.2 "12+35=47".toList (by decide)⟩

section KnowledgeLemmas

lemma lookup_setKey_self (m : List (Char × Nat)) (c : Char) (v : Nat) :
    (setKey m c v).lookup c = some v := by
  induction m with
  | nil => simp [setKey]
  | cons e rest ih =>
    by_cases h : e.1 = c
    · simp [setKey, h]
    · simp [setKey, h, List.lookup, beq_false_of_ne (Ne.symm h)]
      simpa [List.lookup] using ih

lemma lookup_setKey_ne (m : List (Char × Nat)) (c c' : Char) (v : Nat) (h : c' ≠ c) :
    (setKey m c v).lookup c' = m.lookup c' := by
  induction m with
  | nil => simp [setKey, List.lookup, beq_false_of_ne h]
  | cons e rest ih =>
    by_cases he : e.1 = c
    · subst he
      simp [setKey, List.lookup, beq_false_of_ne h]
    · simp only [setKey, if_neg he]
      by_cases he' : c' = e.1
      · subst he'
        simp [List.lookup]
      · simp [List.lookup, beq_false_of_ne he', ih]

lemma mem_setKey (m : List (Char × Nat)) (c : Char) (v : Nat) :
    ∀ e ∈ setKey m c v, e ∈ m ∨ e = (c, v) := by
  induction m with
  | nil =>
    intro e he
    simp [setKey] at he
    exact Or.inr he
  | cons x rest ih =>
    intro e he
    by_cases h : x.1 = c
    · simp only [setKey, if_pos h] at he
      rcases List.mem_cons.mp he with h1 | h1
      · exact Or.inr h1
      · exact Or.inl (List.mem_cons_of_mem _ h1)
    · simp only [setKey, if_neg h] at he
      rcases List.mem_cons.mp he with h1 | h1
      · exact Or.inl (h1 ▸ List.mem_cons_self _ _)
      · rcases ih e h1 with h2 | h2
        · exact Or.inl (List.mem_cons_of_mem _ h2)
        · exact Or.inr h2

lemma setKey_entry_mono (m : List (Char × Nat)) (l : Char) (v : Nat)
    (hv : lookupD m l 0 ≤ v) :
    ∀ e ∈ m, ∃ v', (e.1, v') ∈ setKey m l v ∧ e.2 ≤ v' := by
  induction m with
  | nil => intro e he; simp at he
  | cons x rest ih =>
    obtain ⟨a, b⟩ := x
    intro e he
    by_cases h : a = l
    · subst h
      have hb : b ≤ v := by
        have hl : lookupD ((a, b) :: rest) a 0 = b := by
          simp [lookupD, List.lookup]
        rwa [hl] at hv
      rw [show setKey ((a, b) :: rest) a v = (a, v) :: rest from by simp [setKey]]
      rcases List.mem_cons.mp he with h1 | h1
      · subst h1
        exact ⟨v, List.mem_cons_self _ _, hb⟩
      · exact ⟨e.2, List.mem_cons_of_mem _ h1, le_rfl⟩
    · rw [show setKey ((a, b) :: rest) l v = (a, b) :: setKey rest l v from by
        simp [setKey, h]]
      rcases List.mem_cons.mp he with h1 | h1
      · subst h1
        exact ⟨b, List.mem_cons_self _ _, le_rfl⟩
      · have hv' : lookupD rest l 0 ≤ v := by
          have hl : lookupD ((a, b) :: rest) l 0 = lookupD rest l 0 := by
            simp [lookupD, List.lookup, beq_false_of_ne (Ne.symm h)]
          rwa [hl] at hv
        obtain ⟨v', hm, hle⟩ := ih hv' e h1
        exact ⟨v', List.mem_cons_of_mem _ hm, hle⟩

lemma setKey_of_lookup_none (m : List (Char × Nat)) (c : Char) (v : Nat)
    (h : m.lookup c = none) : setKey m c v = m ++ [(c, v)] := by
  induction m with
  | nil => rfl
  | cons x rest ih =>
    obtain ⟨a, b⟩ := x
    by_cases ha : a = c
    · subst ha
      rw [show List.lookup a ((a, b) :: rest) = some b from by simp [List.lookup]] at h
      cases h
    · have h' : rest.lookup c = none := by
        rw [show List.lookup c ((a, b) :: rest) = List.lookup c rest from by
          simp [List.lookup, beq_false_of_ne (Ne.symm ha)]] at h
        exact h
      simp [setKey, ha, ih h']

lemma mem_insertChar_self (s : List Char) (c : Char) : c ∈ insertChar s c := by
  by_cases h : c ∈ s <;> simp [insertChar, h]

lemma subset_insertChar (s : List Char) (c : Char) : s ⊆ insertChar s c := by
  by_cases h : c ∈ s
  · simp [insertChar, h]
  · simp only [insertChar, if_neg h]
    exact List.subset_append_left _ _

lemma mem_insertChar (s : List Char) (c x : Char) (h : x ∈ insertChar s c) :
    x ∈ s ∨ x = c := by
  by_cases hc : c ∈ s
  · simp [insertChar, hc] at h
    exact Or.inl h
  · simp [insertChar, hc] at h
    exact h

lemma insertChar_of_mem (s : List Char) (c : Char) (h : c ∈ s) : insertChar s c = s := by
  simp [insertChar, h]

lemma checkMins_iff (m : List (Char × Nat)) (w : List Char) :
    checkMins m w = true ↔ ∀ e ∈ m, e.2 ≤ w.count e.1 := by
  induction m with
  | nil => simp [checkMins]
  | cons e rest ih =>
    obtain ⟨l, c⟩ := e
    simp [checkMins, ih]

lemma checkMaxes_iff (m : List (Char × Nat)) (w : List Char) :
    checkMaxes m w = true ↔ ∀ e ∈ m, w.count e.1 ≤ e.2 := by
  induction m with
  | nil => simp [checkMaxes]
  | cons e rest ih =>
    obtain ⟨l, c⟩ := e
    simp [checkMaxes, ih]

lemma checkPositions_iff (os : List (Option Char)) (ws : List Char) :
    checkPositions os ws = true ↔
      ∀ (i : Nat) (l c : Char), os[i]? = some (some l) → ws[i]? = some c → l = c := by
  induction os generalizing ws with
  | nil =>
    cases ws <;> simp [checkPositions]
  | cons o os ih =>
    cases ws with
    | nil => simp [checkPositions]
    | cons w ws =>
      rw [show checkPositions (o :: os) (w :: ws) =
          ((match o with
            | some l => l == w
            | none => true) && checkPositions os ws) from rfl]
      constructor
      · intro h i l c h1 h2
        have h' := Bool.and_elim_left h
        have hrest := Bool.and_elim_right h
        cases i with
        | zero =>
          simp at h1 h2
          subst h1
          subst h2
          simpa using h'
        | succ i =>
          simp only [List.getElem?_cons_succ] at h1 h2
          exact (ih ws).mp hrest i l c h1 h2
      · intro h
        refine Bool.and_intro ?_ ?_
        · cases o with
          | none => rfl
          | some l =>
            have := h 0 l w (by simp) (by simp)
            simpa using this
        · refine (ih ws).mpr ?_
          intro i l c h1 h2
          exact h (i + 1) l c (by simpa using h1) (by simpa using h2)

lemma checkWrong_iff (ss : List (List Char)) (ws : List Char) :
    checkWrong ss ws = true ↔
      ∀ (i : Nat) (s : List Char) (c : Char), ss[i]? = some s → ws[i]? = some c → c ∉ s := by
  induction ss generalizing ws with
  | nil =>
    cases ws <;> simp [checkWrong]
  | cons s ss ih =>
    cases ws with
    | nil => simp [checkWrong]
    | cons w ws =>
      rw [show checkWrong (s :: ss) (w :: ws) =
          (!(decide (w ∈ s)) && checkWrong ss ws) from rfl]
      constructor
      · intro h i s' c h1 h2
        have h' := Bool.and_elim_left h
        have hrest := Bool.and_elim_right h
        cases i with
        | zero =>
          simp at h1 h2
          subst h1
          subst h2
          simpa using h'
        | succ i =>
          simp only [List.getElem?_cons_succ] at h1 h2
          exact (ih ws).mp hrest i s' c h1 h2
      · intro h
        refine Bool.and_intro ?_ ?_
        · have := h 0 s w (by simp) (by simp)
          simpa using this
        · refine (ih ws).mpr ?_
          intro i s' c h1 h2
          exact h (i + 1) s' c (by simpa using h1) (by simpa using h2)

end KnowledgeLemmas

section MergeCorrectLemmas

lemma lt_of_getElem?_some {α : Type} {l : List α} {i : Nat} {a : α}
    (h : l[i]? = some a) : i < l.length := by
  by_contra hge
  rw [List.getElem?_eq_none (by omega)] at h
  cases h

lemma correctCharsAux_lb : ∀ (ps : GameResult) (k : Nat),
    ∀ e ∈ correctCharsAux k ps, k ≤ e.1 := by
  intro ps
  induction ps with
  | nil => intro k e he; simp [correctCharsAux] at he
  | cons p rest ih =>
    intro k e he
    simp only [correctCharsAux, List.mem_append] at he
    rcases he with he | he
    · by_cases hp : p.feedback = some TileFeedback.correct
      · rw [if_pos hp] at he
        simp at he
        subst he
        simp
      · rw [if_neg hp] at he
        simp at he
    · have := ih (k + 1) e he
      omega

lemma correctCharsAux_pairwise : ∀ (ps : GameResult) (k : Nat),
    (correctCharsAux k ps).Pairwise (fun a b => a.1 < b.1) := by
  intro ps
  induction ps with
  | nil => intro k; simp [correctCharsAux]
  | cons p rest ih =>
    intro k
    simp only [correctCharsAux]
    rw [List.pairwise_append]
    refine ⟨?_, ih (k + 1), ?_⟩
    · by_cases hp : p.feedback = some TileFeedback.correct <;> simp [hp]
    · intro a ha b hb
      by_cases hp : p.feedback = some TileFeedback.correct
      · rw [if_pos hp] at ha
        simp at ha
        subst ha
        have := correctCharsAux_lb rest (k + 1) b hb
        show k < b.1
        omega
      · rw [if_neg hp] at ha
        simp at ha

lemma correctCharsAux_mem_iff : ∀ (ps : GameResult) (k : Nat) (e : Nat × Char),
    e ∈ correctCharsAux k ps ↔
      ∃ j p, ps[j]? = some p ∧ e.1 = k + j ∧
        p.feedback = some TileFeedback.correct ∧ p.character = e.2 := by
  intro ps
  induction ps with
  | nil =>
    intro k e
    simp [correctCharsAux]
  | cons p rest ih =>
    intro k e
    simp only [correctCharsAux, List.mem_append]
    constructor
    · intro he
      rcases he with he | he
      · by_cases hp : p.feedback = some TileFeedback.correct
        · rw [if_pos hp] at he
          simp at he
          subst he
          exact ⟨0, p, by simp, by simp, hp, rfl⟩
        · rw [if_neg hp] at he
          simp at he
      · obtain ⟨j, q, hq, hk, hf, hc⟩ := (ih (k + 1) e).mp he
        exact ⟨j + 1, q, by simpa using hq, by omega, hf, hc⟩
    · rintro ⟨j, q, hq, hk, hf, hc⟩
      cases j with
      | zero =>
        simp at hq
        subst hq
        left
        rw [if_pos hf]
        simp at hk
        obtain ⟨e1, e2⟩ := e
        simp at hk hc ⊢
        exact ⟨hk, hc.symm⟩
      | succ j =>
        right
        refine (ih (k + 1) e).mpr ⟨j, q, by simpa using hq, by omega, hf, hc⟩

lemma wrongPositionsAux_mem_iff : ∀ (ps : GameResult) (k : Nat) (e : Nat × Char),
    e ∈ wrongPositionsAux k ps ↔
      ∃ j p, ps[j]? = some p ∧ e.1 = k + j ∧
        p.feedback = some TileFeedback.wrong_place ∧ p.character = e.2 := by
  intro ps
  induction ps with
  | nil =>
    intro k e
    simp [wrongPositionsAux]
  | cons p rest ih =>
    intro k e
    simp only [wrongPositionsAux, List.mem_append]
    constructor
    · intro he
      rcases he with he | he
      · by_cases hp : p.feedback = some TileFeedback.wrong_place
        · rw [if_pos hp] at he
          simp at he
          subst he
          exact ⟨0, p, by simp, by simp, hp, rfl⟩
        · rw [if_neg hp] at he
          simp at he
      · obtain ⟨j, q, hq, hk, hf, hc⟩ := (ih (k + 1) e).mp he
        exact ⟨j + 1, q, by simpa using hq, by omega, hf, hc⟩
    · rintro ⟨j, q, hq, hk, hf, hc⟩
      cases j with
      | zero =>
        simp at hq
        subst hq
        left
        rw [if_pos hf]
        simp at hk
        obtain ⟨e1, e2⟩ := e
        simp at hk hc ⊢
        exact ⟨hk, hc.symm⟩
      | succ j =>
        right
        refine (ih (k + 1) e).mpr ⟨j, q, by simpa using hq, by omega, hf, hc⟩

lemma mergeCorrect_length : ∀ (entries : List (Nat × Char)) (ans ans' : List (Option Char)),
    mergeCorrect ans entries = Except.ok ans' → ans'.length = ans.length := by
  intro entries
  induction entries with
  | nil =>
    intro ans ans' h
    simp [mergeCorrect] at h
    rw [h]
  | cons e rest ih =>
    obtain ⟨i, l⟩ := e
    intro ans ans' h
    simp only [mergeCorrect] at h
    cases hi : ans[i]? with
    | none =>
      simp only [hi] at h
      simp at h
    | some o =>
      cases o with
      | none =>
        simp only [hi] at h
        rw [ih _ _ h, List.length_set]
      | some l' =>
        simp only [hi] at h
        by_cases hl : l' = l
        · rw [if_pos hl] at h
          rw [ih _ _ h, List.length_set]
        · rw [if_neg hl] at h
          simp at h

lemma mergeCorrect_preserves :
    ∀ (entries : List (Nat × Char)) (ans ans' : List (Option Char)),
      mergeCorrect ans entries = Except.ok ans' →
      ∀ (i : Nat) (l : Char), ans[i]? = some (some l) → ans'[i]? = some (some l) := by
  intro entries
  induction entries with
  | nil =>
    intro ans ans' h i l hi
    simp [mergeCorrect] at h
    rw [← h]
    exact hi
  | cons e rest ih =>
    obtain ⟨i0, l0⟩ := e
    intro ans ans' h i l hi
    simp only [mergeCorrect] at h
    cases hi0 : ans[i0]? with
    | none =>
      simp only [hi0] at h
      simp at h
    | some o =>
      cases o with
      | none =>
        simp only [hi0] at h
        refine ih _ _ h i l ?_
        by_cases hii : i0 = i
        · subst hii
          rw [hi0] at hi
          cases hi
        · rw [List.getElem?_set_ne hii]
          exact hi
      | some l' =>
        simp only [hi0] at h
        by_cases hl : l' = l0
        · rw [if_pos hl] at h
          refine ih _ _ h i l ?_
          by_cases hii : i0 = i
          · subst hii
            rw [hi0] at hi
            have : l' = l := by
              injection hi with h2
              injection h2
            subst hl
            rw [List.getElem?_set_eq_of_lt _ (lt_of_getElem?_some hi0)]
            rw [← this]
          · rw [List.getElem?_set_ne hii]
            exact hi
        · rw [if_neg hl] at h
          simp at h

lemma mergeCorrect_source :
    ∀ (entries : List (Nat × Char)) (ans ans' : List (Option Char)),
      mergeCorrect ans entries = Except.ok ans' →
      ∀ (i : Nat) (l : Char), ans'[i]? = some (some l) →
        ans[i]? = some (some l) ∨ (i, l) ∈ entries := by
  intro entries
  induction entries with
  | nil =>
    intro ans ans' h i l hi
    simp [mergeCorrect] at h
    rw [h]
    exact Or.inl hi
  | cons e rest ih =>
    obtain ⟨i0, l0⟩ := e
    intro ans ans' h i l hi
    simp only [mergeCorrect] at h
    cases hi0 : ans[i0]? with
    | none =>
      simp only [hi0] at h
      simp at h
    | some o =>
      have hlt0 : i0 < ans.length := lt_of_getElem?_some hi0
      cases o with
      | none =>
        simp only [hi0] at h
        rcases ih _ _ h i l hi with h1 | h1
        · by_cases hii : i0 = i
          · subst hii
            rw [List.getElem?_set_eq_of_lt _ hlt0] at h1
            have : l0 = l := by
              injection h1 with h2
              injection h2
            subst this
            exact Or.inr (List.mem_cons_self _ _)
          · rw [List.getElem?_set_ne hii] at h1
            exact Or.inl h1
        · exact Or.inr (List.mem_cons_of_mem _ h1)
      | some l' =>
        simp only [hi0] at h
        by_cases hl : l' = l0
        · rw [if_pos hl] at h
          rcases ih _ _ h i l hi with h1 | h1
          · by_cases hii : i0 = i
            · subst hii
              rw [List.getElem?_set_eq_of_lt _ hlt0] at h1
              have : l0 = l := by
                injection h1 with h2
                injection h2
              subst this
              exact Or.inr (List.mem_cons_self _ _)
            · rw [List.getElem?_set_ne hii] at h1
              exact Or.inl h1
          · exact Or.inr (List.mem_cons_of_mem _ h1)
        · rw [if_neg hl] at h
          simp at h

lemma mergeCorrect_ok :
    ∀ (entries : List (Nat × Char)) (ans : List (Option Char)),
      entries.Pairwise (fun a b => a.1 ≠ b.1) →
      (∀ e ∈ entries, e.1 < ans.length ∧
        ∀ l', ans[e.1]? = some (some l') → l' = e.2) →
      ∃ ans', mergeCorrect ans entries = Except.ok ans' := by
  intro entries
  induction entries with
  | nil =>
    intro ans _ _
    exact ⟨ans, rfl⟩
  | cons e rest ih =>
    obtain ⟨i0, l0⟩ := e
    intro ans hnd hcond
    have h0 := hcond (i0, l0) (List.mem_cons_self _ _)
    have hlt0 : i0 < ans.length := h0.1
    have hrest : ∀ e ∈ rest, e.1 < (ans.set i0 (some l0)).length ∧
        ∀ l', (ans.set i0 (some l0))[e.1]? = some (some l') → l' = e.2 := by
      intro e he
      have hne : i0 ≠ e.1 := List.rel_of_pairwise_cons hnd he
      have hc := hcond e (List.mem_cons_of_mem _ he)
      refine ⟨by rw [List.length_set]; exact hc.1, ?_⟩
      intro l' hl'
      rw [List.getElem?_set_ne hne] at hl'
      exact hc.2 l' hl'
    have hndrest : rest.Pairwise (fun a b => a.1 ≠ b.1) := (List.pairwise_cons.mp hnd).2
    cases hi0 : ans[i0]? with
    | none =>
      exact absurd (List.getElem?_eq_none_iff.mp hi0) (by omega)
    | some o =>
      cases o with
      | none =>
        obtain ⟨ans', hok⟩ := ih (ans.set i0 (some l0)) hndrest hrest
        refine ⟨ans', ?_⟩
        simp only [mergeCorrect, hi0]
        exact hok
      | some l' =>
        have : l' = l0 := h0.2 l' hi0
        subst this
        obtain ⟨ans', hok⟩ := ih (ans.set i0 (some l')) hndrest hrest
        refine ⟨ans', ?_⟩
        simp only [mergeCorrect, hi0, if_pos rfl]
        exact hok

lemma mergeCorrect_fail :
    ∀ (entries : List (Nat × Char)) (ans : List (Option Char)),
      (∀ e ∈ entries, e.1 < ans.length) →
      (∃ e ∈ entries, ∃ l', ans[e.1]? = some (some l') ∧ l' ≠ e.2) →
      mergeCorrect ans entries = Except.error Err.assertionError := by
  intro entries
  induction entries with
  | nil =>
    intro ans _ hex
    simp at hex
  | cons e rest ih =>
    obtain ⟨i0, l0⟩ := e
    intro ans hrange hex
    have hlt0 : i0 < ans.length := hrange (i0, l0) (List.mem_cons_self _ _)
    cases hi0 : ans[i0]? with
    | none =>
      exact absurd (List.getElem?_eq_none_iff.mp hi0) (by omega)
    | some o =>
      cases o with
      | none =>
        simp only [mergeCorrect, hi0]
        obtain ⟨e, he, l', hl', hne⟩ := hex
        rcases List.mem_cons.mp he with h1 | h1
        · subst h1
          rw [hi0] at hl'
          cases hl'
        · refine ih (ans.set i0 (some l0)) ?_ ⟨e, h1, l', ?_, hne⟩
          · intro e' he'
            rw [List.length_set]
            exact hrange e' (List.mem_cons_of_mem _ he')
          · by_cases hii : i0 = e.1
            · subst hii
              rw [hi0] at hl'
              cases hl'
            · rw [List.getElem?_set_ne hii]
              exact hl'
      | some l1 =>
        obtain ⟨e, he, l', hl', hne⟩ := hex
        rcases List.mem_cons.mp he with h1 | h1
        · subst h1
          simp only [mergeCorrect, hi0]
          rw [hi0] at hl'
          have : l1 = l' := by
            injection hl' with h2
            injection h2
          subst this
          rw [if_neg hne]
        · simp only [mergeCorrect, hi0]
          by_cases hl : l1 = l0
          · rw [if_pos hl]
            refine ih (ans.set i0 (some l0)) ?_ ⟨e, h1, ?_⟩
            · intro e' he'
              rw [List.length_set]
              exact hrange e' (List.mem_cons_of_mem _ he')
            · by_cases hii : i0 = e.1
              · subst hii
                rw [hi0] at hl'
                have : l1 = l' := by
                  injection hl' with h2
                  injection h2
                subst this
                subst hl
                refine ⟨l1, ?_, hne⟩
                rw [List.getElem?_set_eq_of_lt _ hlt0]
              · refine ⟨l', ?_, hne⟩
                rw [List.getElem?_set_ne hii]
                exact hl'
          · rw [if_neg hl]
  
lemma mergeCorrect_post :
    ∀ (entries : List (Nat × Char)) (ans ans' : List (Option Char)),
      mergeCorrect ans entries = Except.ok ans' →
      ∀ e ∈ entries, ans'[e.1]? = some (some e.2) := by
  intro entries
  induction entries with
  | nil =>
    intro ans ans' _ e he
    simp at he
  | cons e0 rest ih =>
    obtain ⟨i0, l0⟩ := e0
    intro ans ans' h e he
    simp only [mergeCorrect] at h
    cases hi0 : ans[i0]? with
    | none =>
      simp only [hi0] at h
      simp at h
    | some o =>
      have hlt0 : i0 < ans.length := lt_of_getElem?_some hi0
      have main : mergeCorrect (ans.set i0 (some l0)) rest = Except.ok ans' →
          ans'[e.1]? = some (some e.2) := by
        intro hrun
        rcases List.mem_cons.mp he with h1 | h1
        · subst h1
          refine mergeCorrect_preserves rest _ _ hrun i0 l0 ?_
          rw [List.getElem?_set_eq_of_lt _ hlt0]
        · exact ih _ _ hrun e h1
      cases o with
      | none =>
        simp only [hi0] at h
        exact main h
      | some l' =>
        simp only [hi0] at h
        by_cases hl : l' = l0
        · rw [if_pos hl] at h
          subst hl
          exact main h
        · rw [if_neg hl] at h
          simp at h

end MergeCorrectLemmas

section MergeMinsLemmas

lemma lookupD_setKey_self (m : List (Char × Nat)) (c : Char) (v : Nat) :
    lookupD (setKey m c v) c 0 = v := by
  simp [lookupD, lookup_setKey_self]

lemma lookupD_setKey_ne (m : List (Char × Nat)) (c c' : Char) (v : Nat) (h : c' ≠ c) :
    lookupD (setKey m c v) c' 0 = lookupD m c' 0 := by
  simp [lookupD, lookup_setKey_ne m c c' v h]

lemma mergeMins_cons_none (maxes mins : List (Char × Nat)) (l : Char) (c : Nat)
    (rest : List (Char × Nat)) (hlk : maxes.lookup l = none) :
    mergeMins maxes mins ((l, c) :: rest) = mergeMins maxes (minsStep mins l c) rest := by
  show (match maxes.lookup l with
      | some mx =>
        if c ≤ mx then mergeMins maxes (minsStep mins l c) rest
        else Except.error Err.assertionError
      | none => mergeMins maxes (minsStep mins l c) rest) = _
  rw [hlk]

lemma mergeMins_cons_some (maxes mins : List (Char × Nat)) (l : Char) (c : Nat)
    (rest : List (Char × Nat)) (mx : Nat) (hlk : maxes.lookup l = some mx) :
    mergeMins maxes mins ((l, c) :: rest) =
      if c ≤ mx then mergeMins maxes (minsStep mins l c) rest
      else Except.error Err.assertionError := by
  show (match maxes.lookup l with
      | some mx =>
        if c ≤ mx then mergeMins maxes (minsStep mins l c) rest
        else Except.error Err.assertionError
      | none => mergeMins maxes (minsStep mins l c) rest) = _
  rw [hlk]

lemma minsStep_lookupD_self (mins : List (Char × Nat)) (l : Char) (c : Nat) :
    lookupD (minsStep mins l c) l 0 = max (lookupD mins l 0) c := by
  by_cases h : lookupD mins l 0 < c
  · rw [minsStep, if_pos h, lookupD_setKey_self]
    omega
  · rw [minsStep, if_neg h]
    omega

lemma minsStep_lookupD_ne (mins : List (Char × Nat)) (l l' : Char) (c : Nat)
    (h : l' ≠ l) : lookupD (minsStep mins l c) l' 0 = lookupD mins l' 0 := by
  by_cases hc : lookupD mins l 0 < c
  · rw [minsStep, if_pos hc, lookupD_setKey_ne _ _ _ _ h]
  · rw [minsStep, if_neg hc]

lemma minsStep_entry_mono (mins : List (Char × Nat)) (l : Char) (c : Nat) :
    ∀ e ∈ mins, ∃ v', (e.1, v') ∈ minsStep mins l c ∧ e.2 ≤ v' := by
  intro e he
  by_cases h : lookupD mins l 0 < c
  · rw [minsStep, if_pos h]
    exact setKey_entry_mono mins l c (by omega) e he
  · rw [minsStep, if_neg h]
    exact ⟨e.2, he, le_rfl⟩

lemma minsStep_values (mins : List (Char × Nat)) (l : Char) (c : Nat)
    (P : Char → Nat → Prop) (hm : ∀ e ∈ mins, P e.1 e.2) (hc : P l c) :
    ∀ e ∈ minsStep mins l c, P e.1 e.2 := by
  intro e he
  by_cases h : lookupD mins l 0 < c
  · rw [minsStep, if_pos h] at he
    rcases mem_setKey mins l c e he with h1 | h1
    · exact hm e h1
    · rw [h1]
      exact hc
  · rw [minsStep, if_neg h] at he
    exact hm e he

lemma mergeMins_run :
    ∀ (rm maxes mins : List (Char × Nat)),
      (∀ e ∈ rm, ∀ mx, maxes.lookup e.1 = some mx → e.2 ≤ mx) →
      ∃ mins', mergeMins maxes mins rm = Except.ok mins' := by
  intro rm
  induction rm with
  | nil => intro maxes mins _; exact ⟨mins, rfl⟩
  | cons e rest ih =>
    obtain ⟨l, c⟩ := e
    intro maxes mins hcond
    obtain ⟨mins', hok⟩ := ih maxes (minsStep mins l c)
      (fun e he mx hmx => hcond e (List.mem_cons_of_mem _ he) mx hmx)
    refine ⟨mins', ?_⟩
    cases hlk : maxes.lookup l with
    | none =>
      rw [mergeMins_cons_none _ _ _ _ _ hlk]
      exact hok
    | some mx =>
      have hc : c ≤ mx := hcond (l, c) (List.mem_cons_self _ _) mx hlk
      rw [mergeMins_cons_some _ _ _ _ _ _ hlk, if_pos hc]
      exact hok

lemma mergeMins_fail :
    ∀ (rm maxes mins : List (Char × Nat)),
      (∃ e ∈ rm, ∃ mx, maxes.lookup e.1 = some mx ∧ mx < e.2) →
      mergeMins maxes mins rm = Except.error Err.assertionError := by
  intro rm
  induction rm with
  | nil =>
    intro maxes mins hex
    simp at hex
  | cons e0 rest ih =>
    obtain ⟨l, c⟩ := e0
    intro maxes mins hex
    obtain ⟨e, he, mx, hmx, hlt⟩ := hex
    rcases List.mem_cons.mp he with h1 | h1
    · subst h1
      have hlt' : mx < c := hlt
      rw [mergeMins_cons_some _ _ _ _ _ _ hmx, if_neg (by omega)]
    · cases hlk : maxes.lookup l with
      | none =>
        rw [mergeMins_cons_none _ _ _ _ _ hlk]
        exact ih maxes (minsStep mins l c) ⟨e, h1, mx, hmx, hlt⟩
      | some mx0 =>
        rw [mergeMins_cons_some _ _ _ _ _ _ hlk]
        by_cases hle : c ≤ mx0
        · rw [if_pos hle]
          exact ih maxes (minsStep mins l c) ⟨e, h1, mx, hmx, hlt⟩
        · rw [if_neg hle]

lemma mergeMins_entry_mono :
    ∀ (rm maxes mins mins' : List (Char × Nat)),
      mergeMins maxes mins rm = Except.ok mins' →
      ∀ e ∈ mins, ∃ v', (e.1, v') ∈ mins' ∧ e.2 ≤ v' := by
  intro rm
  induction rm with
  | nil =>
    intro maxes mins mins' h e he
    simp [mergeMins] at h
    rw [← h]
    exact ⟨e.2, he, le_rfl⟩
  | cons e0 rest ih =>
    obtain ⟨l, c⟩ := e0
    intro maxes mins mins' h e he
    have key : mergeMins maxes (minsStep mins l c) rest = Except.ok mins' →
        ∃ v', (e.1, v') ∈ mins' ∧ e.2 ≤ v' := by
      intro hrun
      obtain ⟨v1, hm1, hle1⟩ := minsStep_entry_mono mins l c e he
      obtain ⟨v2, hm2, hle2⟩ := ih maxes _ mins' hrun (e.1, v1) hm1
      exact ⟨v2, hm2, le_trans hle1 hle2⟩
    cases hlk : maxes.lookup l with
    | none =>
      rw [mergeMins_cons_none _ _ _ _ _ hlk] at h
      exact key h
    | some mx =>
      rw [mergeMins_cons_some _ _ _ _ _ _ hlk] at h
      by_cases hle : c ≤ mx
      · rw [if_pos hle] at h
        exact key h
      · rw [if_neg hle] at h
        simp at h

lemma mergeMins_values :
    ∀ (rm maxes mins mins' : List (Char × Nat)) (P : Char → Nat → Prop),
      (∀ e ∈ mins, P e.1 e.2) → (∀ e ∈ rm, P e.1 e.2) →
      mergeMins maxes mins rm = Except.ok mins' →
      ∀ e ∈ mins', P e.1 e.2 := by
  intro rm
  induction rm with
  | nil =>
    intro maxes mins mins' P hm _ h
    simp [mergeMins] at h
    rw [← h]
    exact hm
  | cons e0 rest ih =>
    obtain ⟨l, c⟩ := e0
    intro maxes mins mins' P hm hrm h
    have hstep : ∀ e ∈ minsStep mins l c, P e.1 e.2 :=
      minsStep_values mins l c P hm (hrm (l, c) (List.mem_cons_self _ _))
    have hrm' : ∀ e ∈ rest, P e.1 e.2 := fun e he => hrm e (List.mem_cons_of_mem _ he)
    cases hlk : maxes.lookup l with
    | none =>
      rw [mergeMins_cons_none _ _ _ _ _ hlk] at h
      exact ih maxes _ mins' P hstep hrm' h
    | some mx =>
      rw [mergeMins_cons_some _ _ _ _ _ _ hlk] at h
      by_cases hle : c ≤ mx
      · rw [if_pos hle] at h
        exact ih maxes _ mins' P hstep hrm' h
      · rw [if_neg hle] at h
        simp at h

lemma mergeMins_lookupD_mono :
    ∀ (rm maxes mins mins' : List (Char × Nat)),
      mergeMins maxes mins rm = Except.ok mins' →
      ∀ l, lookupD mins l 0 ≤ lookupD mins' l 0 := by
  intro rm
  induction rm with
  | nil =>
    intro maxes mins mins' h l
    simp [mergeMins] at h
    rw [← h]
  | cons e0 rest ih =>
    obtain ⟨l0, c0⟩ := e0
    intro maxes mins mins' h l
    have key : mergeMins maxes (minsStep mins l0 c0) rest = Except.ok mins' →
        lookupD mins l 0 ≤ lookupD mins' l 0 := by
      intro hrun
      refine le_trans ?_ (ih maxes _ mins' hrun l)
      by_cases hll : l = l0
      · subst hll
        rw [minsStep_lookupD_self]
        omega
      · rw [minsStep_lookupD_ne _ _ _ _ hll]
    cases hlk : maxes.lookup l0 with
    | none =>
      rw [mergeMins_cons_none _ _ _ _ _ hlk] at h
      exact key h
    | some mx =>
      rw [mergeMins_cons_some _ _ _ _ _ _ hlk] at h
      by_cases hle : c0 ≤ mx
      · rw [if_pos hle] at h
        exact key h
      · rw [if_neg hle] at h
        simp at h

lemma mergeMins_lookupD_not_mem :
    ∀ (rm maxes mins mins' : List (Char × Nat)) (l : Char),
      l ∉ rm.map Prod.fst →
      mergeMins maxes mins rm = Except.ok mins' →
      lookupD mins' l 0 = lookupD mins l 0 := by
  intro rm
  induction rm with
  | nil =>
    intro maxes mins mins' l _ h
    simp [mergeMins] at h
    rw [← h]
  | cons e0 rest ih =>
    obtain ⟨l0, c0⟩ := e0
    intro maxes mins mins' l hnm h
    have hne : l ≠ l0 := by
      intro hc
      exact hnm (by simp [hc])
    have hnm' : l ∉ rest.map Prod.fst := by
      intro hc
      exact hnm (by simp [hc])
    have key : mergeMins maxes (minsStep mins l0 c0) rest = Except.ok mins' →
        lookupD mins' l 0 = lookupD mins l 0 := by
      intro hrun
      rw [ih maxes _ mins' l hnm' hrun, minsStep_lookupD_ne _ _ _ _ hne]
    cases hlk : maxes.lookup l0 with
    | none =>
      rw [mergeMins_cons_none _ _ _ _ _ hlk] at h
      exact key h
    | some mx =>
      rw [mergeMins_cons_some _ _ _ _ _ _ hlk] at h
      by_cases hle : c0 ≤ mx
      · rw [if_pos hle] at h
        exact key h
      · rw [if_neg hle] at h
        simp at h

lemma mergeMins_lookupD_eq :
    ∀ (rm maxes mins mins' : List (Char × Nat)),
      (rm.map Prod.fst).Nodup →
      mergeMins maxes mins rm = Except.ok mins' →
      ∀ l, lookupD mins' l 0 = max (lookupD mins l 0) (lookupD rm l 0) := by
  intro rm
  induction rm with
  | nil =>
    intro maxes mins mins' _ h l
    simp [mergeMins] at h
    rw [← h]
    simp [lookupD, List.lookup]
  | cons e0 rest ih =>
    obtain ⟨l0, c0⟩ := e0
    intro maxes mins mins' hnd h l
    have hnd' : (rest.map Prod.fst).Nodup := by
      have h2 : (((l0, c0) :: rest).map Prod.fst) = l0 :: rest.map Prod.fst := rfl
      rw [h2] at hnd
      exact (List.nodup_cons.mp hnd).2
    have key : mergeMins maxes (minsStep mins l0 c0) rest = Except.ok mins' →
        lookupD mins' l 0 = max (lookupD mins l 0) (lookupD ((l0, c0) :: rest) l 0) := by
      intro hrun
      by_cases hll : l = l0
      · subst hll
        have hlnm : l ∉ rest.map Prod.fst := by
          have h2 : (((l, c0) :: rest).map Prod.fst) = l :: rest.map Prod.fst := rfl
          rw [h2] at hnd
          exact (List.nodup_cons.mp hnd).1
        rw [mergeMins_lookupD_not_mem rest maxes _ mins' l hlnm hrun,
          minsStep_lookupD_self]
        have : lookupD ((l, c0) :: rest) l 0 = c0 := by
          simp [lookupD, List.lookup]
        rw [this]
      · rw [ih maxes _ mins' hnd' hrun l, minsStep_lookupD_ne _ _ _ _ hll]
        have : lookupD ((l0, c0) :: rest) l 0 = lookupD rest l 0 := by
          simp [lookupD, List.lookup, beq_false_of_ne hll]
        rw [this]
    cases hlk : maxes.lookup l0 with
    | none =>
      rw [mergeMins_cons_none _ _ _ _ _ hlk] at h
      exact key h
    | some mx =>
      rw [mergeMins_cons_some _ _ _ _ _ _ hlk] at h
      by_cases hle : c0 ≤ mx
      · rw [if_pos hle] at h
        exact key h
      · rw [if_neg hle] at h
        simp at h

end MergeMinsLemmas

section MergeMaxesLemmas

lemma lookup_snoc_ne (m : List (Char × Nat)) (l l' : Char) (c : Nat) (h : l' ≠ l) :
    (m ++ [(l, c)]).lookup l' = m.lookup l' := by
  induction m with
  | nil => simp [List.lookup, beq_false_of_ne h]
  | cons e rest ih =>
    obtain ⟨a, b⟩ := e
    by_cases ha : l' = a
    · subst ha
      simp [List.lookup]
    · simp only [List.cons_append, List.lookup, beq_false_of_ne ha]
      exact ih

lemma lookup_snoc_self (m : List (Char × Nat)) (l : Char) (c : Nat)
    (h : m.lookup l = none) : (m ++ [(l, c)]).lookup l = some c := by
  induction m with
  | nil => simp [List.lookup]
  | cons e rest ih =>
    obtain ⟨a, b⟩ := e
    by_cases ha : l = a
    · subst ha
      simp [List.lookup] at h
    · simp only [List.cons_append, List.lookup, beq_false_of_ne ha]
      refine ih ?_
      rw [show List.lookup l ((a, b) :: rest) = List.lookup l rest from by
        simp [List.lookup, beq_false_of_ne ha]] at h
      exact h

lemma mergeMaxes_cons_guard (mins maxes : List (Char × Nat)) (l : Char) (c : Nat)
    (rest : List (Char × Nat)) (hb : maxGuard mins l c = true) :
    mergeMaxes mins maxes ((l, c) :: rest) = Except.error Err.assertionError := by
  show (if (mins.lookup l).isSome && decide (c < lookupD mins l 0) then
      Except.error Err.assertionError
    else match maxes.lookup l with
      | some mx =>
        if c = mx then mergeMaxes mins maxes rest else Except.error Err.assertionError
      | none => mergeMaxes mins (setKey maxes l c) rest) = _
  rw [show ((mins.lookup l).isSome && decide (c < lookupD mins l 0)) = true from hb]
  simp

lemma mergeMaxes_cons_some (mins maxes : List (Char × Nat)) (l : Char) (c : Nat)
    (rest : List (Char × Nat)) (mx : Nat) (hb : maxGuard mins l c = false)
    (hlk : maxes.lookup l = some mx) :
    mergeMaxes mins maxes ((l, c) :: rest) =
      if c = mx then mergeMaxes mins maxes rest else Except.error Err.assertionError := by
  show (if (mins.lookup l).isSome && decide (c < lookupD mins l 0) then
      Except.error Err.assertionError
    else match maxes.lookup l with
      | some mx =>
        if c = mx then mergeMaxes mins maxes rest else Except.error Err.assertionError
      | none => mergeMaxes mins (setKey maxes l c) rest) = _
  rw [show ((mins.lookup l).isSome && decide (c < lookupD mins l 0)) = false from hb, hlk]
  simp

lemma mergeMaxes_cons_none (mins maxes : List (Char × Nat)) (l : Char) (c : Nat)
    (rest : List (Char × Nat)) (hb : maxGuard mins l c = false)
    (hlk : maxes.lookup l = none) :
    mergeMaxes mins maxes ((l, c) :: rest) = mergeMaxes mins (setKey maxes l c) rest := by
  show (if (mins.lookup l).isSome && decide (c < lookupD mins l 0) then
      Except.error Err.assertionError
    else match maxes.lookup l with
      | some mx =>
        if c = mx then mergeMaxes mins maxes rest else Except.error Err.assertionError
      | none => mergeMaxes mins (setKey maxes l c) rest) = _
  rw [show ((mins.lookup l).isSome && decide (c < lookupD mins l 0)) = false from hb, hlk]
  simp

lemma maxGuard_false_iff (mins : List (Char × Nat)) (l : Char) (c : Nat) :
    maxGuard mins l c = false ↔ ∀ mn, mins.lookup l = some mn → mn ≤ c := by
  rw [maxGuard]
  cases hlk : mins.lookup l with
  | none => simp
  | some mn =>
    have h1 : lookupD mins l 0 = mn := by simp [lookupD, hlk]
    rw [h1]
    simp only [Option.isSome_some, Bool.true_and, decide_eq_false_iff_not, Nat.not_lt]
    constructor
    · intro h mn' hmn'
      injection hmn' with h2
      omega
    · intro h
      have h2 := h mn rfl
      omega

lemma mergeMaxes_sub :
    ∀ (rmax mins maxes maxes' : List (Char × Nat)),
      mergeMaxes mins maxes rmax = Except.ok maxes' →
      ∀ e ∈ maxes, e ∈ maxes' := by
  intro rmax
  induction rmax with
  | nil =>
    intro mins maxes maxes' h e he
    simp [mergeMaxes] at h
    rw [← h]
    exact he
  | cons e0 rest ih =>
    obtain ⟨l, c⟩ := e0
    intro mins maxes maxes' h e he
    cases hb : maxGuard mins l c with
    | true =>
      rw [mergeMaxes_cons_guard _ _ _ _ _ hb] at h
      simp at h
    | false =>
      cases hlk : maxes.lookup l with
      | some mx =>
        rw [mergeMaxes_cons_some _ _ _ _ _ _ hb hlk] at h
        by_cases hc : c = mx
        · rw [if_pos hc] at h
          exact ih mins maxes maxes' h e he
        · rw [if_neg hc] at h
          simp at h
      | none =>
        rw [mergeMaxes_cons_none _ _ _ _ _ hb hlk] at h
        refine ih mins _ maxes' h e ?_
        rw [setKey_of_lookup_none maxes l c hlk]
        exact List.mem_append_left _ he

lemma mergeMaxes_lookup_preserve :
    ∀ (rmax mins maxes maxes' : List (Char × Nat)),
      mergeMaxes mins maxes rmax = Except.ok maxes' →
      ∀ (l : Char) (v : Nat), maxes.lookup l = some v → maxes'.lookup l = some v := by
  intro rmax
  induction rmax with
  | nil =>
    intro mins maxes maxes' h l v hv
    simp [mergeMaxes] at h
    rw [← h]
    exact hv
  | cons e0 rest ih =>
    obtain ⟨l0, c0⟩ := e0
    intro mins maxes maxes' h l v hv
    cases hb : maxGuard mins l0 c0 with
    | true =>
      rw [mergeMaxes_cons_guard _ _ _ _ _ hb] at h
      simp at h
    | false =>
      cases hlk : maxes.lookup l0 with
      | some mx =>
        rw [mergeMaxes_cons_some _ _ _ _ _ _ hb hlk] at h
        by_cases hc : c0 = mx
        · rw [if_pos hc] at h
          exact ih mins maxes maxes' h l v hv
        · rw [if_neg hc] at h
          simp at h
      | none =>
        rw [mergeMaxes_cons_none _ _ _ _ _ hb hlk] at h
        refine ih mins _ maxes' h l v ?_
        rw [setKey_of_lookup_none maxes l0 c0 hlk]
        have hne : l ≠ l0 := by
          intro hc
          subst hc
          rw [hv] at hlk
          cases hlk
        rw [lookup_snoc_ne _ _ _ _ hne]
        exact hv

lemma mergeMaxes_source :
    ∀ (rmax mins maxes maxes' : List (Char × Nat)),
      mergeMaxes mins maxes rmax = Except.ok maxes' →
      ∀ e ∈ maxes', e ∈ maxes ∨ e ∈ rmax := by
  intro rmax
  induction rmax with
  | nil =>
    intro mins maxes maxes' h e he
    simp [mergeMaxes] at h
    rw [← h] at he
    exact Or.inl he
  | cons e0 rest ih =>
    obtain ⟨l, c⟩ := e0
    intro mins maxes maxes' h e he
    cases hb : maxGuard mins l c with
    | true =>
      rw [mergeMaxes_cons_guard _ _ _ _ _ hb] at h
      simp at h
    | false =>
      cases hlk : maxes.lookup l with
      | some mx =>
        rw [mergeMaxes_cons_some _ _ _ _ _ _ hb hlk] at h
        by_cases hc : c = mx
        · rw [if_pos hc] at h
          rcases ih mins maxes maxes' h e he with h1 | h1
          · exact Or.inl h1
          · exact Or.inr (List.mem_cons_of_mem _ h1)
        · rw [if_neg hc] at h
          simp at h
      | none =>
        rw [mergeMaxes_cons_none _ _ _ _ _ hb hlk] at h
        rcases ih mins _ maxes' h e he with h1 | h1
        · rw [setKey_of_lookup_none maxes l c hlk] at h1
          rcases List.mem_append.mp h1 with h2 | h2
          · exact Or.inl h2
          · simp at h2
            exact Or.inr (by rw [h2]; exact List.mem_cons_self _ _)
        · exact Or.inr (List.mem_cons_of_mem _ h1)

lemma mergeMaxes_run :
    ∀ (rmax mins maxes : List (Char × Nat)),
      (rmax.map Prod.fst).Nodup →
      (∀ e ∈ rmax, (∀ mn, mins.lookup e.1 = some mn → mn ≤ e.2) ∧
        (∀ mx, maxes.lookup e.1 = some mx → e.2 = mx)) →
      ∃ maxes', mergeMaxes mins maxes rmax = Except.ok maxes' := by
  intro rmax
  induction rmax with
  | nil =>
    intro mins maxes _ _
    exact ⟨maxes, rfl⟩
  | cons e0 rest ih =>
    obtain ⟨l, c⟩ := e0
    intro mins maxes hnd hcond
    have h0 := hcond (l, c) (List.mem_cons_self _ _)
    have hb : maxGuard mins l c = false := (maxGuard_false_iff mins l c).mpr h0.1
    have hnd' : (rest.map Prod.fst).Nodup := by
      have h2 : (((l, c) :: rest).map Prod.fst) = l :: rest.map Prod.fst := rfl
      rw [h2] at hnd
      exact (List.nodup_cons.mp hnd).2
    have hlnm : l ∉ rest.map Prod.fst := by
      have h2 : (((l, c) :: rest).map Prod.fst) = l :: rest.map Prod.fst := rfl
      rw [h2] at hnd
      exact (List.nodup_cons.mp hnd).1
    cases hlk : maxes.lookup l with
    | some mx =>
      have hc : c = mx := h0.2 mx hlk
      obtain ⟨maxes', hok⟩ := ih mins maxes hnd'
        (fun e he => hcond e (List.mem_cons_of_mem _ he))
      refine ⟨maxes', ?_⟩
      rw [mergeMaxes_cons_some _ _ _ _ _ _ hb hlk, if_pos hc]
      exact hok
    | none =>
      have hrest : ∀ e ∈ rest, (∀ mn, mins.lookup e.1 = some mn → mn ≤ e.2) ∧
          (∀ mx, (setKey maxes l c).lookup e.1 = some mx → e.2 = mx) := by
        intro e he
        have hne : e.1 ≠ l := by
          intro hc
          exact hlnm (by
            rw [← hc]
            exact List.mem_map.mpr ⟨e, he, rfl⟩)
        refine ⟨(hcond e (List.mem_cons_of_mem _ he)).1, ?_⟩
        intro mx hmx
        rw [setKey_of_lookup_none maxes l c hlk, lookup_snoc_ne _ _ _ _ hne] at hmx
        exact (hcond e (List.mem_cons_of_mem _ he)).2 mx hmx
      obtain ⟨maxes', hok⟩ := ih mins (setKey maxes l c) hnd' hrest
      refine ⟨maxes', ?_⟩
      rw [mergeMaxes_cons_none _ _ _ _ _ hb hlk]
      exact hok

lemma mergeMaxes_fail :
    ∀ (rmax mins maxes : List (Char × Nat)),
      (rmax.map Prod.fst).Nodup →
      (∃ e ∈ rmax, (∃ mn, mins.lookup e.1 = some mn ∧ e.2 < mn) ∨
        (∃ mx, maxes.lookup e.1 = some mx ∧ e.2 ≠ mx)) →
      mergeMaxes mins maxes rmax = Except.error Err.assertionError := by
  intro rmax
  induction rmax with
  | nil =>
    intro mins maxes _ hex
    simp at hex
  | cons e0 rest ih =>
    obtain ⟨l, c⟩ := e0
    intro mins maxes hnd hex
    have hnd' : (rest.map Prod.fst).Nodup := by
      have h2 : (((l, c) :: rest).map Prod.fst) = l :: rest.map Prod.fst := rfl
      rw [h2] at hnd
      exact (List.nodup_cons.mp hnd).2
    have hlnm : l ∉ rest.map Prod.fst := by
      have h2 : (((l, c) :: rest).map Prod.fst) = l :: rest.map Prod.fst := rfl
      rw [h2] at hnd
      exact (List.nodup_cons.mp hnd).1
    obtain ⟨e, he, hviol⟩ := hex
    rcases List.mem_cons.mp he with h1 | h1
    · subst h1
      rcases hviol with ⟨mn, hmn, hlt⟩ | ⟨mx, hmx, hne⟩
      · have hb : maxGuard mins l c = true := by
          rw [maxGuard, hmn]
          simp [lookupD, hmn]
          omega
        exact mergeMaxes_cons_guard _ _ _ _ _ hb
      · cases hb : maxGuard mins l c with
        | true => exact mergeMaxes_cons_guard _ _ _ _ _ hb
        | false =>
          rw [mergeMaxes_cons_some _ _ _ _ _ _ hb hmx, if_neg hne]
    · have hne : e.1 ≠ l := by
        intro hc
        exact hlnm (by
          rw [← hc]
          exact List.mem_map.mpr ⟨e, h1, rfl⟩)
      cases hb : maxGuard mins l c with
      | true => exact mergeMaxes_cons_guard _ _ _ _ _ hb
      | false =>
        cases hlk : maxes.lookup l with
        | some mx =>
          by_cases hc : c = mx
          · rw [mergeMaxes_cons_some _ _ _ _ _ _ hb hlk, if_pos hc]
            exact ih mins maxes hnd' ⟨e, h1, hviol⟩
          · rw [mergeMaxes_cons_some _ _ _ _ _ _ hb hlk, if_neg hc]
        | none =>
          rw [mergeMaxes_cons_none _ _ _ _ _ hb hlk]
          refine ih mins _ hnd' ⟨e, h1, ?_⟩
          rcases hviol with h2 | ⟨mx, hmx, hne2⟩
          · exact Or.inl h2
          · refine Or.inr ⟨mx, ?_, hne2⟩
            rw [setKey_of_lookup_none maxes l c hlk, lookup_snoc_ne _ _ _ _ hne]
            exact hmx

lemma mergeMaxes_post :
    ∀ (rmax mins maxes maxes' : List (Char × Nat)),
      (rmax.map Prod.fst).Nodup →
      mergeMaxes mins maxes rmax = Except.ok maxes' →
      ∀ e ∈ rmax, maxes'.lookup e.1 = some e.2 := by
  intro rmax
  induction rmax with
  | nil =>
    intro mins maxes maxes' _ _ e he
    simp at he
  | cons e0 rest ih =>
    obtain ⟨l, c⟩ := e0
    intro mins maxes maxes' hnd h e he
    have hnd' : (rest.map Prod.fst).Nodup := by
      have h2 : (((l, c) :: rest).map Prod.fst) = l :: rest.map Prod.fst := rfl
      rw [h2] at hnd
      exact (List.nodup_cons.mp hnd).2
    cases hb : maxGuard mins l c with
    | true =>
      rw [mergeMaxes_cons_guard _ _ _ _ _ hb] at h
      simp at h
    | false =>
      cases hlk : maxes.lookup l with
      | some mx =>
        rw [mergeMaxes_cons_some _ _ _ _ _ _ hb hlk] at h
        by_cases hc : c = mx
        · rw [if_pos hc] at h
          rcases List.mem_cons.mp he with h1 | h1
          · subst h1
            subst hc
            exact mergeMaxes_lookup_preserve rest mins maxes maxes' h l c hlk
          · exact ih mins maxes maxes' hnd' h e h1
        · rw [if_neg hc] at h
          simp at h
      | none =>
        rw [mergeMaxes_cons_none _ _ _ _ _ hb hlk] at h
        rcases List.mem_cons.mp he with h1 | h1
        · subst h1
          refine mergeMaxes_lookup_preserve rest mins _ maxes' h l c ?_
          rw [setKey_of_lookup_none maxes l c hlk]
          exact lookup_snoc_self maxes l c hlk
        · exact ih mins _ maxes' hnd' h e h1

end MergeMaxesLemmas

section MergeWrongLemmas

lemma mergeWrong_length :
    ∀ (entries : List (Nat × Char)) (wp wp' : List (List Char)),
      mergeWrong wp entries = Except.ok wp' → wp'.length = wp.length := by
  intro entries
  induction entries with
  | nil =>
    intro wp wp' h
    simp [mergeWrong] at h
    rw [h]
  | cons e0 rest ih =>
    obtain ⟨i, c⟩ := e0
    intro wp wp' h
    simp only [mergeWrong] at h
    cases hi : wp[i]? with
    | none =>
      simp only [hi] at h
      simp at h
    | some st =>
      simp only [hi] at h
      rw [ih _ _ h, List.length_set]

lemma mergeWrong_subset :
    ∀ (entries : List (Nat × Char)) (wp wp' : List (List Char)),
      mergeWrong wp entries = Except.ok wp' →
      ∀ (i : Nat) (s : List Char), wp[i]? = some s →
        ∃ s', wp'[i]? = some s' ∧ s ⊆ s' := by
  intro entries
  induction entries with
  | nil =>
    intro wp wp' h i s hi
    simp [mergeWrong] at h
    rw [← h]
    exact ⟨s, hi, fun x hx => hx⟩
  | cons e0 rest ih =>
    obtain ⟨i0, c0⟩ := e0
    intro wp wp' h i s hi
    simp only [mergeWrong] at h
    cases hi0 : wp[i0]? with
    | none =>
      simp only [hi0] at h
      simp at h
    | some st =>
      simp only [hi0] at h
      by_cases hii : i0 = i
      · subst hii
        have hst : st = s := by
          rw [hi0] at hi
          injection hi
        subst hst
        obtain ⟨s', hs', hsub⟩ := ih _ _ h i0 (insertChar st c0)
          (by rw [List.getElem?_set_eq_of_lt _ (lt_of_getElem?_some hi0)])
        exact ⟨s', hs', fun x hx => hsub (subset_insertChar st c0 hx)⟩
      · obtain ⟨s', hs', hsub⟩ := ih _ _ h i s
          (by rw [List.getElem?_set_ne hii]; exact hi)
        exact ⟨s', hs', hsub⟩

lemma mergeWrong_source :
    ∀ (entries : List (Nat × Char)) (wp wp' : List (List Char)),
      mergeWrong wp entries = Except.ok wp' →
      ∀ (i : Nat) (s' : List Char) (c : Char), wp'[i]? = some s' → c ∈ s' →
        (∃ s, wp[i]? = some s ∧ c ∈ s) ∨ (i, c) ∈ entries := by
  intro entries
  induction entries with
  | nil =>
    intro wp wp' h i s' c hi hc
    simp [mergeWrong] at h
    rw [← h] at hi
    exact Or.inl ⟨s', hi, hc⟩
  | cons e0 rest ih =>
    obtain ⟨i0, c0⟩ := e0
    intro wp wp' h i s' c hi hc
    simp only [mergeWrong] at h
    cases hi0 : wp[i0]? with
    | none =>
      simp only [hi0] at h
      simp at h
    | some st =>
      simp only [hi0] at h
      rcases ih _ _ h i s' c hi hc with ⟨s1, hs1, hc1⟩ | h1
      · by_cases hii : i0 = i
        · subst hii
          rw [List.getElem?_set_eq_of_lt _ (lt_of_getElem?_some hi0)] at hs1
          have : insertChar st c0 = s1 := by injection hs1
          subst this
          rcases mem_insertChar st c0 c hc1 with h2 | h2
          · exact Or.inl ⟨st, hi0, h2⟩
          · subst h2
            exact Or.inr (List.mem_cons_self _ _)
        · rw [List.getElem?_set_ne hii] at hs1
          exact Or.inl ⟨s1, hs1, hc1⟩
      · exact Or.inr (List.mem_cons_of_mem _ h1)

lemma mergeWrong_run :
    ∀ (entries : List (Nat × Char)) (wp : List (List Char)),
      (∀ e ∈ entries, e.1 < wp.length) →
      ∃ wp', mergeWrong wp entries = Except.ok wp' := by
  intro entries
  induction entries with
  | nil =>
    intro wp _
    exact ⟨wp, rfl⟩
  | cons e0 rest ih =>
    obtain ⟨i0, c0⟩ := e0
    intro wp hrange
    have hlt : i0 < wp.length := hrange (i0, c0) (List.mem_cons_self _ _)
    cases hi0 : wp[i0]? with
    | none =>
      exact absurd (List.getElem?_eq_none_iff.mp hi0) (by omega)
    | some st =>
      obtain ⟨wp', hok⟩ := ih (wp.set i0 (insertChar st c0)) (by
        intro e he
        rw [List.length_set]
        exact hrange e (List.mem_cons_of_mem _ he))
      refine ⟨wp', ?_⟩
      simp only [mergeWrong, hi0]
      exact hok

lemma mergeWrong_post :
    ∀ (entries : List (Nat × Char)) (wp wp' : List (List Char)),
      mergeWrong wp entries = Except.ok wp' →
      ∀ e ∈ entries, ∃ s', wp'[e.1]? = some s' ∧ e.2 ∈ s' := by
  intro entries
  induction entries with
  | nil =>
    intro wp wp' _ e he
    simp at he
  | cons e0 rest ih =>
    obtain ⟨i0, c0⟩ := e0
    intro wp wp' h e he
    simp only [mergeWrong] at h
    cases hi0 : wp[i0]? with
    | none =>
      simp only [hi0] at h
      simp at h
    | some st =>
      simp only [hi0] at h
      rcases List.mem_cons.mp he with h1 | h1
      · subst h1
        obtain ⟨s', hs', hsub⟩ := mergeWrong_subset rest _ _ h i0 (insertChar st c0)
          (by rw [List.getElem?_set_eq_of_lt _ (lt_of_getElem?_some hi0)])
        exact ⟨s', hs', hsub (mem_insertChar_self st c0)⟩
      · exact ih _ _ h e h1

end MergeWrongLemmas

section AddResultLemmas

lemma lookup_mem (m : List (Char × Nat)) (l : Char) (v : Nat)
    (h : m.lookup l = some v) : (l, v) ∈ m := by
  induction m with
  | nil => simp [List.lookup] at h
  | cons e rest ih =>
    obtain ⟨a, b⟩ := e
    by_cases ha : l = a
    · subst ha
      rw [show List.lookup l ((l, b) :: rest) = some b from by simp [List.lookup]] at h
      injection h with h2
      rw [h2]
      exact List.mem_cons_self _ _
    · rw [show List.lookup l ((a, b) :: rest) = List.lookup l rest from by
        simp [List.lookup, beq_false_of_ne ha]] at h
      exact List.mem_cons_of_mem _ (ih h)

lemma lookup_eq_of_mem_nodup (m : List (Char × Nat)) (l : Char) (v : Nat)
    (hnd : (m.map Prod.fst).Nodup) (h : (l, v) ∈ m) : m.lookup l = some v := by
  induction m with
  | nil => simp at h
  | cons e rest ih =>
    obtain ⟨a, b⟩ := e
    have hnd' : (rest.map Prod.fst).Nodup := (List.nodup_cons.mp hnd).2
    have hanm : a ∉ rest.map Prod.fst := (List.nodup_cons.mp hnd).1
    rcases List.mem_cons.mp h with h1 | h1
    · injection h1 with h2 h3
      subst h2
      subst h3
      simp [List.lookup]
    · have hla : l ≠ a := by
        intro hc
        subst hc
        exact hanm (List.mem_map.mpr ⟨(l, v), h1, rfl⟩)
      rw [show List.lookup l ((a, b) :: rest) = List.lookup l rest from by
        simp [List.lookup, beq_false_of_ne hla]]
      exact ih hnd' h1

lemma set_of_getElem?_eq {α : Type} : ∀ (l : List α) (i : Nat) (a : α),
    l[i]? = some a → l.set i a = l := by
  intro l
  induction l with
  | nil => intro i a h; simp at h
  | cons x rest ih =>
    intro i a h
    cases i with
    | zero =>
      simp at h
      subst h
      rfl
    | succ i =>
      simp at h
      rw [List.set_cons_succ, ih i a h]

lemma mergeCorrect_id :
    ∀ (entries : List (Nat × Char)) (ans : List (Option Char)),
      (∀ e ∈ entries, ans[e.1]? = some (some e.2)) →
      mergeCorrect ans entries = Except.ok ans := by
  intro entries
  induction entries with
  | nil => intro ans _; rfl
  | cons e0 rest ih =>
    obtain ⟨i, l⟩ := e0
    intro ans hcond
    have h0 : ans[i]? = some (some l) := hcond (i, l) (List.mem_cons_self _ _)
    simp only [mergeCorrect, h0, if_pos rfl]
    rw [set_of_getElem?_eq ans i (some l) h0]
    exact ih ans fun e he => hcond e (List.mem_cons_of_mem _ he)

lemma mergeMins_necessary :
    ∀ (rm maxes mins mins' : List (Char × Nat)),
      mergeMins maxes mins rm = Except.ok mins' →
      ∀ e ∈ rm, ∀ mx, maxes.lookup e.1 = some mx → e.2 ≤ mx := by
  intro rm
  induction rm with
  | nil =>
    intro maxes mins mins' _ e he
    simp at he
  | cons e0 rest ih =>
    obtain ⟨l, c⟩ := e0
    intro maxes mins mins' h e he mx hmx
    rcases List.mem_cons.mp he with h1 | h1
    · subst h1
      rw [mergeMins_cons_some _ _ _ _ _ _ hmx] at h
      by_cases hle : c ≤ mx
      · exact hle
      · rw [if_neg hle] at h
        simp at h
    · cases hlk : maxes.lookup l with
      | none =>
        rw [mergeMins_cons_none _ _ _ _ _ hlk] at h
        exact ih maxes _ mins' h e h1 mx hmx
      | some mx0 =>
        rw [mergeMins_cons_some _ _ _ _ _ _ hlk] at h
        by_cases hle : c ≤ mx0
        · rw [if_pos hle] at h
          exact ih maxes _ mins' h e h1 mx hmx
        · rw [if_neg hle] at h
          simp at h

lemma mergeMins_id :
    ∀ (rm maxes mins : List (Char × Nat)),
      (∀ e ∈ rm, e.2 ≤ lookupD mins e.1 0 ∧
        ∀ mx, maxes.lookup e.1 = some mx → e.2 ≤ mx) →
      mergeMins maxes mins rm = Except.ok mins := by
  intro rm
  induction rm with
  | nil => intro maxes mins _; rfl
  | cons e0 rest ih =>
    obtain ⟨l, c⟩ := e0
    intro maxes mins hcond
    have h0 := hcond (l, c) (List.mem_cons_self _ _)
    have hstep : minsStep mins l c = mins := by
      rw [minsStep, if_neg (by
        have := h0.1
        simp at this ⊢
        omega)]
    have hrest := ih maxes mins fun e he => hcond e (List.mem_cons_of_mem _ he)
    cases hlk : maxes.lookup l with
    | none =>
      rw [mergeMins_cons_none _ _ _ _ _ hlk, hstep]
      exact hrest
    | some mx =>
      rw [mergeMins_cons_some _ _ _ _ _ _ hlk, if_pos (h0.2 mx hlk), hstep]
      exact hrest

lemma mergeMaxes_guard_necessary :
    ∀ (rmax mins maxes maxes' : List (Char × Nat)),
      mergeMaxes mins maxes rmax = Except.ok maxes' →
      ∀ e ∈ rmax, maxGuard mins e.1 e.2 = false := by
  intro rmax
  induction rmax with
  | nil =>
    intro mins maxes maxes' _ e he
    simp at he
  | cons e0 rest ih =>
    obtain ⟨l, c⟩ := e0
    intro mins maxes maxes' h e he
    cases hb : maxGuard mins l c with
    | true =>
      rw [mergeMaxes_cons_guard _ _ _ _ _ hb] at h
      simp at h
    | false =>
      rcases List.mem_cons.mp he with h1 | h1
      · rw [h1]
        exact hb
      · cases hlk : maxes.lookup l with
        | some mx =>
          rw [mergeMaxes_cons_some _ _ _ _ _ _ hb hlk] at h
          by_cases hc : c = mx
          · rw [if_pos hc] at h
            exact ih mins maxes maxes' h e h1
          · rw [if_neg hc] at h
            simp at h
        | none =>
          rw [mergeMaxes_cons_none _ _ _ _ _ hb hlk] at h
          exact ih mins _ maxes' h e h1

lemma mergeMaxes_lookup_source :
    ∀ (rmax mins maxes maxes' : List (Char × Nat)),
      mergeMaxes mins maxes rmax = Except.ok maxes' →
      ∀ (l : Char) (mx : Nat), maxes'.lookup l = some mx →
        maxes.lookup l = some mx ∨ (l, mx) ∈ rmax := by
  intro rmax
  induction rmax with
  | nil =>
    intro mins maxes maxes' h l mx hmx
    simp [mergeMaxes] at h
    rw [← h] at hmx
    exact Or.inl hmx
  | cons e0 rest ih =>
    obtain ⟨l0, c0⟩ := e0
    intro mins maxes maxes' h l mx hmx
    cases hb : maxGuard mins l0 c0 with
    | true =>
      rw [mergeMaxes_cons_guard _ _ _ _ _ hb] at h
      simp at h
    | false =>
      cases hlk : maxes.lookup l0 with
      | some mx0 =>
        rw [mergeMaxes_cons_some _ _ _ _ _ _ hb hlk] at h
        by_cases hc : c0 = mx0
        · rw [if_pos hc] at h
          rcases ih mins maxes maxes' h l mx hmx with h1 | h1
          · exact Or.inl h1
          · exact Or.inr (List.mem_cons_of_mem _ h1)
        · rw [if_neg hc] at h
          simp at h
      | none =>
        rw [mergeMaxes_cons_none _ _ _ _ _ hb hlk] at h
        rcases ih mins _ maxes' h l mx hmx with h1 | h1
        · rw [setKey_of_lookup_none maxes l0 c0 hlk] at h1
          by_cases hll : l = l0
          · subst hll
            rw [lookup_snoc_self maxes l c0 hlk] at h1
            injection h1 with h2
            subst h2
            exact Or.inr (List.mem_cons_self _ _)
          · rw [lookup_snoc_ne _ _ _ _ hll] at h1
            exact Or.inl h1
        · exact Or.inr (List.mem_cons_of_mem _ h1)

lemma mergeMaxes_id :
    ∀ (rmax mins maxes : List (Char × Nat)),
      (∀ e ∈ rmax, maxGuard mins e.1 e.2 = false ∧ maxes.lookup e.1 = some e.2) →
      mergeMaxes mins maxes rmax = Except.ok maxes := by
  intro rmax
  induction rmax with
  | nil => intro mins maxes _; rfl
  | cons e0 rest ih =>
    obtain ⟨l, c⟩ := e0
    intro mins maxes hcond
    have h0 := hcond (l, c) (List.mem_cons_self _ _)
    rw [mergeMaxes_cons_some _ _ _ _ _ _ h0.1 h0.2, if_pos rfl]
    exact ih mins maxes fun e he => hcond e (List.mem_cons_of_mem _ he)

lemma mergeWrong_id :
    ∀ (entries : List (Nat × Char)) (wp : List (List Char)),
      (∀ e ∈ entries, ∃ s, wp[e.1]? = some s ∧ e.2 ∈ s) →
      mergeWrong wp entries = Except.ok wp := by
  intro entries
  induction entries with
  | nil => intro wp _; rfl
  | cons e0 rest ih =>
    obtain ⟨i, c⟩ := e0
    intro wp hcond
    obtain ⟨s, hs, hc⟩ := hcond (i, c) (List.mem_cons_self _ _)
    simp only [mergeWrong, hs]
    rw [insertChar_of_mem s c hc, set_of_getElem?_eq wp i s hs]
    exact ih wp fun e he => hcond e (List.mem_cons_of_mem _ he)

lemma add_result_ok_elim (k : Knowledge) (r : GameResult) (k' : Knowledge)
    (h : k.add_result r = Except.ok k') :
    ∃ ans mins maxes wp,
      mergeCorrect k.answer (correct_chars r) = Except.ok ans ∧
      mergeMins k.char_maxes k.char_mins (result_char_mins r) = Except.ok mins ∧
      mergeMaxes mins k.char_maxes (result_char_maxes r) = Except.ok maxes ∧
      mergeWrong k.wrong_positions (result_wrong_positions r) = Except.ok wp ∧
      k' = ⟨mins, maxes, wp, ans⟩ := by
  simp only [Knowledge.add_result, bind, Except.bind] at h
  cases h1 : mergeCorrect k.answer (correct_chars r) with
  | error e =>
    simp only [h1] at h
    simp at h
  | ok ans =>
    simp only [h1] at h
    cases h2 : mergeMins k.char_maxes k.char_mins (result_char_mins r) with
    | error e =>
      simp only [h2] at h
      simp at h
    | ok mins =>
      simp only [h2] at h
      cases h3 : mergeMaxes mins k.char_maxes (result_char_maxes r) with
      | error e =>
        simp only [h3] at h
        simp at h
      | ok maxes =>
        simp only [h3] at h
        cases h4 : mergeWrong k.wrong_positions (result_wrong_positions r) with
        | error e =>
          simp only [h4] at h
          simp at h
        | ok wp =>
          simp only [h4] at h
          simp at h
          refine ⟨ans, mins, maxes, wp, ?_, ?_, ?_, ?_, h.symm⟩ <;>
            first
            | rfl
            | assumption

lemma add_result_ok_intro (k : Knowledge) (r : GameResult)
    (ans : List (Option Char)) (mins maxes : List (Char × Nat))
    (wp : List (List Char))
    (h1 : mergeCorrect k.answer (correct_chars r) = Except.ok ans)
    (h2 : mergeMins k.char_maxes k.char_mins (result_char_mins r) = Except.ok mins)
    (h3 : mergeMaxes mins k.char_maxes (result_char_maxes r) = Except.ok maxes)
    (h4 : mergeWrong k.wrong_positions (result_wrong_positions r) = Except.ok wp) :
    k.add_result r = Except.ok ⟨mins, maxes, wp, ans⟩ := by
  simp only [Knowledge.add_result, bind, Except.bind, h1, h2, h3, h4]

end AddResultLemmas





section ViewLemmas

lemma mem_keys_filterMap (cs : List Char) (f : Char → Option (Char × Nat))
    (hf : ∀ c e, f c = some e → e.1 = c) :
    ∀ k ∈ (cs.filterMap f).map Prod.fst, k ∈ cs := by
  intro k hk
  obtain ⟨e, he, hfst⟩ := List.mem_map.mp hk
  obtain ⟨c, hc, hfc⟩ := List.mem_filterMap.mp he
  rw [← hfst, hf c e hfc]
  exact hc

lemma keys_nodup_of_filterMap (cs : List Char) (f : Char → Option (Char × Nat))
    (hf : ∀ c e, f c = some e → e.1 = c) (hnd : cs.Nodup) :
    ((cs.filterMap f).map Prod.fst).Nodup := by
  induction cs with
  | nil => simp
  | cons c rest ih =>
    have hnd' : rest.Nodup := (List.nodup_cons.mp hnd).2
    have hcnm : c ∉ rest := (List.nodup_cons.mp hnd).1
    rw [List.filterMap_cons]
    cases hfc : f c with
    | none => exact ih hnd'
    | some e =>
      rw [List.map_cons, List.nodup_cons]
      refine ⟨?_, ih hnd'⟩
      rw [hf c e hfc]
      intro hc
      exact hcnm (mem_keys_filterMap rest f hf c hc)

lemma result_char_mins_keys_nodup (r : GameResult) :
    ((result_char_mins r).map Prod.fst).Nodup := by
  refine keys_nodup_of_filterMap (resultChars r) _ ?_ (List.nodup_dedup _)
  intro c e h
  simp only at h
  by_cases hm : minRequired r c ≠ 0
  · rw [if_pos hm] at h
    injection h with h2
    rw [← h2]
  · rw [if_neg hm] at h
    cases h

lemma result_char_mins_mem (r : GameResult) (l : Char) (c : Nat)
    (h : (l, c) ∈ result_char_mins r) : c = minRequired r l ∧ c ≠ 0 := by
  obtain ⟨c0, hc0, hfc⟩ := List.mem_filterMap.mp h
  simp only at hfc
  by_cases hm : minRequired r c0 ≠ 0
  · rw [if_pos hm] at hfc
    have h1 : (c0, minRequired r c0) = (l, c) := by injection hfc
    have h2 : c0 = l := congrArg Prod.fst h1
    have h3 : minRequired r c0 = c := congrArg Prod.snd h1
    subst h2
    refine ⟨h3.symm, ?_⟩
    rw [← h3]
    exact hm
  · rw [if_neg hm] at hfc
    cases hfc

lemma result_char_mins_lookupD (r : GameResult) (l : Char) (c : Nat)
    (h : (l, c) ∈ result_char_mins r) :
    lookupD (result_char_mins r) l 0 = c := by
  rw [lookupD, lookup_eq_of_mem_nodup _ _ _ (result_char_mins_keys_nodup r) h]
  rfl

lemma result_char_maxes_keys_nodup (r : GameResult) :
    ((result_char_maxes r).map Prod.fst).Nodup := by
  have heq : (result_char_maxes r).map Prod.fst = wrongChars r := by
    show ((wrongChars r).map fun c =>
        (c, ((result_char_mins r).lookup c).getD 0)).map Prod.fst = wrongChars r
    rw [List.map_map]
    simp [Function.comp_def]
  rw [heq]
  exact List.nodup_dedup _

lemma result_char_maxes_mem (r : GameResult) (l : Char) (v : Nat)
    (h : (l, v) ∈ result_char_maxes r) :
    v = lookupD (result_char_mins r) l 0 ∧ l ∈ wrongChars r := by
  obtain ⟨c, hc, hfc⟩ := List.mem_map.mp h
  injection hfc with h1 h2
  subst h1
  subst h2
  exact ⟨rfl, hc⟩

lemma correct_chars_pairwise_ne (r : GameResult) :
    (correct_chars r).Pairwise (fun a b => a.1 ≠ b.1) :=
  (correctCharsAux_pairwise r 0).imp fun h => Nat.ne_of_lt h

lemma is_valid_iff (k : Knowledge) (w : List Char) :
    k.is_valid_solution w = true ↔
      (∀ e ∈ k.char_mins, e.2 ≤ w.count e.1) ∧
      (∀ e ∈ k.char_maxes, w.count e.1 ≤ e.2) ∧
      (∀ (i : Nat) (l c : Char), k.answer[i]? = some (some l) → w[i]? = some c →
        l = c) ∧
      (∀ (i : Nat) (s : List Char) (c : Char), k.wrong_positions[i]? = some s →
        w[i]? = some c → c ∉ s) := by
  rw [Knowledge.is_valid_solution]
  simp only [Bool.and_eq_true, checkMins_iff, checkMaxes_iff, checkPositions_iff,
    checkWrong_iff, and_assoc]

end ViewLemmas

lemma add_result_tightens (k : Knowledge) (r : GameResult) (k' : Knowledge)
    (h : k.add_result r = Except.ok k') (univ : List (List Char)) :
    (valid_solutions k' univ).length ≤ (valid_solutions k univ).length := by
  obtain ⟨ans, mins, maxes, wp, h1, h2, h3, h4, hk⟩ := add_result_ok_elim k r k' h
  subst hk
  have himp : ∀ w, (⟨mins, maxes, wp, ans⟩ : Knowledge).is_valid_solution w = true →
      k.is_valid_solution w = true := by
    intro w hw
    rw [is_valid_iff] at hw ⊢
    obtain ⟨hm, hx, hp, hw4⟩ := hw
    refine ⟨?_, ?_, ?_, ?_⟩
    · intro e he
      obtain ⟨v', hv', hle⟩ := mergeMins_entry_mono _ _ _ _ h2 e he
      have h5 := hm (e.1, v') hv'
      simp only at h5
      omega
    · intro e he
      exact hx e (mergeMaxes_sub _ _ _ _ h3 e he)
    · intro i l c hi hw2
      exact hp i l c (mergeCorrect_preserves _ _ _ h1 i l hi) hw2
    · intro i s c hi hw2 hc
      obtain ⟨s', hs', hsub⟩ := mergeWrong_subset _ _ _ h4 i s hi
      exact hw4 i s' c hs' hw2 (hsub hc)
  exact List.Sublist.length_le (List.monotone_filter_right univ fun w hw => himp w hw)

/-- C2: merging a Result into a model via `add_result` never grows the
valid-solution set: for any fixed candidate universe, the number of
candidates accepted after a successful fold is at most the number accepted
before it. -/
theorem c2_monotone_merge (k : Knowledge) (r : GameResult) (k' : Knowledge)
    (h : k.add_result r = Except.ok k') (univ : List (List Char)) :
    (valid_solutions k' univ).length ≤ (valid_solutions k univ).length :=
  add_result_tightens k r k' h univ

/-- C2 witness: folding the feedback of guess `blobs` against answer
`abbey` into a fresh model shrinks a concrete three-word universe. -/
theorem c2_monotone_merge_witness :
    (valid_solutions
        (⟨[('b', 2)], [('l', 0), ('o', 0), ('s', 0)],
          [['b'], [], [], ['b'], []], [none, none, none, none, none]⟩ : Knowledge)
        ["abbey".toList, "aback".toList, "blobs".toList]).length ≤
      (valid_solutions (Knowledge.init 5)
        ["abbey".toList, "aback".toList, "blobs".toList]).length :=
  c2_monotone_merge (Knowledge.init 5) (getResult "abbey".toList "blobs".toList)
    _ (by rfl) _

/-- C8: `add_result` is idempotent on repeated Results: if folding a
Result succeeds, folding the same Result into the resulting model succeeds
again and leaves the model unchanged. -/
theorem c8_add_result_idempotent (k : Knowledge) (r : GameResult) (k' : Knowledge)
    (h : k.add_result r = Except.ok k') : k'.add_result r = Except.ok k' := by
  obtain ⟨ans, mins, maxes, wp, h1, h2, h3, h4, hk⟩ := add_result_ok_elim k r k' h
  subst hk
  have hndm := result_char_mins_keys_nodup r
  have hndx := result_char_maxes_keys_nodup r
  have s1 : mergeCorrect ans (correct_chars r) = Except.ok ans :=
    mergeCorrect_id _ ans fun e he => mergeCorrect_post _ _ _ h1 e he
  have s2 : mergeMins maxes mins (result_char_mins r) = Except.ok mins := by
    refine mergeMins_id _ maxes mins ?_
    intro e he
    obtain ⟨l, c⟩ := e
    have hrm : lookupD (result_char_mins r) l 0 = c := result_char_mins_lookupD r l c he
    constructor
    · have heq := mergeMins_lookupD_eq _ _ _ _ hndm h2 l
      simp only
      rw [heq, hrm]
      omega
    · intro mx hmx
      simp only at hmx ⊢
      rcases mergeMaxes_lookup_source _ _ _ _ h3 l mx hmx with hsrc | hsrc
      · exact mergeMins_necessary _ _ _ _ h2 (l, c) he mx hsrc
      · have hv := (result_char_maxes_mem r l mx hsrc).1
        rw [hv, hrm]
  have s3 : mergeMaxes mins maxes (result_char_maxes r) = Except.ok maxes := by
    refine mergeMaxes_id _ mins maxes ?_
    intro e he
    exact ⟨mergeMaxes_guard_necessary _ _ _ _ h3 e he,
      mergeMaxes_post _ _ _ _ hndx h3 e he⟩
  have s4 : mergeWrong wp (result_wrong_positions r) = Except.ok wp :=
    mergeWrong_id _ wp fun e he => mergeWrong_post _ _ _ h4 e he
  exact add_result_ok_intro ⟨mins, maxes, wp, ans⟩ r ans mins maxes wp s1 s2 s3 s4

/-- C8 witness: repeating the `abbey`/`blobs` fold leaves the model
unchanged. -/
theorem c8_add_result_idempotent_witness :
    (⟨[('b', 2)], [('l', 0), ('o', 0), ('s', 0)],
        [['b'], [], [], ['b'], []], [none, none, none, none, none]⟩ : Knowledge).add_result
      (getResult "abbey".toList "blobs".toList) =
    Except.ok (⟨[('b', 2)], [('l', 0), ('o', 0), ('s', 0)],
        [['b'], [], [], ['b'], []], [none, none, none, none, none]⟩ : Knowledge) :=
  c8_add_result_idempotent (Knowledge.init 5) (getResult "abbey".toList "blobs".toList)
    _ (by rfl)

section ConsistencyLemmas

lemma ansOk_iff (o : Option (Option Char)) (c : Char) :
    ansOk o c = true ↔ ∀ l', o = some (some l') → l' = c := by
  match o with
  | none => simp [ansOk]
  | some none => simp [ansOk]
  | some (some l') => simp [ansOk]

lemma minOk_iff (o : Option Nat) (c : Nat) :
    minOk o c = true ↔ ∀ mx, o = some mx → c ≤ mx := by
  match o with
  | none => simp [minOk]
  | some mx => simp [minOk]

lemma maxOk_iff (o : Option Nat) (v : Nat) :
    maxOk o v = true ↔ ∀ mx, o = some mx → v = mx := by
  match o with
  | none => simp [maxOk]
  | some mx => simp [maxOk]

lemma consistentB_iff (k : Knowledge) (r : GameResult) :
    consistentB k r = true ↔
      (∀ e ∈ correct_chars r, ∀ l', k.answer[e.1]? = some (some l') → l' = e.2) ∧
      (∀ e ∈ result_char_mins r, ∀ mx, k.char_maxes.lookup e.1 = some mx →
        e.2 ≤ mx) ∧
      (∀ e ∈ result_char_maxes r, lookupD k.char_mins e.1 0 ≤ e.2 ∧
        ∀ mx, k.char_maxes.lookup e.1 = some mx → e.2 = mx) := by
  rw [consistentB]
  simp only [Bool.and_eq_true, List.all_eq_true, ansOk_iff, minOk_iff, maxOk_iff,
    decide_eq_true_eq, and_assoc]

lemma inRangeB_iff (k : Knowledge) (r : GameResult) :
    inRangeB k r = true ↔
      (∀ e ∈ correct_chars r, e.1 < k.answer.length) ∧
      (∀ e ∈ result_wrong_positions r, e.1 < k.wrong_positions.length) := by
  rw [inRangeB]
  simp only [Bool.and_eq_true, List.all_eq_true, decide_eq_true_eq]

lemma lookupD_pos_lookup (m : List (Char × Nat)) (l : Char)
    (h : lookupD m l 0 ≠ 0) : m.lookup l = some (lookupD m l 0) := by
  cases hlk : m.lookup l with
  | none =>
    rw [lookupD, hlk] at h
    simp at h
  | some v =>
    rw [lookupD, hlk]
    rfl

lemma maxGuard_false_lookupD (mins : List (Char × Nat)) (l : Char) (v : Nat)
    (h : maxGuard mins l v = false) : lookupD mins l 0 ≤ v := by
  rw [maxGuard_false_iff] at h
  cases hlk : mins.lookup l with
  | none => simp [lookupD, hlk]
  | some mn =>
    rw [lookupD, hlk]
    exact h mn hlk

lemma mergeMaxes_eq_necessary :
    ∀ (rmax mins maxes maxes' : List (Char × Nat)),
      (rmax.map Prod.fst).Nodup →
      mergeMaxes mins maxes rmax = Except.ok maxes' →
      ∀ e ∈ rmax, ∀ mx, maxes.lookup e.1 = some mx → e.2 = mx := by
  intro rmax
  induction rmax with
  | nil =>
    intro mins maxes maxes' _ _ e he
    simp at he
  | cons e0 rest ih =>
    obtain ⟨l, c⟩ := e0
    intro mins maxes maxes' hnd h e he mx hmx
    have hnd' : (rest.map Prod.fst).Nodup := (List.nodup_cons.mp (by simpa using hnd)).2
    have hlnm : l ∉ rest.map Prod.fst := (List.nodup_cons.mp (by simpa using hnd)).1
    cases hb : maxGuard mins l c with
    | true =>
      rw [mergeMaxes_cons_guard _ _ _ _ _ hb] at h
      simp at h
    | false =>
      rcases List.mem_cons.mp he with h1 | h1
      · subst h1
        simp only at hmx ⊢
        cases hlk : maxes.lookup l with
        | none =>
          rw [hlk] at hmx
          cases hmx
        | some mx0 =>
          rw [hlk] at hmx
          injection hmx with h4
          rw [mergeMaxes_cons_some _ _ _ _ _ _ hb hlk] at h
          by_cases hc : c = mx0
          · exact hc.trans h4
          · rw [if_neg hc] at h
            simp at h
      · have hne : e.1 ≠ l := by
          intro hc
          exact hlnm (by
            rw [← hc]
            exact List.mem_map.mpr ⟨e, h1, rfl⟩)
        cases hlk : maxes.lookup l with
        | some mx0 =>
          rw [mergeMaxes_cons_some _ _ _ _ _ _ hb hlk] at h
          by_cases hc : c = mx0
          · rw [if_pos hc] at h
            exact ih mins maxes maxes' hnd' h e h1 mx hmx
          · rw [if_neg hc] at h
            simp at h
        | none =>
          rw [mergeMaxes_cons_none _ _ _ _ _ hb hlk] at h
          refine ih mins _ maxes' hnd' h e h1 mx ?_
          rw [setKey_of_lookup_none maxes l c hlk, lookup_snoc_ne _ _ _ _ hne]
          exact hmx

lemma add_result_error1 (k : Knowledge) (r : GameResult) (e : Err)
    (h1 : mergeCorrect k.answer (correct_chars r) = Except.error e) :
    k.add_result r = Except.error e := by
  simp only [Knowledge.add_result, bind, Except.bind, h1]

lemma add_result_error2 (k : Knowledge) (r : GameResult) (e : Err)
    (ans : List (Option Char))
    (h1 : mergeCorrect k.answer (correct_chars r) = Except.ok ans)
    (h2 : mergeMins k.char_maxes k.char_mins (result_char_mins r) = Except.error e) :
    k.add_result r = Except.error e := by
  simp only [Knowledge.add_result, bind, Except.bind, h1, h2]

lemma add_result_error3 (k : Knowledge) (r : GameResult) (e : Err)
    (ans : List (Option Char)) (mins : List (Char × Nat))
    (h1 : mergeCorrect k.answer (correct_chars r) = Except.ok ans)
    (h2 : mergeMins k.char_maxes k.char_mins (result_char_mins r) = Except.ok mins)
    (h3 : mergeMaxes mins k.char_maxes (result_char_maxes r) = Except.error e) :
    k.add_result r = Except.error e := by
  simp only [Knowledge.add_result, bind, Except.bind, h1, h2, h3]

end ConsistencyLemmas

/-- C4 counterexample: a merge contradicting an already-set position does
not raise a distinct `ConstraintViolation` — it is a raw Python `assert`
failure (`AssertionError`), here at a model whose position 0 is fixed to
`a` while the folded Result fixes it to `b`. -/
theorem c4_counterexample :
    (⟨[], [], [[], [], [], [], []],
        [some 'a', none, none, none, none]⟩ : Knowledge).add_result
      (getResult "bcdef".toList "bzzzz".toList) =
    Except.error Err.assertionError := by rfl

/-- C4 amended: whenever `add_result` receives a Result that contradicts
the model (a correct piece against a different set position, a derived
minimum above an established maximum, or a derived maximum that differs
from an established maximum or falls below the merged minimum), it raises
`AssertionError` — a raw assert, not a distinct `ConstraintViolation` —
and on every consistent Result (indices in range) no error is raised:
success is exactly the declarative consistency check `consistentB`. -/
theorem c4_contradiction_is_assertion (k : Knowledge) (r : GameResult)
    (hin : inRangeB k r = true) :
    ((∃ k', k.add_result r = Except.ok k') ↔ consistentB k r = true) ∧
    (consistentB k r = false → k.add_result r = Except.error Err.assertionError) := by
  obtain ⟨hinc, hinw⟩ := (inRangeB_iff k r).mp hin
  have hndm := result_char_mins_keys_nodup r
  have hndx := result_char_maxes_keys_nodup r
  have main : ∀ hc : consistentB k r = true, ∃ k', k.add_result r = Except.ok k' := by
    intro hc
    obtain ⟨c1, c2, c3⟩ := (consistentB_iff k r).mp hc
    obtain ⟨ans, h1⟩ := mergeCorrect_ok (correct_chars r) k.answer
      (correct_chars_pairwise_ne r) (fun e he => ⟨hinc e he, c1 e he⟩)
    obtain ⟨mins, h2⟩ := mergeMins_run (result_char_mins r) k.char_maxes k.char_mins c2
    have hcond3 : ∀ e ∈ result_char_maxes r,
        (∀ mn, mins.lookup e.1 = some mn → mn ≤ e.2) ∧
        (∀ mx, k.char_maxes.lookup e.1 = some mx → e.2 = mx) := by
      intro e he
      obtain ⟨l, v⟩ := e
      have hco := (result_char_maxes_mem r l v he).1
      refine ⟨?_, (c3 (l, v) he).2⟩
      intro mn hmn
      have heq := mergeMins_lookupD_eq _ _ _ _ hndm h2 l
      have hmn2 : mn = lookupD mins l 0 := by
        rw [lookupD]
        simp only at hmn
        rw [hmn]
        rfl
      have hk := (c3 (l, v) he).1
      simp only at hk hco ⊢
      rw [hmn2, heq, ← hco]
      omega
    obtain ⟨maxes, h3⟩ := mergeMaxes_run (result_char_maxes r) mins k.char_maxes hndx hcond3
    obtain ⟨wp, h4⟩ := mergeWrong_run (result_wrong_positions r) k.wrong_positions hinw
    exact ⟨_, add_result_ok_intro k r ans mins maxes wp h1 h2 h3 h4⟩
  constructor
  · constructor
    · rintro ⟨k', hk'⟩
      obtain ⟨ans, mins, maxes, wp, h1, h2, h3, h4, _⟩ := add_result_ok_elim k r k' hk'
      refine (consistentB_iff k r).mpr ⟨?_, ?_, ?_⟩
      · intro e he l' hl'
        by_contra hne
        rw [mergeCorrect_fail (correct_chars r) k.answer hinc
          ⟨e, he, l', hl', hne⟩] at h1
        cases h1
      · exact mergeMins_necessary _ _ _ _ h2
      · intro e he
        obtain ⟨l, v⟩ := e
        have hguard := mergeMaxes_guard_necessary _ _ _ _ h3 (l, v) he
        have hmono := mergeMins_lookupD_mono _ _ _ _ h2 l
        have hlk := maxGuard_false_lookupD mins l v hguard
        refine ⟨by simp only at hmono hlk ⊢; omega, ?_⟩
        exact mergeMaxes_eq_necessary _ _ _ _ hndx h3 (l, v) he
    · exact main
  · intro hne
    by_cases hcor : ∀ e ∈ correct_chars r, ∀ l', k.answer[e.1]? = some (some l') →
        l' = e.2
    · obtain ⟨ans, h1⟩ := mergeCorrect_ok (correct_chars r) k.answer
        (correct_chars_pairwise_ne r) (fun e he => ⟨hinc e he, hcor e he⟩)
      by_cases hmin : ∀ e ∈ result_char_mins r, ∀ mx,
          k.char_maxes.lookup e.1 = some mx → e.2 ≤ mx
      · obtain ⟨mins, h2⟩ := mergeMins_run (result_char_mins r) k.char_maxes
          k.char_mins hmin
        have hmax : ¬ ∀ e ∈ result_char_maxes r, lookupD k.char_mins e.1 0 ≤ e.2 ∧
            ∀ mx, k.char_maxes.lookup e.1 = some mx → e.2 = mx := by
          intro hmaxall
          rw [(consistentB_iff k r).mpr ⟨hcor, hmin, hmaxall⟩] at hne
          cases hne
        push_neg at hmax
        obtain ⟨e, he, hviol⟩ := hmax
        obtain ⟨l, v⟩ := e
        refine add_result_error3 k r Err.assertionError ans mins h1 h2 ?_
        refine mergeMaxes_fail (result_char_maxes r) mins k.char_maxes hndx
          ⟨(l, v), he, ?_⟩
        by_cases hlow : lookupD k.char_mins l 0 ≤ v
        · obtain ⟨mx, hmx, hvne⟩ := hviol hlow
          exact Or.inr ⟨mx, hmx, hvne⟩
        · left
          have heq := mergeMins_lookupD_eq _ _ _ _ hndm h2 l
          have hpos : lookupD mins l 0 ≠ 0 := by
            simp only at hlow
            omega
          refine ⟨lookupD mins l 0, lookupD_pos_lookup mins l hpos, ?_⟩
          simp only at hlow ⊢
          omega
      · push_neg at hmin
        obtain ⟨e, he, mx, hmx, hlt⟩ := hmin
        exact add_result_error2 k r Err.assertionError ans h1
          (mergeMins_fail (result_char_mins r) k.char_maxes k.char_mins
            ⟨e, he, mx, hmx, hlt⟩)
    · push_neg at hcor
      obtain ⟨e, he, l', hl', hne'⟩ := hcor
      exact add_result_error1 k r Err.assertionError
        (mergeCorrect_fail (correct_chars r) k.answer hinc ⟨e, he, l', hl', hne'⟩)

/-- C4 witness: the `abbey`/`blobs` fold into a fresh model is in range
and consistent, and the characterization applies to it. -/
theorem c4_contradiction_is_assertion_witness :
    ((∃ k', (Knowledge.init 5).add_result
        (getResult "abbey".toList "blobs".toList) = Except.ok k') ↔
      consistentB (Knowledge.init 5) (getResult "abbey".toList "blobs".toList) = true) ∧
    (consistentB (Knowledge.init 5) (getResult "abbey".toList "blobs".toList) = false →
      (Knowledge.init 5).add_result (getResult "abbey".toList "blobs".toList) =
        Except.error Err.assertionError) :=
  c4_contradiction_is_assertion (Knowledge.init 5)
    (getResult "abbey".toList "blobs".toList) (by rfl)

section ReductionLemmas

lemma guess_reduction_eq (univ : List (List Char)) (k : Knowledge)
    (guess : List Char) (pas : List (List Char)) :
    guess_reduction univ k guess pas =
      (reductionFold univ k guess 0 pas).bind fun total =>
        if pas.length = 0 then Except.error Err.zeroDivisionError
        else Except.ok ((pas.length : ℚ) - (total : ℚ) / (pas.length : ℚ)) := rfl

lemma reductionFold_nil (univ : List (List Char)) (k : Knowledge)
    (guess : List Char) (acc : Nat) :
    reductionFold univ k guess acc [] = Except.ok acc := rfl

lemma reductionFold_cons (univ : List (List Char)) (k : Knowledge)
    (guess : List Char) (acc : Nat) (pa : List Char) (rest : List (List Char)) :
    reductionFold univ k guess acc (pa :: rest) =
      match k.add_result (getResult pa guess) with
      | Except.error e => Except.error e
      | Except.ok k' =>
        reductionFold univ k guess (acc + (valid_solutions k' univ).length) rest := by
  rw [reductionFold, List.foldlM_cons]
  cases hk : k.add_result (getResult pa guess) with
  | error e =>
    simp only [hk, bind, Except.bind]
  | ok k' =>
    simp only [hk, bind, Except.bind, pure, Except.pure]
    rfl

lemma reductionFold_bound (B : Nat) (univ : List (List Char)) (k : Knowledge)
    (guess : List Char) :
    ∀ (pas : List (List Char)) (acc total : Nat),
      reductionFold univ k guess acc pas = Except.ok total →
      (∀ pa ∈ pas, ∀ k', k.add_result (getResult pa guess) = Except.ok k' →
        (valid_solutions k' univ).length ≤ B) →
      total ≤ acc + pas.length * B := by
  intro pas
  induction pas with
  | nil =>
    intro acc total h _
    rw [reductionFold_nil] at h
    injection h with h2
    omega
  | cons pa rest ih =>
    intro acc total h hB
    rw [reductionFold_cons] at h
    cases hk : k.add_result (getResult pa guess) with
    | error e =>
      rw [hk] at h
      simp at h
    | ok k' =>
      rw [hk] at h
      have hstep : (valid_solutions k' univ).length ≤ B :=
        hB pa (List.mem_cons_self _ _) k' hk
      have := ih (acc + (valid_solutions k' univ).length) total h
        (fun pa' hpa' => hB pa' (List.mem_cons_of_mem _ hpa'))
      have hlen : (pa :: rest).length = rest.length + 1 := rfl
      rw [hlen]
      have h2 : acc + (valid_solutions k' univ).length + rest.length * B ≤
          acc + (rest.length + 1) * B := by
        have : (rest.length + 1) * B = rest.length * B + B := by ring
        omega
      omega

end ReductionLemmas

/-- C6 counterexample: for a `pretendAnswers` list that is not the current
valid-solution set, `guess_reduction` can be negative: with universe
`aaaaa/ccccc/ddddd`, an empty model, guess `bbbbb` and the single pretend
answer `aaaaa`, the code returns `1 - 3/1 = -2 < 0`, refuting the claimed
lower bound 0. -/
theorem c6_counterexample :
    ∃ r : ℚ, guess_reduction ["aaaaa".toList, "ccccc".toList, "ddddd".toList]
      (Knowledge.init 5) "bbbbb".toList ["aaaaa".toList] = Except.ok r ∧ r < 0 := by
  rw [guess_reduction_eq]
  have hf : reductionFold ["aaaaa".toList, "ccccc".toList, "ddddd".toList]
      (Knowledge.init 5) "bbbbb".toList 0 ["aaaaa".toList] = Except.ok 3 := by decide
  rw [hf]
  simp only [Except.bind]
  rw [if_neg (by decide : ¬ (["aaaaa".toList] : List (List Char)).length = 0)]
  refine ⟨_, rfl, ?_⟩
  norm_num

/-- C6 amended: for every guess and non-empty `pretendAnswers` on which
`guess_reduction` succeeds, the result is at most `|pretendAnswers|`; the
lower bound 0 additionally holds when `pretendAnswers` is the model's
current valid-solution set over the universe (the source's default), but
not for arbitrary `pretendAnswers`. -/
theorem c6_reduction_bounds (univ : List (List Char)) (k : Knowledge)
    (guess : List Char) (pas : List (List Char)) (r : ℚ)
    (hne : pas ≠ [])
    (h : guess_reduction univ k guess pas = Except.ok r) :
    r ≤ (pas.length : ℚ) ∧ (pas = valid_solutions k univ → 0 ≤ r) := by
  rw [guess_reduction_eq] at h
  cases hf : reductionFold univ k guess 0 pas with
  | error e =>
    rw [hf] at h
    simp [Except.bind] at h
  | ok total =>
    rw [hf] at h
    simp only [Except.bind] at h
    have hlen : pas.length ≠ 0 := by
      intro hc
      exact hne (List.eq_nil_of_length_eq_zero hc)
    rw [if_neg hlen] at h
    injection h with h2
    have hpos : (0 : ℚ) < (pas.length : ℚ) := by
      have : 0 < pas.length := Nat.pos_of_ne_zero hlen
      exact_mod_cast this
    constructor
    · rw [← h2]
      have hnn : (0 : ℚ) ≤ (total : ℚ) / (pas.length : ℚ) :=
        div_nonneg (by positivity) (le_of_lt hpos)
      linarith
    · intro hdef
      rw [← h2]
      have hbound : total ≤ 0 + pas.length * pas.length := by
        refine reductionFold_bound pas.length univ k guess pas 0 total hf ?_
        intro pa _ k' hk'
        calc (valid_solutions k' univ).length
            ≤ (valid_solutions k univ).length := add_result_tightens k _ k' hk' univ
          _ = pas.length := by rw [hdef]
      have hq : (total : ℚ) ≤ (pas.length : ℚ) * (pas.length : ℚ) := by
        have : total ≤ pas.length * pas.length := by omega
        exact_mod_cast this
      have hdiv : (total : ℚ) / (pas.length : ℚ) ≤ (pas.length : ℚ) := by
        rw [div_le_iff₀ hpos]
        exact hq
      linarith

/-- C6 witness: a singleton pretend-answer list over an empty universe
gives reduction 1 with both amended bounds. -/
theorem c6_reduction_bounds_witness :
    (1 : ℚ) ≤ (([("aaaaa".toList)] : List (List Char)).length : ℚ) ∧
    (([("aaaaa".toList)] : List (List Char)) =
        valid_solutions (Knowledge.init 5) ([] : List (List Char)) → 0 ≤ (1 : ℚ)) := by
  refine c6_reduction_bounds [] (Knowledge.init 5) "aaaaa".toList ["aaaaa".toList] 1
    (by simp) ?_
  rw [guess_reduction_eq]
  have hf : reductionFold [] (Knowledge.init 5) "aaaaa".toList 0 ["aaaaa".toList] =
      Except.ok 0 := by decide
  rw [hf]
  simp only [Except.bind]
  rw [if_neg (by decide : ¬ (["aaaaa".toList] : List (List Char)).length = 0)]
  congr 1
  norm_num

section FeedbackSoundness

lemma getElem?_zip {α β : Type} : ∀ (xs : List α) (ys : List β) (j : Nat) (p : α × β),
    (xs.zip ys)[j]? = some p ↔ xs[j]? = some p.1 ∧ ys[j]? = some p.2 := by
  intro xs
  induction xs with
  | nil => intro ys j p; simp
  | cons x xs ih =>
    intro ys j p
    cases ys with
    | nil => simp
    | cons y ys =>
      cases j with
      | zero =>
        obtain ⟨p1, p2⟩ := p
        simp only [List.zip_cons_cons, List.getElem?_cons_zero]
        constructor
        · intro h
          injection h with h2
          injection h2 with ha hb
          exact ⟨by rw [ha], by rw [hb]⟩
        · rintro ⟨h1, h2⟩
          injection h1 with h1
          injection h2 with h2
          rw [h1, h2]
      | succ j =>
        simp only [List.zip_cons_cons, List.getElem?_cons_succ]
        exact ih ys j p

lemma pass1_eq_map (a g : List Char) : pass1 a g = (a.zip g).map (pieceFor a) := rfl

lemma pass1_getElem (a g : List Char) (j : Nat) (p : ResultPiece)
    (h : (pass1 a g)[j]? = some p) :
    ∃ x y, a[j]? = some x ∧ g[j]? = some y ∧ p = pieceFor a (x, y) := by
  rw [pass1_eq_map, List.getElem?_map] at h
  cases hz : (a.zip g)[j]? with
  | none =>
    rw [hz] at h
    cases h
  | some q =>
    rw [hz] at h
    injection h with h2
    obtain ⟨h3, h4⟩ := (getElem?_zip a g j q).mp hz
    exact ⟨q.1, q.2, h3, h4, h2.symm⟩

lemma pieceFor_no_wrong_place (a : List Char) (ag : Char × Char) :
    (pieceFor a ag).feedback ≠ some TileFeedback.wrong_place := by
  rw [pieceFor]
  by_cases h1 : ag.2 = ag.1
  · simp [h1]
  · by_cases h2 : ag.2 ∈ a <;> simp [h1, h2]

lemma pass1_marked_le (a g : List Char) (c : Char) :
    markedCount c (pass1 a g) ≤ a.count c := by
  rw [pass1_eq_map, markedCount, List.countP_map]
  have key : ∀ (xs : List Char) (ys : List Char),
      ((xs.zip ys).countP fun ag =>
        (pieceFor a ag).character == c && isMarked (pieceFor a ag)) ≤ xs.count c := by
    intro xs
    induction xs with
    | nil => intro ys; simp
    | cons x rest ih =>
      intro ys
      cases ys with
      | nil => simp
      | cons y ys =>
        rw [List.zip_cons_cons, List.countP_cons, List.count_cons]
        have hstep : (if ((pieceFor a (x, y)).character == c &&
            isMarked (pieceFor a (x, y))) = true then 1 else 0) ≤
            (if x == c then 1 else 0) := by
          by_cases hmk : ((pieceFor a (x, y)).character == c &&
              isMarked (pieceFor a (x, y))) = true
          · rw [if_pos hmk]
            have hxc : x = c := by
              simp only [Bool.and_eq_true, beq_iff_eq] at hmk
              obtain ⟨hc1, hc2⟩ := hmk
              rw [pieceFor] at hc1 hc2
              by_cases h1 : (x, y).2 = (x, y).1
              · rw [if_pos h1] at hc1
                simp only at hc1 h1
                rw [← h1, hc1]
              · rw [if_neg h1] at hc1 hc2
                by_cases h2 : (x, y).2 ∈ a
                · rw [if_pos h2] at hc2
                  simp [isMarked] at hc2
                · rw [if_neg h2] at hc2
                  simp [isMarked] at hc2
            rw [if_pos (by simp [hxc])]
          · rw [if_neg hmk]
            omega
        have := ih ys
        omega
  exact le_trans (key a g) (le_of_eq rfl)

lemma pass2_length (a : List Char) : ∀ (todo done : GameResult),
    (pass2 a done todo).length = done.length + todo.length := by
  intro todo
  induction todo with
  | nil => intro done; simp [pass2]
  | cons p rest ih =>
    intro done
    obtain ⟨ch, fb⟩ := p
    cases fb with
    | some fb =>
      rw [show pass2 a done (⟨ch, some fb⟩ :: rest) =
        pass2 a (done ++ [⟨ch, some fb⟩]) rest from by simp [pass2]]
      rw [ih]
      simp
      omega
    | none =>
      rw [show pass2 a done (⟨ch, none⟩ :: rest) =
          if markedCount ch (done ++ ⟨ch, none⟩ :: rest) < a.count ch then
            pass2 a (done ++ [⟨ch, some TileFeedback.wrong_place⟩]) rest
          else pass2 a (done ++ [⟨ch, some TileFeedback.wrong⟩]) rest from by
        simp [pass2]]
      by_cases hlt : markedCount ch (done ++ ⟨ch, none⟩ :: rest) < a.count ch
      · rw [if_pos hlt, ih]
        simp
        omega
      · rw [if_neg hlt, ih]
        simp
        omega

lemma pass2_front (a : List Char) : ∀ (todo done : GameResult) (j : Nat),
    j < done.length → (pass2 a done todo)[j]? = done[j]? := by
  intro todo
  induction todo with
  | nil => intro done j _; simp [pass2]
  | cons p rest ih =>
    intro done j hj
    obtain ⟨ch, fb⟩ := p
    have hpre : ∀ (q : ResultPiece), (done ++ [q])[j]? = done[j]? :=
      fun q => List.getElem?_append_left hj
    have hj' : ∀ (q : ResultPiece), j < (done ++ [q]).length := by
      intro q
      rw [List.length_append]
      omega
    cases fb with
    | some fb =>
      rw [show pass2 a done (⟨ch, some fb⟩ :: rest) =
        pass2 a (done ++ [⟨ch, some fb⟩]) rest from by simp [pass2]]
      rw [ih _ j (hj' _), hpre]
    | none =>
      rw [show pass2 a done (⟨ch, none⟩ :: rest) =
          if markedCount ch (done ++ ⟨ch, none⟩ :: rest) < a.count ch then
            pass2 a (done ++ [⟨ch, some TileFeedback.wrong_place⟩]) rest
          else pass2 a (done ++ [⟨ch, some TileFeedback.wrong⟩]) rest from by
        simp [pass2]]
      by_cases hlt : markedCount ch (done ++ ⟨ch, none⟩ :: rest) < a.count ch
      · rw [if_pos hlt, ih _ j (hj' _), hpre]
      · rw [if_neg hlt, ih _ j (hj' _), hpre]

lemma pass2_getElem (a : List Char) : ∀ (todo done : GameResult) (j : Nat)
    (p : ResultPiece), todo[j]? = some p →
    ∃ q, (pass2 a done todo)[done.length + j]? = some q ∧
      q.character = p.character ∧
      (∀ fb, p.feedback = some fb → q.feedback = some fb) ∧
      (q.feedback = some TileFeedback.correct → p.feedback = some TileFeedback.correct) ∧
      (q.feedback = some TileFeedback.wrong_place →
        p.feedback = none ∨ p.feedback = some TileFeedback.wrong_place) := by
  intro todo
  induction todo with
  | nil =>
    intro done j p hp
    simp at hp
  | cons p0 rest ih =>
    intro done j p hp
    obtain ⟨ch, fb⟩ := p0
    have hhead : ∀ (q0 : ResultPiece), (pass2 a (done ++ [q0]) rest)[done.length]? =
        some q0 := by
      intro q0
      rw [pass2_front a rest (done ++ [q0]) done.length
        (by rw [List.length_append]; simp)]
      rw [List.getElem?_append_right (le_refl done.length)]
      simp
    cases j with
    | zero =>
      simp only [List.getElem?_cons_zero] at hp
      injection hp with hp
      cases fb with
      | some fb =>
        refine ⟨⟨ch, some fb⟩, ?_, ?_, ?_, ?_, ?_⟩
        · rw [show pass2 a done (⟨ch, some fb⟩ :: rest) =
            pass2 a (done ++ [⟨ch, some fb⟩]) rest from by simp [pass2]]
          rw [Nat.add_zero]
          exact hhead _
        · rw [← hp]
        · intro fb' hfb'
          rw [← hp] at hfb'
          simp only at hfb'
          rw [hfb']
        · intro hc
          rw [← hp]
          simp only at hc ⊢
          exact hc
        · intro hc
          rw [← hp]
          simp only at hc ⊢
          exact Or.inr hc
      | none =>
        rw [show pass2 a done (⟨ch, none⟩ :: rest) =
            if markedCount ch (done ++ ⟨ch, none⟩ :: rest) < a.count ch then
              pass2 a (done ++ [⟨ch, some TileFeedback.wrong_place⟩]) rest
            else pass2 a (done ++ [⟨ch, some TileFeedback.wrong⟩]) rest from by
          simp [pass2]]
        by_cases hlt : markedCount ch (done ++ ⟨ch, none⟩ :: rest) < a.count ch
        · rw [if_pos hlt]
          refine ⟨⟨ch, some TileFeedback.wrong_place⟩, ?_, by rw [← hp], ?_, ?_, ?_⟩
          · rw [Nat.add_zero]
            exact hhead _
          · intro fb' hfb'
            rw [← hp] at hfb'
            simp at hfb'
          · intro hc
            simp at hc
          · intro _
            rw [← hp]
            exact Or.inl rfl
        · rw [if_neg hlt]
          refine ⟨⟨ch, some TileFeedback.wrong⟩, ?_, by rw [← hp], ?_, ?_, ?_⟩
          · rw [Nat.add_zero]
            exact hhead _
          · intro fb' hfb'
            rw [← hp] at hfb'
            simp at hfb'
          · intro hc
            simp at hc
          · intro hc
            simp at hc
    | succ j =>
      simp only [List.getElem?_cons_succ] at hp
      have harith : ∀ (q0 : ResultPiece),
          done.length + (j + 1) = (done ++ [q0]).length + j := by
        intro q0
        rw [List.length_append]
        simp
        omega
      cases fb with
      | some fb =>
        obtain ⟨q, hq, h1, h2, h3, h4⟩ := ih (done ++ [⟨ch, some fb⟩]) j p hp
        refine ⟨q, ?_, h1, h2, h3, h4⟩
        rw [show pass2 a done (⟨ch, some fb⟩ :: rest) =
          pass2 a (done ++ [⟨ch, some fb⟩]) rest from by simp [pass2]]
        rw [harith]
        exact hq
      | none =>
        rw [show pass2 a done (⟨ch, none⟩ :: rest) =
            if markedCount ch (done ++ ⟨ch, none⟩ :: rest) < a.count ch then
              pass2 a (done ++ [⟨ch, some TileFeedback.wrong_place⟩]) rest
            else pass2 a (done ++ [⟨ch, some TileFeedback.wrong⟩]) rest from by
          simp [pass2]]
        by_cases hlt : markedCount ch (done ++ ⟨ch, none⟩ :: rest) < a.count ch
        · rw [if_pos hlt]
          obtain ⟨q, hq, h1, h2, h3, h4⟩ :=
            ih (done ++ [⟨ch, some TileFeedback.wrong_place⟩]) j p hp
          refine ⟨q, ?_, h1, h2, h3, h4⟩
          rw [harith]
          exact hq
        · rw [if_neg hlt]
          obtain ⟨q, hq, h1, h2, h3, h4⟩ :=
            ih (done ++ [⟨ch, some TileFeedback.wrong⟩]) j p hp
          refine ⟨q, ?_, h1, h2, h3, h4⟩
          rw [harith]
          exact hq

lemma pass2_marked_le (a : List Char) : ∀ (todo done : GameResult),
    (∀ c, markedCount c (done ++ todo) ≤ a.count c) →
    ∀ c, markedCount c (pass2 a done todo) ≤ a.count c := by
  intro todo
  induction todo with
  | nil =>
    intro done h c
    have hc := h c
    rw [List.append_nil] at hc
    simpa [pass2] using hc
  | cons p rest ih =>
    intro done h c
    obtain ⟨ch, fb⟩ := p
    cases fb with
    | some fb =>
      rw [show pass2 a done (⟨ch, some fb⟩ :: rest) =
        pass2 a (done ++ [⟨ch, some fb⟩]) rest from by simp [pass2]]
      refine ih _ ?_ c
      intro c'
      have e : (done ++ [(⟨ch, some fb⟩ : ResultPiece)]) ++ rest =
          done ++ ⟨ch, some fb⟩ :: rest := by simp
      rw [e]
      exact h c'
    | none =>
      rw [show pass2 a done (⟨ch, none⟩ :: rest) =
          if markedCount ch (done ++ ⟨ch, none⟩ :: rest) < a.count ch then
            pass2 a (done ++ [⟨ch, some TileFeedback.wrong_place⟩]) rest
          else pass2 a (done ++ [⟨ch, some TileFeedback.wrong⟩]) rest from by
        simp [pass2]]
      by_cases hlt : markedCount ch (done ++ ⟨ch, none⟩ :: rest) < a.count ch
      · rw [if_pos hlt]
        refine ih _ ?_ c
        intro c'
        have e : (done ++ [(⟨ch, some TileFeedback.wrong_place⟩ : ResultPiece)]) ++ rest =
            done ++ ⟨ch, some TileFeedback.wrong_place⟩ :: rest := by simp
        rw [e, markedCount_middle]
        have h0 := h c'
        rw [markedCount_middle] at h0
        have hz : (if (⟨ch, none⟩ : ResultPiece).character == c' &&
            isMarked ⟨ch, none⟩ then 1 else 0) = 0 := by simp [isMarked]
        rw [hz] at h0
        have hw : (if (⟨ch, some TileFeedback.wrong_place⟩ : ResultPiece).character == c' &&
            isMarked ⟨ch, some TileFeedback.wrong_place⟩ then 1 else 0) =
            (if ch = c' then 1 else 0) := by
          simp [isMarked]
        rw [hw]
        by_cases hcc : ch = c'
        · subst hcc
          rw [markedCount_middle, hz] at hlt
          rw [if_pos rfl]
          omega
        · rw [if_neg hcc]
          omega
      · rw [if_neg hlt]
        refine ih _ ?_ c
        intro c'
        have e : (done ++ [(⟨ch, some TileFeedback.wrong⟩ : ResultPiece)]) ++ rest =
            done ++ ⟨ch, some TileFeedback.wrong⟩ :: rest := by simp
        rw [e, markedCount_middle]
        have h0 := h c'
        rw [markedCount_middle] at h0
        have hz1 : (if (⟨ch, none⟩ : ResultPiece).character == c' &&
            isMarked ⟨ch, none⟩ then 1 else 0) = 0 := by simp [isMarked]
        have hz2 : (if (⟨ch, some TileFeedback.wrong⟩ : ResultPiece).character == c' &&
            isMarked ⟨ch, some TileFeedback.wrong⟩ then 1 else 0) = 0 := by
          simp [isMarked]
        rw [hz1] at h0
        rw [hz2]
        omega

lemma pass2_resolved (a : List Char) : ∀ (todo done : GameResult),
    (∀ p, p ∈ done → p.feedback ≠ none) →
    ∀ p, p ∈ pass2 a done todo → p.feedback ≠ none := by
  intro todo
  induction todo with
  | nil =>
    intro done h p hp
    rw [show pass2 a done [] = done from by simp [pass2]] at hp
    exact h p hp
  | cons p0 rest ih =>
    intro done h p hp
    obtain ⟨ch, fb⟩ := p0
    have hstep : ∀ (q : ResultPiece), q.feedback ≠ none →
        ∀ p', p' ∈ done ++ [q] → p'.feedback ≠ none := by
      intro q hq p' hp'
      rcases List.mem_append.mp hp' with hd | hs
      · exact h p' hd
      · rw [List.mem_singleton] at hs
        rw [hs]
        exact hq
    cases fb with
    | some fb =>
      rw [show pass2 a done (⟨ch, some fb⟩ :: rest) =
        pass2 a (done ++ [⟨ch, some fb⟩]) rest from by simp [pass2]] at hp
      exact ih _ (hstep _ (by simp)) p hp
    | none =>
      rw [show pass2 a done (⟨ch, none⟩ :: rest) =
          if markedCount ch (done ++ ⟨ch, none⟩ :: rest) < a.count ch then
            pass2 a (done ++ [⟨ch, some TileFeedback.wrong_place⟩]) rest
          else pass2 a (done ++ [⟨ch, some TileFeedback.wrong⟩]) rest from by
        simp [pass2]] at hp
      by_cases hlt : markedCount ch (done ++ ⟨ch, none⟩ :: rest) < a.count ch
      · rw [if_pos hlt] at hp
        exact ih _ (hstep _ (by simp)) p hp
      · rw [if_neg hlt] at hp
        exact ih _ (hstep _ (by simp)) p hp

lemma pass2_wrong_saturated (a : List Char) : ∀ (todo done : GameResult),
    (∀ p, p ∈ todo → p.feedback = some TileFeedback.wrong →
      a.count p.character = 0) →
    (∀ p, p ∈ done → p.feedback = some TileFeedback.wrong →
      a.count p.character ≤ markedCount p.character (done ++ todo)) →
    ∀ p, p ∈ pass2 a done todo → p.feedback = some TileFeedback.wrong →
      a.count p.character ≤ markedCount p.character (pass2 a done todo) := by
  intro todo
  induction todo with
  | nil =>
    intro done _ hdone p hp hw
    rw [show pass2 a done [] = done from by simp [pass2]] at hp ⊢
    have := hdone p hp hw
    rw [List.append_nil] at this
    exact this
  | cons p0 rest ih =>
    intro done htodo hdone p hp hw
    obtain ⟨ch, fb⟩ := p0
    cases fb with
    | some fb =>
      rw [show pass2 a done (⟨ch, some fb⟩ :: rest) =
        pass2 a (done ++ [⟨ch, some fb⟩]) rest from by simp [pass2]] at hp ⊢
      refine ih _ (fun q hq => htodo q (List.mem_cons_of_mem _ hq)) ?_ p hp hw
      intro q hq hqw
      have e : (done ++ [(⟨ch, some fb⟩ : ResultPiece)]) ++ rest =
          done ++ ⟨ch, some fb⟩ :: rest := by simp
      rw [e]
      rcases List.mem_append.mp hq with hd | hs
      · exact hdone q hd hqw
      · rw [List.mem_singleton] at hs
        rw [hs] at hqw ⊢
        simp only at hqw
        have hc0 := htodo ⟨ch, some fb⟩ (List.mem_cons_self _ _) (by rw [hqw])
        simp only at hc0 ⊢
        omega
    | none =>
      rw [show pass2 a done (⟨ch, none⟩ :: rest) =
          if markedCount ch (done ++ ⟨ch, none⟩ :: rest) < a.count ch then
            pass2 a (done ++ [⟨ch, some TileFeedback.wrong_place⟩]) rest
          else pass2 a (done ++ [⟨ch, some TileFeedback.wrong⟩]) rest from by
        simp [pass2]] at hp ⊢
      have htodo' : ∀ q, q ∈ rest → q.feedback = some TileFeedback.wrong →
          a.count q.character = 0 :=
        fun q hq => htodo q (List.mem_cons_of_mem _ hq)
      by_cases hlt : markedCount ch (done ++ ⟨ch, none⟩ :: rest) < a.count ch
      · rw [if_pos hlt] at hp ⊢
        refine ih _ htodo' ?_ p hp hw
        intro q hq hqw
        have e : (done ++ [(⟨ch, some TileFeedback.wrong_place⟩ : ResultPiece)]) ++ rest =
            done ++ ⟨ch, some TileFeedback.wrong_place⟩ :: rest := by simp
        rw [e, markedCount_middle]
        rcases List.mem_append.mp hq with hd | hs
        · have hold := hdone q hd hqw
          rw [markedCount_middle] at hold
          have hz : (if (⟨ch, none⟩ : ResultPiece).character == q.character &&
              isMarked ⟨ch, none⟩ then 1 else 0) = 0 := by simp [isMarked]
          rw [hz] at hold
          omega
        · rw [List.mem_singleton] at hs
          rw [hs] at hqw
          simp at hqw
      · rw [if_neg hlt] at hp ⊢
        refine ih _ htodo' ?_ p hp hw
        intro q hq hqw
        have e : (done ++ [(⟨ch, some TileFeedback.wrong⟩ : ResultPiece)]) ++ rest =
            done ++ ⟨ch, some TileFeedback.wrong⟩ :: rest := by simp
        rw [e, markedCount_middle]
        have hz : (if (⟨ch, none⟩ : ResultPiece).character == q.character &&
            isMarked ⟨ch, none⟩ then 1 else 0) = 0 := by simp [isMarked]
        have hz2 : (if (⟨ch, some TileFeedback.wrong⟩ : ResultPiece).character == q.character &&
            isMarked ⟨ch, some TileFeedback.wrong⟩ then 1 else 0) = 0 := by
          simp [isMarked]
        rw [hz2]
        rcases List.mem_append.mp hq with hd | hs
        · have hold := hdone q hd hqw
          rw [markedCount_middle, hz] at hold
          omega
        · rw [List.mem_singleton] at hs
          have hqc : q.character = ch := by rw [hs]
          rw [hqc]
          have hzch : (if (⟨ch, none⟩ : ResultPiece).character == ch &&
              isMarked ⟨ch, none⟩ then 1 else 0) = 0 := by simp [isMarked]
          rw [markedCount_middle, hzch] at hlt
          omega

lemma pieceFor_character (a : List Char) (ag : Char × Char) :
    (pieceFor a ag).character = ag.2 := by
  rw [pieceFor]
  by_cases h1 : ag.2 = ag.1
  · rw [if_pos h1]
  · rw [if_neg h1]
    by_cases h2 : ag.2 ∈ a
    · rw [if_pos h2]
    · rw [if_neg h2]

lemma pieceFor_correct (a : List Char) (ag : Char × Char)
    (h : (pieceFor a ag).feedback = some TileFeedback.correct) : ag.2 = ag.1 := by
  by_cases h1 : ag.2 = ag.1
  · exact h1
  · rw [pieceFor, if_neg h1] at h
    by_cases h2 : ag.2 ∈ a
    · rw [if_pos h2] at h
      simp at h
    · rw [if_neg h2] at h
      simp at h

lemma pieceFor_none (a : List Char) (ag : Char × Char)
    (h : (pieceFor a ag).feedback = none) : ag.2 ≠ ag.1 ∧ ag.2 ∈ a := by
  by_cases h1 : ag.2 = ag.1
  · rw [pieceFor, if_pos h1] at h
    simp at h
  · by_cases h2 : ag.2 ∈ a
    · exact ⟨h1, h2⟩
    · rw [pieceFor, if_neg h1, if_neg h2] at h
      simp at h

lemma pass1_wrong_count (a g : List Char) (p : ResultPiece)
    (hp : p ∈ pass1 a g) (hw : p.feedback = some TileFeedback.wrong) :
    a.count p.character = 0 := by
  rw [pass1_eq_map] at hp
  obtain ⟨ag, hag, hfp⟩ := List.mem_map.mp hp
  subst hfp
  rw [pieceFor_character]
  by_cases h1 : ag.2 = ag.1
  · rw [pieceFor, if_pos h1] at hw
    simp at hw
  · by_cases h2 : ag.2 ∈ a
    · rw [pieceFor, if_neg h1, if_pos h2] at hw
      simp at hw
    · exact List.count_eq_zero.mpr h2

lemma getResult_getElem (a g : List Char) (j : Nat) (q : ResultPiece)
    (hq : (getResult a g)[j]? = some q) :
    ∃ x y, a[j]? = some x ∧ g[j]? = some y ∧ q.character = y ∧
      (q.feedback = some TileFeedback.correct → y = x) ∧
      (q.feedback = some TileFeedback.wrong_place → y ≠ x ∧ y ∈ a) := by
  have hlt : j < (getResult a g).length := lt_of_getElem?_some hq
  have hlen : (getResult a g).length = (pass1 a g).length := by
    rw [getResult, pass2_length]
    simp
  cases hp : (pass1 a g)[j]? with
  | none =>
    rw [List.getElem?_eq_none_iff] at hp
    rw [hlen] at hlt
    omega
  | some p =>
    obtain ⟨q', hq', hch, hfwd, hcor, hwp⟩ := pass2_getElem a (pass1 a g) [] j p hp
    have hq2 : (getResult a g)[j]? = some q' := by
      rw [getResult]
      simpa using hq'
    rw [hq] at hq2
    injection hq2 with he
    subst he
    obtain ⟨x, y, hx, hy, hpf⟩ := pass1_getElem a g j p hp
    subst hpf
    refine ⟨x, y, hx, hy, ?_, ?_, ?_⟩
    · rw [hch, pieceFor_character]
    · intro hc
      exact pieceFor_correct a (x, y) (hcor hc)
    · intro hc
      rcases hwp hc with hn | hwr
      · exact pieceFor_none a (x, y) hn
      · exact absurd hwr (pieceFor_no_wrong_place a (x, y))

lemma minRequired_eq_marked : ∀ (r : GameResult) (l : Char),
    (∀ p, p ∈ r → p.feedback ≠ none) → minRequired r l = markedCount l r := by
  intro r
  induction r with
  | nil => intro l _; rfl
  | cons p rest ih =>
    intro l h
    have hrec := ih l (fun q hq => h q (List.mem_cons_of_mem p hq))
    show List.countP _ (p :: rest) = List.countP _ (p :: rest)
    rw [List.countP_cons, List.countP_cons]
    rw [show List.countP (fun p =>
        p.character == l && !(p.feedback == some TileFeedback.wrong)) rest =
      List.countP (fun p => p.character == l && isMarked p) rest from hrec]
    congr 1
    have hp := h p (List.mem_cons_self p rest)
    cases hfb : p.feedback with
    | none => exact absurd hfb hp
    | some fb => cases fb <;> simp [isMarked, hfb]

lemma lookup_eq_none_of_no_key : ∀ (m : List (Char × Nat)) (l : Char),
    (∀ v, (l, v) ∉ m) → m.lookup l = none := by
  intro m
  induction m with
  | nil => intro l _; rfl
  | cons e rest ih =>
    intro l h
    obtain ⟨k, v⟩ := e
    show (match l == k with
      | true => some v
      | false => rest.lookup l) = none
    by_cases hk : l = k
    · subst hk
      exact absurd (List.mem_cons_self _ _) (h v)
    · rw [beq_false_of_ne hk]
      exact ih l fun v' hv' => h v' (List.mem_cons_of_mem _ hv')

lemma wrongChars_mem (r : GameResult) (l : Char) :
    l ∈ wrongChars r ↔ ∃ p, p ∈ r ∧ p.feedback = some TileFeedback.wrong ∧
      p.character = l := by
  rw [wrongChars, List.mem_dedup, List.mem_map]
  constructor
  · rintro ⟨p, hp, hc⟩
    rw [List.mem_filter] at hp
    exact ⟨p, hp.1, by simpa using hp.2, hc⟩
  · rintro ⟨p, hp, hf, hc⟩
    exact ⟨p, List.mem_filter.mpr ⟨hp, by simp [hf]⟩, hc⟩

lemma correct_chars_sound (a g : List Char) (i : Nat) (l : Char)
    (h : (i, l) ∈ correct_chars (getResult a g)) : a[i]? = some l := by
  rw [correct_chars] at h
  obtain ⟨j, q, hq, hi, hf, hc⟩ := (correctCharsAux_mem_iff _ 0 (i, l)).mp h
  simp only at hi hc
  have hij : i = j := by omega
  subst hij
  obtain ⟨x, y, hx, _, hch, hcor, _⟩ := getResult_getElem a g i q hq
  have hl : l = x := by
    rw [← hc, hch]
    exact hcor hf
  rw [hx, hl]

lemma wrong_positions_sound (a g : List Char) (i : Nat) (c : Char)
    (h : (i, c) ∈ result_wrong_positions (getResult a g)) (x : Char)
    (hx : a[i]? = some x) : x ≠ c := by
  rw [result_wrong_positions] at h
  obtain ⟨j, q, hq, hi, hf, hc⟩ := (wrongPositionsAux_mem_iff _ 0 (i, c)).mp h
  simp only at hi hc
  have hij : i = j := by omega
  subst hij
  obtain ⟨x', y, hx', _, hch, _, hwp⟩ := getResult_getElem a g i q hq
  obtain ⟨hne, _⟩ := hwp hf
  have hxx : x = x' := by
    rw [hx] at hx'
    injection hx'
  have hcy : c = y := by rw [← hc, hch]
  rw [hxx, hcy]
  exact fun hxy => hne hxy.symm

lemma getResult_marked_le (a g : List Char) (c : Char) :
    markedCount c (getResult a g) ≤ a.count c := by
  refine pass2_marked_le a (pass1 a g) [] ?_ c
  intro c'
  simpa using pass1_marked_le a g c'

lemma getResult_resolved (a g : List Char) :
    ∀ p, p ∈ getResult a g → p.feedback ≠ none :=
  pass2_resolved a (pass1 a g) [] fun p hp => absurd hp (List.not_mem_nil p)

lemma char_mins_sound (a g : List Char) (l : Char) (c : Nat)
    (h : (l, c) ∈ result_char_mins (getResult a g)) : c ≤ a.count l := by
  obtain ⟨hc, _⟩ := result_char_mins_mem _ _ _ h
  rw [hc, minRequired_eq_marked _ l (getResult_resolved a g)]
  exact getResult_marked_le a g l

lemma char_maxes_sound (a g : List Char) (l : Char) (v : Nat)
    (h : (l, v) ∈ result_char_maxes (getResult a g)) : v = a.count l := by
  obtain ⟨hv, hw⟩ := result_char_maxes_mem _ _ _ h
  obtain ⟨p, hp, hpf, hpc⟩ := (wrongChars_mem _ l).mp hw
  have hsat := pass2_wrong_saturated a (pass1 a g) []
    (fun q hq hqw => pass1_wrong_count a g q hq hqw)
    (fun q hq => absurd hq (List.not_mem_nil q)) p hp hpf
  rw [hpc] at hsat
  have hsat2 : a.count l ≤ markedCount l (getResult a g) := hsat
  have hle := getResult_marked_le a g l
  have hmr := minRequired_eq_marked (getResult a g) l (getResult_resolved a g)
  rw [hv]
  by_cases hz : minRequired (getResult a g) l = 0
  · have hcount : a.count l = 0 := by omega
    rw [hcount, lookupD, lookup_eq_none_of_no_key]
    · rfl
    · intro v' hv'
      obtain ⟨hv1, hv2⟩ := result_char_mins_mem _ _ _ hv'
      exact hv2 (hv1.trans hz)
  · have hmem : (l, minRequired (getResult a g) l) ∈
        result_char_mins (getResult a g) := by
      rw [result_char_mins, List.mem_filterMap]
      refine ⟨l, ?_, ?_⟩
      · rw [resultChars, List.mem_dedup, List.mem_map]
        exact ⟨p, hp, hpc⟩
      · show (if minRequired (getResult a g) l ≠ 0 then
            some (l, minRequired (getResult a g) l) else none) =
          some (l, minRequired (getResult a g) l)
        rw [if_pos hz]
    rw [result_char_mins_lookupD _ _ _ hmem]
    omega

lemma wrong_positions_lt (a g : List Char) (i : Nat) (c : Char)
    (h : (i, c) ∈ result_wrong_positions (getResult a g)) : i < a.length := by
  rw [result_wrong_positions] at h
  obtain ⟨j, q, hq, hi, _, _⟩ := (wrongPositionsAux_mem_iff _ 0 (i, c)).mp h
  simp only at hi
  obtain ⟨x, y, hx, _, _, _, _⟩ := getResult_getElem a g j q hq
  have := lt_of_getElem?_some hx
  omega

lemma sound_step (a g : List Char) (k : Knowledge) (hInv : SoundInv a k) :
    ∃ k', k.add_result (getResult a g) = Except.ok k' ∧ SoundInv a k' := by
  obtain ⟨hAns, hMins, hMaxes, hWrong, hLenA, hLenW⟩ := hInv
  have hrm_le : ∀ e ∈ result_char_mins (getResult a g), e.2 ≤ a.count e.1 := by
    intro e he
    obtain ⟨l, c⟩ := e
    exact char_mins_sound a g l c he
  have hcond1 : ∀ e ∈ correct_chars (getResult a g), e.1 < k.answer.length ∧
      ∀ l', k.answer[e.1]? = some (some l') → l' = e.2 := by
    intro e he
    obtain ⟨i, l⟩ := e
    have hcorr := correct_chars_sound a g i l he
    have hlt : i < a.length := lt_of_getElem?_some hcorr
    refine ⟨by rw [hLenA]; exact hlt, ?_⟩
    intro l' hl'
    have h0 := hAns i l' hl'
    rw [hcorr] at h0
    injection h0 with h
    exact h.symm
  have hcond2 : ∀ e ∈ result_char_mins (getResult a g),
      ∀ mx, k.char_maxes.lookup e.1 = some mx → e.2 ≤ mx := by
    intro e he mx hmx
    obtain ⟨l, c⟩ := e
    have hmem := lookup_mem k.char_maxes l mx hmx
    have hmx_eq : mx = a.count l := hMaxes (l, mx) hmem
    have hc_le : c ≤ a.count l := char_mins_sound a g l c he
    simp only
    omega
  obtain ⟨ans, h1⟩ := mergeCorrect_ok (correct_chars (getResult a g)) k.answer
    (correct_chars_pairwise_ne _) hcond1
  obtain ⟨mins, h2⟩ := mergeMins_run (result_char_mins (getResult a g))
    k.char_maxes k.char_mins hcond2
  have hcond3 : ∀ e ∈ result_char_maxes (getResult a g),
      (∀ mn, mins.lookup e.1 = some mn → mn ≤ e.2) ∧
      (∀ mx, k.char_maxes.lookup e.1 = some mx → e.2 = mx) := by
    intro e he
    obtain ⟨l, v⟩ := e
    have hv : v = a.count l := char_maxes_sound a g l v he
    refine ⟨?_, ?_⟩
    · intro mn hmn
      have hmem := lookup_mem mins l mn hmn
      have hmn_le : mn ≤ a.count l :=
        mergeMins_values _ _ _ _ (fun l c => c ≤ a.count l) hMins hrm_le h2
          (l, mn) hmem
      simp only
      omega
    · intro mx hmx
      have hmem := lookup_mem k.char_maxes l mx hmx
      have hmx_eq : mx = a.count l := hMaxes (l, mx) hmem
      simp only
      rw [hv, hmx_eq]
  have hcond4 : ∀ e ∈ result_wrong_positions (getResult a g),
      e.1 < k.wrong_positions.length := by
    intro e he
    obtain ⟨i, c⟩ := e
    rw [hLenW]
    exact wrong_positions_lt a g i c he
  obtain ⟨maxes, h3⟩ := mergeMaxes_run (result_char_maxes (getResult a g))
    mins k.char_maxes (result_char_maxes_keys_nodup _) hcond3
  obtain ⟨wp, h4⟩ := mergeWrong_run (result_wrong_positions (getResult a g))
    k.wrong_positions hcond4
  refine ⟨⟨mins, maxes, wp, ans⟩, add_result_ok_intro k _ ans mins maxes wp h1 h2 h3 h4,
    ?_, ?_, ?_, ?_, ?_, ?_⟩
  · intro i l hi
    rcases mergeCorrect_source _ _ _ h1 i l hi with hold | hnew
    · exact hAns i l hold
    · exact correct_chars_sound a g i l hnew
  · exact mergeMins_values _ _ _ _ (fun l c => c ≤ a.count l) hMins hrm_le h2
  · intro e he
    rcases mergeMaxes_source _ _ _ _ h3 e he with hold | hnew
    · exact hMaxes e hold
    · obtain ⟨l, v⟩ := e
      exact char_maxes_sound a g l v hnew
  · intro i st c hi hc x hx
    rcases mergeWrong_source _ _ _ h4 i st c hi hc with ⟨st0, hst0, hc0⟩ | hnew
    · exact hWrong i st0 c hst0 hc0 x hx
    · exact wrong_positions_sound a g i c hnew x hx
  · rw [mergeCorrect_length _ _ _ h1]
    exact hLenA
  · rw [mergeWrong_length _ _ _ h4]
    exact hLenW

lemma sound_valid (a : List Char) (k : Knowledge) (hInv : SoundInv a k) :
    k.is_valid_solution a = true := by
  obtain ⟨hAns, hMins, hMaxes, hWrong, _, _⟩ := hInv
  rw [is_valid_iff]
  refine ⟨hMins, ?_, ?_, ?_⟩
  · intro e he
    exact le_of_eq (hMaxes e he).symm
  · intro i l c hi hw2
    have := hAns i l hi
    rw [hw2] at this
    injection this with h
    exact h.symm
  · intro i st c hi hw2 hc
    exact hWrong i st c hi hc c hw2 rfl

lemma sound_init (a : List Char) : SoundInv a (Knowledge.init a.length) := by
  refine ⟨?_, ?_, ?_, ?_, ?_, ?_⟩
  · intro i l hi
    rw [Knowledge.init] at hi
    simp only at hi
    rw [List.getElem?_replicate] at hi
    by_cases hlt : i < a.length
    · rw [if_pos hlt] at hi
      cases hi
    · rw [if_neg hlt] at hi
      cases hi
  · intro e he
    exact absurd he (List.not_mem_nil e)
  · intro e he
    exact absurd he (List.not_mem_nil e)
  · intro i st c hi hc x _
    rw [Knowledge.init] at hi
    simp only at hi
    rw [List.getElem?_replicate] at hi
    by_cases hlt : i < a.length
    · rw [if_pos hlt] at hi
      injection hi with h
      rw [← h] at hc
      cases hc
    · rw [if_neg hlt] at hi
      cases hi
  · simp [Knowledge.init]
  · simp [Knowledge.init]

lemma sound_fold (a : List Char) : ∀ (gs : List (List Char)) (k : Knowledge),
    SoundInv a k →
    ∃ k', foldResults a k gs = Except.ok k' ∧ SoundInv a k' := by
  intro gs
  induction gs with
  | nil =>
    intro k hk
    exact ⟨k, rfl, hk⟩
  | cons g rest ih =>
    intro k hk
    obtain ⟨k1, h1, hk1⟩ := sound_step a g k hk
    obtain ⟨k', h2, hk'⟩ := ih k1 hk1
    refine ⟨k', ?_, hk'⟩
    simp only [foldResults]
    rw [h1]
    exact h2

/-- C10: soundness of the constraint model. For every answer string and
every finite sequence of guesses, folding `get(answer=answer, guess=g)`
for each guess into a fresh model via `add_result` never raises any error
(no failed assert, no IndexError), and in the resulting model
`is_valid_solution(answer)` is true: the true answer is never excluded by
feedback computed against itself. (Stated for arbitrary lengths, so in
particular for length-5 Wordle and length-8 Nerdle games.) -/
theorem c10_fold_sound (a : List Char) (gs : List (List Char)) :
    ∃ k, foldResults a (Knowledge.init a.length) gs = Except.ok k ∧
      k.is_valid_solution a = true := by
  obtain ⟨k, h1, h2⟩ := sound_fold a gs (Knowledge.init a.length) (sound_init a)
  exact ⟨k, h1, sound_valid a k h2⟩

end FeedbackSoundness

end Wordle

namespace Nerdle

lemma isDigitCh_digitChar : ∀ d : Nat, isDigitCh (digitChar d) = true
  | 0 => rfl
  | 1 => rfl
  | 2 => rfl
  | 3 => rfl
  | 4 => rfl
  | 5 => rfl
  | 6 => rfl
  | 7 => rfl
  | 8 => rfl
  | _ + 9 => rfl

lemma natToStringAux_digits : ∀ (n : Nat), ∀ c ∈ natToStringAux n, isDigitCh c = true := by
  intro n
  induction n using Nat.strong_induction_on with
  | _ n ih =>
    intro c hc
    rw [natToStringAux] at hc
    by_cases h : n < 10
    · rw [dif_pos h, List.mem_singleton] at hc
      rw [hc]
      exact isDigitCh_digitChar n
    · rw [dif_neg h] at hc
      rcases List.mem_cons.mp hc with h1 | h1
      · rw [h1]
        exact isDigitCh_digitChar _
      · exact ih (n / 10) (Nat.div_lt_self (by omega) (by omega)) c h1

lemma natToString_digits (n : Nat) : ∀ c ∈ natToString n, isDigitCh c = true := by
  intro c hc
  rw [natToString, List.mem_reverse] at hc
  exact natToStringAux_digits n c hc

lemma natToStringAux_length : ∀ (k n : Nat), 10 ^ k ≤ n → n < 10 ^ (k + 1) →
    (natToStringAux n).length = k + 1 := by
  intro k
  induction k with
  | zero =>
    intro n _ h2
    rw [natToStringAux, dif_pos (by simpa using h2)]
    rfl
  | succ k ih =>
    intro n h1 h2
    have hp : (10 : Nat) ^ 1 ≤ 10 ^ (k + 1) := Nat.pow_le_pow_right (by omega) (by omega)
    rw [pow_one] at hp
    have h10 : ¬ n < 10 := by omega
    have hle : 10 ^ k ≤ n / 10 := by
      rw [Nat.le_div_iff_mul_le (by omega)]
      rw [pow_succ] at h1
      exact h1
    have hlt : n / 10 < 10 ^ (k + 1) := by
      rw [Nat.div_lt_iff_lt_mul (by omega)]
      rw [pow_succ] at h2
      exact h2
    rw [natToStringAux, dif_neg h10, List.length_cons, ih (n / 10) hle hlt]

lemma natToString_length (k n : Nat) (h1 : 10 ^ k ≤ n) (h2 : n < 10 ^ (k + 1)) :
    (natToString n).length = k + 1 := by
  rw [natToString, List.length_reverse]
  exact natToStringAux_length k n h1 h2

lemma splitEq_append : ∀ (lhs rhs : List Char), '=' ∉ lhs →
    splitEq (lhs ++ '=' :: rhs) = some (lhs, rhs) := by
  intro lhs
  induction lhs with
  | nil =>
    intro rhs _
    show splitEq ('=' :: rhs) = some ([], rhs)
    rw [splitEq, if_pos rfl]
  | cons c rest ih =>
    intro rhs h
    have hc : c ≠ '=' := by
      intro hce
      refine h ?_
      rw [← hce]
      exact List.mem_cons_self c rest
    show splitEq (c :: (rest ++ '=' :: rhs)) = some (c :: rest, rhs)
    rw [splitEq, if_neg hc, ih rhs fun hm => h (List.mem_cons_of_mem c hm)]
    rfl

lemma interleaveTO_length : ∀ (tss : List (List Char)) (ops : List Char),
    (interleaveTO tss ops).length = (tss.map List.length).sum + ops.length := by
  intro tss
  induction tss with
  | nil => intro ops; simp [interleaveTO]
  | cons t ts ih =>
    intro ops
    cases ops with
    | nil =>
      rw [show interleaveTO (t :: ts) [] = t ++ interleaveTO ts [] from rfl]
      rw [List.length_append, ih]
      simp only [List.map_cons, List.sum_cons, List.length_nil]
      omega
    | cons o os =>
      rw [show interleaveTO (t :: ts) (o :: os) = t ++ o :: interleaveTO ts os from rfl]
      rw [List.length_append, List.length_cons, ih]
      simp only [List.map_cons, List.sum_cons, List.length_cons]
      omega

lemma interleaveTO_mem : ∀ (tss : List (List Char)) (ops : List Char) (c : Char),
    c ∈ interleaveTO tss ops → (∃ t, t ∈ tss ∧ c ∈ t) ∨ c ∈ ops := by
  intro tss
  induction tss with
  | nil =>
    intro ops c hc
    exact Or.inr hc
  | cons t ts ih =>
    intro ops c hc
    cases ops with
    | nil =>
      rw [show interleaveTO (t :: ts) [] = t ++ interleaveTO ts [] from rfl] at hc
      rcases List.mem_append.mp hc with h | h
      · exact Or.inl ⟨t, List.mem_cons_self t ts, h⟩
      · rcases ih [] c h with ⟨t2, ht2, hc2⟩ | h2
        · exact Or.inl ⟨t2, List.mem_cons_of_mem t ht2, hc2⟩
        · exact Or.inr h2
    | cons o os =>
      rw [show interleaveTO (t :: ts) (o :: os) = t ++ o :: interleaveTO ts os from rfl] at hc
      rcases List.mem_append.mp hc with h | h
      · exact Or.inl ⟨t, List.mem_cons_self t ts, h⟩
      · rcases List.mem_cons.mp h with h1 | h1
        · refine Or.inr ?_
          rw [h1]
          exact List.mem_cons_self o os
        · rcases ih os c h1 with ⟨t2, ht2, hc2⟩ | h2
          · exact Or.inl ⟨t2, List.mem_cons_of_mem t ht2, hc2⟩
          · exact Or.inr (List.mem_cons_of_mem o h2)

lemma productRep_mem : ∀ (n : Nat) (xs : List Char) (l : List Char),
    l ∈ productRep xs n → l.length = n ∧ ∀ x ∈ l, x ∈ xs := by
  intro n
  induction n with
  | zero =>
    intro xs l hl
    rw [show productRep xs 0 = [[]] from rfl, List.mem_singleton] at hl
    rw [hl]
    exact ⟨rfl, fun x hx => absurd hx (List.not_mem_nil x)⟩
  | succ n ih =>
    intro xs l hl
    rw [show productRep xs (n + 1) =
      xs.flatMap (fun x => (productRep xs n).map fun l => x :: l) from rfl,
      List.mem_flatMap] at hl
    obtain ⟨x, hx, hl2⟩ := hl
    rw [List.mem_map] at hl2
    obtain ⟨l2, hl2m, hcons⟩ := hl2
    obtain ⟨hlen, hmem⟩ := ih xs l2 hl2m
    rw [← hcons]
    refine ⟨by rw [List.length_cons, hlen], ?_⟩
    intro y hy
    rcases List.mem_cons.mp hy with h1 | h1
    · rw [h1]
      exact hx
    · exact hmem y h1

lemma productRepN_mem : ∀ (n : Nat) (xs : List Nat) (l : List Nat),
    l ∈ productRepN xs n → l.length = n ∧ ∀ x ∈ l, x ∈ xs := by
  intro n
  induction n with
  | zero =>
    intro xs l hl
    rw [show productRepN xs 0 = [[]] from rfl, List.mem_singleton] at hl
    rw [hl]
    exact ⟨rfl, fun x hx => absurd hx (List.not_mem_nil x)⟩
  | succ n ih =>
    intro xs l hl
    rw [show productRepN xs (n + 1) =
      xs.flatMap (fun x => (productRepN xs n).map fun l => x :: l) from rfl,
      List.mem_flatMap] at hl
    obtain ⟨x, hx, hl2⟩ := hl
    rw [List.mem_map] at hl2
    obtain ⟨l2, hl2m, hcons⟩ := hl2
    obtain ⟨hlen, hmem⟩ := ih xs l2 hl2m
    rw [← hcons]
    refine ⟨by rw [List.length_cons, hlen], ?_⟩
    intro y hy
    rcases List.mem_cons.mp hy with h1 | h1
    · rw [h1]
      exact hx
    · exact hmem y h1

lemma termRange_mem (ts t : Nat) (ht : t ∈ termRange ts) :
    10 ^ (ts - 1) ≤ t ∧ t < 10 ^ ts := by
  rw [termRange, List.mem_range'_1] at ht
  obtain ⟨hl, hr⟩ := ht
  have hpow : 10 ^ (ts - 1) ≤ 10 ^ ts := Nat.pow_le_pow_right (by omega) (by omega)
  exact ⟨hl, by omega⟩

lemma natToString_termRange (ts t : Nat) (h1 : 1 ≤ ts) (ht : t ∈ termRange ts) :
    (natToString t).length = ts := by
  obtain ⟨hl, hr⟩ := termRange_mem ts t ht
  have h2 := natToString_length (ts - 1) t hl
    (by rw [show ts - 1 + 1 = ts from by omega]; exact hr)
  omega

lemma prodTerms_sum_lengths : ∀ (tss terms : List Nat),
    (∀ ts ∈ tss, 1 ≤ ts) → terms ∈ prodTerms tss →
    ((terms.map natToString).map List.length).sum = tss.sum := by
  intro tss
  induction tss with
  | nil =>
    intro terms _ ht
    rw [show prodTerms [] = [[]] from rfl, List.mem_singleton] at ht
    rw [ht]
    rfl
  | cons ts rest ih =>
    intro terms hpos ht
    rw [show prodTerms (ts :: rest) = (termRange ts).flatMap
      (fun t => (prodTerms rest).map fun terms => t :: terms) from rfl,
      List.mem_flatMap] at ht
    obtain ⟨t, htr, hmap⟩ := ht
    rw [List.mem_map] at hmap
    obtain ⟨terms2, hterms2, hcons⟩ := hmap
    rw [← hcons]
    simp only [List.map_cons, List.sum_cons]
    rw [ih terms2 (fun x hx => hpos x (List.mem_cons_of_mem ts hx)) hterms2,
      natToString_termRange ts t (hpos ts (List.mem_cons_self ts rest)) htr]

lemma rat_eq_intCast_of_den_one (q : ℚ) (h : q.den = 1) : q = (q.num : ℚ) := by
  have h2 := Rat.num_div_den q
  rw [h] at h2
  simpa using h2.symm

lemma equation_no_eq (terms : List Nat) (operators : List Char)
    (hops : ∀ o ∈ operators, o ∈ opChars) :
    '=' ∉ interleaveTO (terms.map natToString) operators := by
  intro hmem
  rcases interleaveTO_mem _ _ '=' hmem with ⟨t2, ht2, hc⟩ | hc
  · rw [List.mem_map] at ht2
    obtain ⟨t, _, hts⟩ := ht2
    rw [← hts] at hc
    have hd := natToString_digits t '=' hc
    exact absurd hd (by decide)
  · have h2 := hops '=' hc
    exact absurd h2 (by decide)

lemma tryEquation_some (size_r : Nat) (terms : List Nat) (operators : List Char)
    (s : List Char) (h : tryEquation size_r terms operators = some s) :
    ∃ ans : ℚ,
      evalLhs (interleaveTO (terms.map natToString) operators) = some ans ∧
      ans.den = 1 ∧ (intToString ans.num).length = size_r ∧
      s = interleaveTO (terms.map natToString) operators ++ '=' :: intToString ans.num := by
  simp only [tryEquation] at h
  split at h
  next hev =>
    cases h
  next ans hev =>
    by_cases hden : ans.den = 1
    · rw [if_pos hden] at h
      by_cases hlen : (intToString ans.num).length = size_r
      · rw [if_pos hlen] at h
        injection h with h2
        exact ⟨ans, hev, hden, hlen, h2.symm⟩
      · rw [if_neg hlen] at h
        cases h
    · rw [if_neg hden] at h
      cases h

end Nerdle

/-- C9: every equation string emitted by the embedded `generate` has total
length equal to the requested answer length (`ANSWER_SIZE = 8`), and
splitting it at its `=` yields a left-hand side that, evaluated with
exact rational arithmetic over `+`, `-`, `*`, `/` (with Python operator
precedence), equals exactly the integer printed on the right-hand side. -/
theorem c9_generate_sound :
    Nerdle.generate.Forall fun s =>
      s.length = Nerdle.ANSWER_SIZE ∧
      ∃ (lhs : List Char) (n : Int),
        Nerdle.splitEq s = some (lhs, Nerdle.intToString n) ∧
        Nerdle.evalLhs lhs = some ((n : ℚ)) := by
  rw [List.forall_iff_forall_mem]
  intro s hs
  simp only [Nerdle.generate, Nerdle.ANSWER_SIZE, List.mem_flatMap,
    List.mem_range'_1] at hs
  obtain ⟨size_l, hsl, hs⟩ := hs
  by_cases hmo : (size_l - 1) / 2 = 0
  · rw [if_pos hmo] at hs
    cases hs
  · rw [if_neg hmo] at hs
    simp only [List.mem_flatMap, List.mem_range'_1, List.mem_filter,
      List.mem_filterMap, decide_eq_true_eq] at hs
    obtain ⟨num_operators, hno, term_sizes, ⟨hts_mem, hts_sum⟩, operators, hops,
      terms, hterms, htry⟩ := hs
    obtain ⟨ans, hev, hden, hlen, hseq⟩ :=
      Nerdle.tryEquation_some _ terms operators s htry
    obtain ⟨hts_len, hts_el⟩ := Nerdle.productRepN_mem _ _ term_sizes hts_mem
    obtain ⟨hops_len, hops_el⟩ := Nerdle.productRep_mem _ _ operators hops
    have hts_pos : ∀ ts ∈ term_sizes, 1 ≤ ts := by
      intro ts hts
      have := hts_el ts hts
      rw [List.mem_range'_1] at this
      omega
    have heq_len : (Nerdle.interleaveTO (terms.map Nerdle.natToString)
        operators).length = term_sizes.sum + num_operators := by
      rw [Nerdle.interleaveTO_length,
        Nerdle.prodTerms_sum_lengths term_sizes terms hts_pos hterms, hops_len]
    refine ⟨?_, Nerdle.interleaveTO (terms.map Nerdle.natToString) operators,
      ans.num, ?_, ?_⟩
    · rw [hseq, List.length_append, List.length_cons, heq_len, hlen]
      show term_sizes.sum + num_operators + (8 - size_l - 1 + 1) = 8
      omega
    · rw [hseq]
      exact Nerdle.splitEq_append _ _ (Nerdle.equation_no_eq terms operators hops_el)
    · rw [hev]
      exact congrArg some (Nerdle.rat_eq_intCast_of_den_one ans hden)
